import Mathlib

/-!
# Lunar descent solver (`main.go`)

A shallow embedding of the kinematics functions, of the brute-force search
`FindVariableTime` and of the sampling functions `generate...Data` of `main.go`.

Go's `float64` is not fixed once and for all: every function of the program is
written over a carrier `F` together with a record `Float64Arith F` of the
arithmetic the source uses (`+ - * /`, `<=`, `math.Abs`, `math.Log`,
`math.Pow`, and the conversion of a decimal constant).  Statements about the
shape of the search hold for every such arithmetic.  Two arithmetics are
instantiated:

* `realArith`, exact real arithmetic, for the analytic statements (integrals,
  derivatives, limits) and the numeric scenarios;
* `binary64Arith`, IEEE-754 binary64 with rounding to nearest, ties to even:
  `+ - * /`, `<=`, `math.Abs` and the constants are exact models, `math.Log` and
  `math.Pow` are parameters (the standard fixes no rounding for them), for the
  statements that depend on how the loop counters are rounded.

The global variable `num` of the program is threaded explicitly.  Loops that
need not terminate take a fuel argument; `none` means the fuel ran out.
-/

namespace Physics

/-! ## The arithmetic interface -/

/-- The operations on `float64` that `main.go` uses. `lit q` is the value of the
decimal constant `q` of the source text. -/
structure Float64Arith (F : Type) where
  add : F → F → F
  sub : F → F → F
  mul : F → F → F
  div : F → F → F
  le : F → F → Bool
  abs : F → F
  log : F → F
  pow : F → F → F
  lit : ℚ → F

/-! ## The program -/

/-- The struct `consts` of the source, over the carrier `F`. -/
structure consts (F : Type) where
  objectMass : F
  fuelMass : F
  jetSpeed : F
  burnSpeed : F
  g : F
  startSpeed : F
  startHeight : F
  fallTime : F
  engineTime : F
  mass : F

/-- The initial value of the global `num`. -/
def num {F : Type} (A : Float64Arith F) : consts F :=
  { objectMass := A.lit 2150.0, fuelMass := A.lit 150.0,
    jetSpeed := A.lit 3660.0, burnSpeed := A.lit 15.0,
    g := A.lit 1.62, startSpeed := A.lit 0,
    startHeight := A.lit 0, fallTime := A.lit 0,
    engineTime := A.lit 0, mass := A.lit 2300 }

/-- The two assignments `num.startSpeed = startS; num.startHeight = startH` of
`main`. -/
def setStart {F : Type} (st : consts F) (startS startH : F) : consts F :=
  { st with startSpeed := startS, startHeight := startH }

/-- Source: `v := num.startSpeed + num.g*t`. -/
def CountFallSpeed {F : Type} (A : Float64Arith F) (st : consts F) (t : F) : F :=
  A.add st.startSpeed (A.mul st.g t)

/-- Source: `CountFallSpeed(ft) + num.g*t -
num.jetSpeed*math.Log((num.mass)/(num.mass-num.burnSpeed*t))`. -/
def CountSpeedWithWorkingEngine {F : Type} (A : Float64Arith F) (st : consts F)
    (ft t : F) : F :=
  A.sub (A.add (CountFallSpeed A st ft) (A.mul st.g t))
    (A.mul st.jetSpeed
      (A.log (A.div st.mass (A.sub st.mass (A.mul st.burnSpeed t)))))

/-- Source: `h := num.startSpeed*t + num.g*math.Pow(t, 2)/2.0`. -/
def CountFallHeight {F : Type} (A : Float64Arith F) (st : consts F) (t : F) : F :=
  A.add (A.mul st.startSpeed t)
    (A.div (A.mul st.g (A.pow t (A.lit 2))) (A.lit 2.0))

/-- Source: the four terms `t1 .. t4` and
`h := t1 + t2 - num.jetSpeed*(t3+(1/num.burnSpeed)*t4)`. -/
def CountHeightWithWorkingEngine {F : Type} (A : Float64Arith F) (st : consts F)
    (ft t : F) : F :=
  let t1 := A.mul (CountFallSpeed A st ft) t
  let t2 := A.div (A.mul st.g (A.pow t (A.lit 2))) (A.lit 2.0)
  let t3 := A.mul (A.log st.mass) t
  let t4 := A.add
    (A.sub
      (A.mul (A.sub st.mass (A.mul st.burnSpeed t))
        (A.log (A.sub st.mass (A.mul st.burnSpeed t))))
      (A.mul st.mass (A.log st.mass)))
    (A.mul st.burnSpeed t)
  A.sub (A.add t1 t2)
    (A.mul st.jetSpeed (A.add t3 (A.mul (A.div (A.lit 1) st.burnSpeed) t4)))

/-- Source: `a := num.g - num.jetSpeed*(num.burnSpeed/(num.mass-num.burnSpeed*t))`. -/
def CountAccelerationWithWorkingEngine {F : Type} (A : Float64Arith F)
    (st : consts F) (t : F) : F :=
  A.sub st.g (A.mul st.jetSpeed (A.div st.burnSpeed (A.sub st.mass (A.mul st.burnSpeed t))))

/-- The condition of the `if` in `FindVariableTime` (lines 73-74). -/
def accepts {F : Type} (A : Float64Arith F) (st : consts F) (i j : F) : Bool :=
  A.le
      (A.abs (A.sub (A.add (CountHeightWithWorkingEngine A st i j) (CountFallHeight A st i))
        st.startHeight))
      (A.lit 0.5)
    && (A.le (A.lit 0.0) (CountSpeedWithWorkingEngine A st i j)
      && A.le (CountSpeedWithWorkingEngine A st i j) (A.lit 3.0))

/-- The guard of the outer loop, `CountFallHeight(i) <= num.startHeight`. -/
def outerGuard {F : Type} (A : Float64Arith F) (st : consts F) (i : F) : Bool :=
  A.le (CountFallHeight A st i) st.startHeight

/-- The inner loop `for j := ..; j <= 10; j += 0.05`, entered with the counter at
`j`: the first accepted `j` is stored with `i` and the loop is left (`break`). -/
def innerLoop {F : Type} (A : Float64Arith F) (i : F) :
    Nat → F → consts F → Option (consts F)
  | 0, _, _ => none
  | fuel + 1, j, st =>
    if A.le j (A.lit 10) then
      if accepts A st i j then
        some { st with fallTime := i, engineTime := j }
      else
        innerLoop A i fuel (A.add j (A.lit 0.05)) st
    else
      some st

/-- The outer loop `for i := ..; CountFallHeight(i) <= num.startHeight; i += 0.001`,
entered with the counter at `i`. The `break` of the body leaves the inner loop
only, so the outer loop goes on to `i + 0.001` whatever the inner loop did. -/
def outerLoop {F : Type} (A : Float64Arith F) :
    Nat → F → consts F → Option (consts F)
  | 0, _, _ => none
  | fuel + 1, i, st =>
    if outerGuard A st i then
      match innerLoop A i fuel (A.lit 0.5) st with
      | none => none
      | some st' => outerLoop A fuel (A.add i (A.lit 0.001)) st'
    else
      some st

/-- The function `FindVariableTime`: the outer loop from `i := 1.0`. -/
def FindVariableTime {F : Type} (A : Float64Arith F) (fuel : Nat) (st : consts F) :
    Option (consts F) :=
  outerLoop A fuel (A.lit 1.0) st

/-! ### The sampling functions -/

/-- One sampling loop of the `generate...Data` functions,
`for x := ..; x <= bound; x += step`, whose body appends `time x` to `xVals` and
`value x` to `yVals`; entered with the counter at `x`. In the source `bound`
is `num.fallTime` or `num.engineTime`, `time x` is `x` or `num.fallTime+x`, and
`value x` is the `y` of the loop. -/
def sampleLoop {F : Type} (A : Float64Arith F) (bound step : F) (time value : F → F) :
    Nat → F → List F → List F → Option (List F × List F)
  | 0, _, _, _ => none
  | fuel + 1, x, xVals, yVals =>
    if A.le x bound then
      sampleLoop A bound step time value fuel (A.add x step)
        (xVals ++ [time x]) (yVals ++ [value x])
    else
      some (xVals, yVals)

/-- The function `generateSpeedData(f, g, start, end, step)`: the samples of `f`
over the fall, then those of `g(num.fallTime, x)` over the burn. The result is
the state of `num` at return, which the function never assigns, with `yVals`
and `xVals`. The parameter `end`, here `_end`, is not used by the source. -/
def generateSpeedData {F : Type} (A : Float64Arith F) (st : consts F) (f : F → F)
    (g : F → F → F) (start _end step : F) (fuel : Nat) :
    Option (consts F × List F × List F) :=
  match sampleLoop A st.fallTime step (fun x => x) f fuel start [] [] with
  | none => none
  | some r =>
    match sampleLoop A st.engineTime step (fun x => A.add st.fallTime x)
        (fun x => g st.fallTime x) fuel start r.1 r.2 with
    | none => none
    | some r' => some (st, r'.2, r'.1)

/-- The function `generateHeightData(f, g, start, end, step)`: as
`generateSpeedData`, with `y := CountFallHeight(num.fallTime) + g(num.fallTime, x)`
in the second loop. -/
def generateHeightData {F : Type} (A : Float64Arith F) (st : consts F) (f : F → F)
    (g : F → F → F) (start _end step : F) (fuel : Nat) :
    Option (consts F × List F × List F) :=
  match sampleLoop A st.fallTime step (fun x => x) f fuel start [] [] with
  | none => none
  | some r =>
    match sampleLoop A st.engineTime step (fun x => A.add st.fallTime x)
        (fun x => A.add (CountFallHeight A st st.fallTime) (g st.fallTime x))
        fuel start r.1 r.2 with
    | none => none
    | some r' => some (st, r'.2, r'.1)

/-- The function `generateAccelerationData(f, start, end, step)`: `y := num.g`
over the fall, then `y := f(x)` over the burn. -/
def generateAccelerationData {F : Type} (A : Float64Arith F) (st : consts F) (f : F → F)
    (start _end step : F) (fuel : Nat) :
    Option (consts F × List F × List F) :=
  match sampleLoop A st.fallTime step (fun x => x) (fun _ => st.g) fuel start [] [] with
  | none => none
  | some r =>
    match sampleLoop A st.engineTime step (fun x => A.add st.fallTime x) f
        fuel start r.1 r.2 with
    | none => none
    | some r' => some (st, r'.2, r'.1)

/-- The counter of a sampling loop, `x := start` and then `x += step`, after `k`
increments. -/
def sampleCounter {F : Type} (A : Float64Arith F) (start step : F) (k : Nat) : F :=
  (fun x => A.add x step)^[k] start

/-- The loop `for x := start; x <= bound; x += step` runs its body `n` times: the
guard holds of the first `n` values of the counter and fails of the next. -/
def sampleCount {F : Type} (A : Float64Arith F) (start step bound : F) (n : Nat) : Prop :=
  (∀ k, k < n → A.le (sampleCounter A start step k) bound = true) ∧
    A.le (sampleCounter A start step n) bound = false

/-- The values of `y` at the first `n` values of the counter, in the order of
the loop. -/
def samples {F : Type} (A : Float64Arith F) (start step : F) (y : F → F) (n : Nat) : List F :=
  (List.range n).map (fun k => y (sampleCounter A start step k))

/-- The sample series `yVals`, `xVals` of a request `(start, step)` on the state
`st`, ordered and split at the phase boundary. The series are the samples of
the two loops, one for each value of the counter that passes the guard: the
fall-phase times `x` with the values `fallValue x`, followed by the burn-phase
times `fallTime + x` with the values `burnValue x`. The times are in
non-decreasing order, there are as many times as values, the fall-phase times
are at most `fallTime`, and the burn-phase times lie between `fallTime` and
`fallTime + engineTime`. -/
def SplitSeries {F : Type} (A : Float64Arith F) (st : consts F) (start step : F)
    (fallValue burnValue : F → F) (yVals xVals : List F) : Prop :=
  ∃ n1 n2 : Nat,
    sampleCount A start step st.fallTime n1 ∧ sampleCount A start step st.engineTime n2 ∧
    xVals = samples A start step (fun x => x) n1
      ++ samples A start step (fun x => A.add st.fallTime x) n2 ∧
    yVals = samples A start step fallValue n1 ++ samples A start step burnValue n2 ∧
    xVals.Pairwise (fun a b => A.le a b = true) ∧ xVals.length = yVals.length ∧
    (∀ t ∈ samples A start step (fun x => x) n1, A.le t st.fallTime = true) ∧
    ∀ t ∈ samples A start step (fun x => A.add st.fallTime x) n2,
      A.le st.fallTime t = true ∧ A.le t (A.add st.fallTime st.engineTime) = true

/-! ### The same search with a record of what it evaluates -/

/-- One evaluation of the acceptance test: the pair it was given and its outcome. -/
structure Probe (F : Type) where
  fallTime : F
  burnTime : F
  accepted : Bool

/-- The loop `innerLoop`, returning also the candidates it passed to the model
functions, in order. -/
def innerLoopTraced {F : Type} (A : Float64Arith F) (i : F) :
    Nat → F → consts F → Option (consts F × List (Probe F))
  | 0, _, _ => none
  | fuel + 1, j, st =>
    if A.le j (A.lit 10) then
      if accepts A st i j then
        some ({ st with fallTime := i, engineTime := j }, [⟨i, j, true⟩])
      else
        match innerLoopTraced A i fuel (A.add j (A.lit 0.05)) st with
        | none => none
        | some r => some (r.1, ⟨i, j, false⟩ :: r.2)
    else
      some (st, [])

/-- The loop `outerLoop`, returning also the candidates evaluated, in order. -/
def outerLoopTraced {F : Type} (A : Float64Arith F) :
    Nat → F → consts F → Option (consts F × List (Probe F))
  | 0, _, _ => none
  | fuel + 1, i, st =>
    if outerGuard A st i then
      match innerLoopTraced A i fuel (A.lit 0.5) st with
      | none => none
      | some r =>
        match outerLoopTraced A fuel (A.add i (A.lit 0.001)) r.1 with
        | none => none
        | some r' => some (r'.1, r.2 ++ r'.2)
    else
      some (st, [])

/-- The search `FindVariableTime` with its record of evaluations. -/
def FindVariableTimeTraced {F : Type} (A : Float64Arith F) (fuel : Nat) (st : consts F) :
    Option (consts F × List (Probe F)) :=
  outerLoopTraced A fuel (A.lit 1.0) st

/-! ### Vocabulary for statements about the search -/

/-- The state `st` with the two result fields overwritten. -/
def withTimes {F : Type} (st : consts F) (a b : F) : consts F :=
  { st with fallTime := a, engineTime := b }

/-- The state after the assignments made for the accepted probes of a record,
taken in order. -/
def record {F : Type} : consts F → List (Probe F) → consts F
  | st, [] => st
  | st, p :: tr =>
    record (if p.accepted then withTimes st p.fallTime p.burnTime else st) tr

/-- The increment `j += 0.05` of the inner loop. -/
def innerStep {F : Type} (A : Float64Arith F) (j : F) : F := A.add j (A.lit 0.05)

/-- The increment `i += 0.001` of the outer loop. -/
def outerStep {F : Type} (A : Float64Arith F) (i : F) : F := A.add i (A.lit 0.001)

/-- The counter value `j` is reached by the inner loop header entered at `j0`:
it is `j0` after some number of increments, and the guard `j <= 10` held at
every value up to it. -/
def innerReach {F : Type} (A : Float64Arith F) (j0 j : F) : Prop :=
  ∃ m : Nat, j = (innerStep A)^[m] j0 ∧
    ∀ m', m' ≤ m → A.le ((innerStep A)^[m'] j0) (A.lit 10) = true

/-- The counter value `i` is reached by the outer loop header entered at `i0`:
it is `i0` after some number of increments, and the guard
`CountFallHeight(i) <= num.startHeight` held at every value up to it. -/
def outerReach {F : Type} (A : Float64Arith F) (st : consts F) (i0 i : F) : Prop :=
  ∃ k : Nat, i = (outerStep A)^[k] i0 ∧
    ∀ k', k' ≤ k → outerGuard A st ((outerStep A)^[k'] i0) = true

/-- What a probe of the search started from `st` with the counters at `i0` and
`j0` satisfies. -/
def ProbeOK {F : Type} (A : Float64Arith F) (st : consts F) (i0 j0 : F) (p : Probe F) : Prop :=
  p.accepted = accepts A st p.fallTime p.burnTime ∧
    outerReach A st i0 p.fallTime ∧ innerReach A j0 p.burnTime

/-- The grid pair with the indices `k` and `m` is scanned and accepted: the
guard of the outer loop holds at the counter values `i0, ..., i0 + k` steps, the
guard `j <= 10` holds at the counter values `j0, ..., j0 + m` steps, and the
acceptance test passes at the pair of index `(k, m)`. -/
def AcceptedAt {F : Type} (A : Float64Arith F) (st : consts F) (i0 j0 : F) (k m : Nat) :
    Prop :=
  (∀ k', k' ≤ k → outerGuard A st ((outerStep A)^[k'] i0) = true) ∧
    (∀ m', m' ≤ m → A.le ((innerStep A)^[m'] j0) (A.lit 10) = true) ∧
    accepts A st ((outerStep A)^[k] i0) ((innerStep A)^[m] j0) = true

/-! ## Exact real arithmetic -/

/-- The arithmetic of the real numbers: `math.Log` is the natural logarithm,
`math.Pow` the real power, and a decimal constant denotes itself. Where Go
yields `NaN` or an infinity (logarithm of a non-positive number, division by
zero) the real functions have a conventional value; no statement below rests
on such a value. -/
noncomputable def realArith : Float64Arith ℝ where
  add := fun a b => a + b
  sub := fun a b => a - b
  mul := fun a b => a * b
  div := fun a b => a / b
  le := fun a b => decide (a ≤ b)
  abs := fun a => |a|
  log := Real.log
  pow := fun a b => a ^ b
  lit := fun q => (q : ℝ)

/-- Exact real arithmetic in which the logarithm is any function `log` and a
division by zero gives `divZero` of the numerator: the parameters stand for
what the library does outside the domain of the real functions. -/
noncomputable def realArithWith (log : ℝ → ℝ) (divZero : ℝ → ℝ) : Float64Arith ℝ where
  add := fun a b => a + b
  sub := fun a b => a - b
  mul := fun a b => a * b
  div := fun a b => if b = 0 then divZero a else a / b
  le := fun a b => decide (a ≤ b)
  abs := fun a => |a|
  log := log
  pow := fun a b => a ^ b
  lit := fun q => (q : ℝ)

/-- The state after `main` read the start speed `s` and the start height `H`,
in exact arithmetic. -/
noncomputable def lunar (s H : ℝ) : consts ℝ := setStart (num realArith) s H

/-! ## IEEE-754 binary64 -/

/-- A value of `float64`: not-a-number, an infinity with its sign, or a finite
value given by its sign and its magnitude, a non-negative rational (the two
zeros are `fin false 0` and `fin true 0`). -/
inductive Binary64 where
  | nan : Binary64
  | inf (neg : Bool) : Binary64
  | fin (neg : Bool) (mag : ℚ) : Binary64
deriving DecidableEq

namespace Binary64

/-- The widths `2 ^ k, ..., 4, 2, 1`, up to the first power of two `w` with
`n < 2 ^ w`; `fuel` bounds their number. -/
def widths : Nat → Nat → Nat → List Nat → List Nat
  | 0, _, _, acc => acc
  | fuel + 1, n, w, acc =>
    if 2 ^ w ≤ n then widths fuel n (2 * w) (w :: acc) else acc

/-- The position of the leading bit of `n`, found by trying the widths of a
decreasing list of powers of two. -/
def log2Width : List Nat → Nat → Nat
  | [], _ => 0
  | w :: ws, n => if 2 ^ w ≤ n then w + log2Width ws (n / 2 ^ w) else log2Width ws n

/-- The position of the leading bit of `n`: `2 ^ log2 n ≤ n < 2 ^ (log2 n + 1)`
for `n > 0`. -/
def log2 (n : Nat) : Nat := log2Width (widths n n 1 []) n

/-- The power `2 ^ k` for an integer exponent, as a rational. -/
def twoPow (k : Int) : ℚ :=
  if 0 ≤ k then ((2 ^ k.toNat : Nat) : ℚ) else 1 / ((2 ^ (-k).toNat : Nat) : ℚ)

/-- The fraction `p / q` scaled by `2 ^ (-k)`, as a numerator and a denominator. -/
def scaled (p q : Nat) (k : Int) : Nat × Nat :=
  if 0 ≤ k then (p, q * 2 ^ k.toNat) else (p * 2 ^ (-k).toNat, q)

/-- The exponent `e` of the positive fraction `p / q`: `2 ^ e ≤ p / q < 2 ^ (e + 1)`. -/
def floorLog2 (p q : Nat) : Int :=
  let e0 : Int := (log2 p : Int) - (log2 q : Int)
  if (scaled p q e0).1 < (scaled p q e0).2 then e0 - 1 else e0

/-- The exponent used for a magnitude of exponent `e`: `e` itself, or `-1022`
in the subnormal range. -/
def clampExponent (e : Int) : Int := if e < -1022 then -1022 else e

/-- Rounding of the magnitude `|a|` to binary64, to nearest with ties to even:
53 significant bits, exponents from `-1022` (below them the spacing of the
subnormals), and infinity from `2 ^ 1024` on. The magnitude is divided by the
spacing `2 ^ (e - 52)` of the binary64 values around it, the quotient is
rounded to an integer `m`, and the result is `m * 2 ^ (e - 52)` with the sign
`neg`. -/
def roundNearestEven (neg : Bool) (a : ℚ) : Binary64 :=
  let p : Nat := a.num.natAbs
  let q : Nat := a.den
  if p = 0 then fin neg 0 else
    let e : Int := clampExponent (floorLog2 p q)
    let n : Nat × Nat := scaled p q (e - 52)
    let f : Nat := n.1 / n.2
    let r : Nat := n.1 % n.2
    let m : Nat := if 2 * r < n.2 then f else if n.2 < 2 * r then f + 1
      else if f % 2 = 0 then f else f + 1
    if 971 < e - 52 ∨ (e - 52 = 971 ∧ 2 ^ 53 ≤ m) then inf neg
    else fin neg ((m : ℚ) * twoPow (e - 52))

/-- The binary64 value nearest to the rational `q`: the conversion of a
constant of the source text. -/
def ofRat (q : ℚ) : Binary64 := roundNearestEven (decide (q.num < 0)) q

/-- The rational value of a finite binary64 with the given sign and magnitude. -/
def signed (neg : Bool) (mag : ℚ) : ℚ := if neg then -mag else mag

/-- Addition of binary64 values. -/
def add : Binary64 → Binary64 → Binary64
  | nan, _ => nan
  | _, nan => nan
  | inf s, inf t => if s = t then inf s else nan
  | inf s, fin _ _ => inf s
  | fin _ _, inf t => inf t
  | fin s a, fin t b =>
    let x := signed s a + signed t b
    if x = 0 then fin (s && t) 0 else ofRat x

/-- Negation of a binary64 value. -/
def neg : Binary64 → Binary64
  | nan => nan
  | inf s => inf (!s)
  | fin s a => fin (!s) a

/-- Subtraction of binary64 values. -/
def sub (x y : Binary64) : Binary64 := add x (neg y)

/-- Multiplication of binary64 values. -/
def mul : Binary64 → Binary64 → Binary64
  | nan, _ => nan
  | _, nan => nan
  | inf s, inf t => inf (xor s t)
  | inf s, fin t b => if b = 0 then nan else inf (xor s t)
  | fin s a, inf t => if a = 0 then nan else inf (xor s t)
  | fin s a, fin t b => roundNearestEven (xor s t) (a * b)

/-- Division of binary64 values. -/
def div : Binary64 → Binary64 → Binary64
  | nan, _ => nan
  | _, nan => nan
  | inf _, inf _ => nan
  | inf s, fin t _ => inf (xor s t)
  | fin s _, inf t => fin (xor s t) 0
  | fin s a, fin t b =>
    if b = 0 then (if a = 0 then nan else inf (xor s t))
    else roundNearestEven (xor s t) (a / b)

/-- The function `math.Abs`. -/
def abs : Binary64 → Binary64
  | nan => nan
  | inf _ => inf false
  | fin _ a => fin false a

/-- The comparison `<=` of binary64 values; false when an operand is not a
number. -/
def le : Binary64 → Binary64 → Bool
  | nan, _ => false
  | _, nan => false
  | inf s, inf t => s || !t
  | inf s, fin _ _ => s
  | fin _ _, inf t => !t
  | fin s a, fin t b => decide (signed s a ≤ signed t b)

/-- The increment `j += 0.05` on binary64. -/
def stepBurn (j : Binary64) : Binary64 := add j (ofRat 0.05)

/-- The first `n` values of the counter of the inner loop entered at `j`. -/
def counters : Nat → Binary64 → List Binary64
  | 0, _ => []
  | n + 1, j => j :: counters n (stepBurn j)

/-- A finite positive-signed value below `10`. -/
def belowTen : Binary64 → Bool
  | fin false q => decide (q < 10)
  | _ => false

/-- The value is not negative: a finite value with the positive sign, or plus
infinity. -/
def isNonneg : Binary64 → Prop
  | fin false q => 0 ≤ q
  | inf false => True
  | _ => False

/-- Each width is at most one more than the sum of the widths after it. -/
def goodWidths : List Nat → Prop
  | [] => True
  | w :: ws => w ≤ ws.sum + 1 ∧ goodWidths ws

/-- The rational value of a finite binary64 value (`0` for the others). -/
def toRat : Binary64 → ℚ
  | fin s a => signed s a
  | _ => 0

/-- The value is finite, with a magnitude that is not negative. -/
def isFinite : Binary64 → Prop
  | fin _ a => 0 ≤ a
  | _ => False

/-- The value is negative: a finite value other than zero with the negative
sign, or minus infinity. -/
def isNegative : Binary64 → Bool
  | fin true q => decide (0 < q)
  | inf true => true
  | _ => false

/-- The value is finite and positive. -/
def isPositive : Binary64 → Bool
  | fin false q => decide (0 < q)
  | _ => false

/-- With the configured mass `2300` and flow rate `15`, the burn time `j` lies
between `0.5` and `10` and is not negative, `15 * j` is below the mass, and the rest mass
`2300 - 15 * j` and the quotient `2300 / (2300 - 15 * j)` are finite and
positive. -/
def burnInDomain (j : Binary64) : Bool :=
  le (ofRat 0) j && le (ofRat 0.5) j && le j (ofRat 10)
    && !(le (ofRat 2300) (mul (ofRat 15.0) j))
    && isPositive (sub (ofRat 2300) (mul (ofRat 15.0) j))
    && isPositive (div (ofRat 2300) (sub (ofRat 2300) (mul (ofRat 15.0) j)))

/-- A value of `float64` that is at least zero: plus infinity, or a finite value
at least zero (a zero of either sign included) whose magnitude is one that
rounding leaves as it is. -/
def isNonnegValue : Binary64 → Prop
  | inf false => True
  | fin s q => 0 ≤ signed s q ∧ roundNearestEven s q = fin s q
  | _ => False

end Binary64

/-- The arithmetic of binary64, for given implementations of `math.Log` and
`math.Pow`. -/
def binary64Arith (log : Binary64 → Binary64) (pow : Binary64 → Binary64 → Binary64) :
    Float64Arith Binary64 where
  add := Binary64.add
  sub := Binary64.sub
  mul := Binary64.mul
  div := Binary64.div
  le := Binary64.le
  abs := Binary64.abs
  log := log
  pow := pow
  lit := Binary64.ofRat

/-- An arithmetic of binary64 for test runs: `math.Log` answers not-a-number and
`math.Pow x y` is `x * x`, its value for the only exponent the program uses. -/
def testArith : Float64Arith Binary64 :=
  binary64Arith (fun _ => Binary64.nan) (fun x _ => Binary64.mul x x)

/-! ## Structure of the search, for every arithmetic -/

section Generic

variable {F : Type} (A : Float64Arith F)

theorem accepts_withTimes (st : consts F) (a b i j : F) :
    accepts A (withTimes st a b) i j = accepts A st i j := rfl

theorem outerGuard_withTimes (st : consts F) (a b i : F) :
    outerGuard A (withTimes st a b) i = outerGuard A st i := rfl

theorem withTimes_withTimes (st : consts F) (a b c d : F) :
    withTimes (withTimes st a b) c d = withTimes st c d := rfl

theorem record_append (st : consts F) (tr1 tr2 : List (Probe F)) :
    record st (tr1 ++ tr2) = record (record st tr1) tr2 := by
  induction tr1 generalizing st with
  | nil => rfl
  | cons p tr ih => simp [record, ih]

theorem record_none (st : consts F) (tr : List (Probe F))
    (h : ∀ p ∈ tr, p.accepted = false) : record st tr = st := by
  induction tr generalizing st with
  | nil => rfl
  | cons p tr ih =>
    have hp : p.accepted = false := h p (List.mem_cons_self _ _)
    simp only [record, hp]
    exact ih st (fun q hq => h q (List.mem_cons_of_mem _ hq))

/-- The record leaves the parameters alone: the result is the start state with
some pair of times. -/
theorem record_eq_withTimes (st : consts F) (tr : List (Probe F)) :
    record st tr = withTimes st (record st tr).fallTime (record st tr).engineTime := by
  induction tr generalizing st with
  | nil => rfl
  | cons p tr ih =>
    simp only [record]
    split
    · have h := ih (withTimes st p.fallTime p.burnTime)
      rw [withTimes_withTimes] at h
      exact h
    · exact ih st

/-- When a probe of the record was accepted, the result does not depend on the
times the start state held. -/
theorem record_withTimes (st : consts F) (a b : F) (tr : List (Probe F))
    (h : ∃ p ∈ tr, p.accepted = true) :
    record (withTimes st a b) tr = record st tr := by
  induction tr generalizing st a b with
  | nil => obtain ⟨p, hp, _⟩ := h; cases hp
  | cons q tr ih =>
    simp only [record]
    by_cases hq : q.accepted = true
    · simp only [hq, if_true, withTimes_withTimes]
    · have hq' : q.accepted = false := by simpa using hq
      simp only [hq']
      obtain ⟨p, hp, hpa⟩ := h
      rcases List.mem_cons.mp hp with rfl | hmem
      · rw [hpa] at hq'; cases hq'
      · exact ih st a b ⟨p, hmem, hpa⟩

/-- The traced inner loop computes the state of `innerLoop`. -/
theorem innerLoopTraced_fst (i : F) (fuel : Nat) (j : F) (st : consts F) :
    (innerLoopTraced A i fuel j st).map Prod.fst = innerLoop A i fuel j st := by
  induction fuel generalizing j with
  | zero => rfl
  | succ n ih =>
    simp only [innerLoopTraced, innerLoop]
    split
    · split
      · rfl
      · rw [← ih]
        cases innerLoopTraced A i n (A.add j (A.lit 0.05)) st <;> rfl
    · rfl

/-- The traced outer loop computes the state of `outerLoop`. -/
theorem outerLoopTraced_fst (fuel : Nat) (i : F) (st : consts F) :
    (outerLoopTraced A fuel i st).map Prod.fst = outerLoop A fuel i st := by
  induction fuel generalizing i st with
  | zero => rfl
  | succ n ih =>
    simp only [outerLoopTraced, outerLoop]
    split
    · rw [← innerLoopTraced_fst]
      cases innerLoopTraced A i n (A.lit 0.5) st with
      | none => rfl
      | some r =>
        simp only [Option.map_some']
        rw [← ih]
        cases outerLoopTraced A n (A.add i (A.lit 0.001)) r.1 <;> rfl
    · rfl

/-- The traced search computes the state of `FindVariableTime`. -/
theorem FindVariableTimeTraced_fst (fuel : Nat) (st : consts F) :
    (FindVariableTimeTraced A fuel st).map Prod.fst = FindVariableTime A fuel st :=
  outerLoopTraced_fst A fuel _ st

theorem FindVariableTime_of_traced {fuel : Nat} {st st' : consts F} {tr : List (Probe F)}
    (h : FindVariableTimeTraced A fuel st = some (st', tr)) :
    FindVariableTime A fuel st = some st' := by
  rw [← FindVariableTimeTraced_fst, h]; rfl

theorem traced_of_FindVariableTime {fuel : Nat} {st st' : consts F}
    (h : FindVariableTime A fuel st = some st') :
    ∃ tr, FindVariableTimeTraced A fuel st = some (st', tr) := by
  rw [← FindVariableTimeTraced_fst] at h
  cases hr : FindVariableTimeTraced A fuel st with
  | none => rw [hr] at h; cases h
  | some r =>
    rw [hr] at h
    simp only [Option.map_some', Option.some.injEq] at h
    exact ⟨r.2, by rw [← h]⟩

theorem innerReach_self (j : F) (h : A.le j (A.lit 10) = true) : innerReach A j j :=
  ⟨0, rfl, fun m' hm => by
    have : m' = 0 := Nat.le_zero.mp hm
    subst this; exact h⟩

theorem innerReach_step {j0 j : F} (h0 : A.le j0 (A.lit 10) = true)
    (h : innerReach A (innerStep A j0) j) : innerReach A j0 j := by
  obtain ⟨m, hj, hle⟩ := h
  refine ⟨m + 1, by rw [Function.iterate_succ_apply]; exact hj, ?_⟩
  intro m' hm'
  cases m' with
  | zero => exact h0
  | succ n =>
    rw [Function.iterate_succ_apply]
    exact hle n (Nat.le_of_succ_le_succ hm')

theorem outerReach_self (st : consts F) (i : F) (h : outerGuard A st i = true) :
    outerReach A st i i :=
  ⟨0, rfl, fun k' hk => by
    have : k' = 0 := Nat.le_zero.mp hk
    subst this; exact h⟩

theorem outerReach_step {st : consts F} {i0 i : F} (h0 : outerGuard A st i0 = true)
    (h : outerReach A st (outerStep A i0) i) : outerReach A st i0 i := by
  obtain ⟨k, hi, hg⟩ := h
  refine ⟨k + 1, by rw [Function.iterate_succ_apply]; exact hi, ?_⟩
  intro k' hk'
  cases k' with
  | zero => exact h0
  | succ n =>
    rw [Function.iterate_succ_apply]
    exact hg n (Nat.le_of_succ_le_succ hk')

/-- The inner loop: its state is the record of its probes, every probe is for
the current `i` at a reached `j`, and only the last probe can be accepted. -/
theorem innerLoopTraced_spec (i : F) (fuel : Nat) (j : F) (st st' : consts F)
    (tr : List (Probe F)) (h : innerLoopTraced A i fuel j st = some (st', tr)) :
    st' = record st tr ∧
      ∀ p ∈ tr, p.fallTime = i ∧ p.accepted = accepts A st i p.burnTime ∧
        innerReach A j p.burnTime := by
  induction fuel generalizing j st' tr with
  | zero => cases h
  | succ n ih =>
    simp only [innerLoopTraced] at h
    split at h
    next hle =>
      split at h
      next hacc =>
        simp only [Option.some.injEq, Prod.mk.injEq] at h
        obtain ⟨rfl, rfl⟩ := h
        refine ⟨by simp [record, withTimes], ?_⟩
        intro p hp
        simp only [List.mem_singleton] at hp
        subst hp
        exact ⟨rfl, hacc.symm, innerReach_self A j hle⟩
      next hacc =>
        cases hr : innerLoopTraced A i n (A.add j (A.lit 0.05)) st with
        | none => rw [hr] at h; cases h
        | some r =>
          rw [hr] at h
          simp only [Option.some.injEq, Prod.mk.injEq] at h
          obtain ⟨rfl, rfl⟩ := h
          obtain ⟨h1, h2⟩ := ih (A.add j (A.lit 0.05)) r.1 r.2 hr
          refine ⟨by simpa [record] using h1, ?_⟩
          intro p hp
          rcases List.mem_cons.mp hp with rfl | hmem
          · refine ⟨rfl, ?_, innerReach_self A j hle⟩
            simpa using hacc
          · obtain ⟨a, b, c⟩ := h2 p hmem
            exact ⟨a, b, innerReach_step A hle c⟩
    next hle =>
      simp only [Option.some.injEq, Prod.mk.injEq] at h
      obtain ⟨rfl, rfl⟩ := h
      exact ⟨rfl, fun p hp => by cases hp⟩

/-- The outer loop: its state is the record of its probes, and every probe was
made at reached counter values with the outcome of the acceptance test. -/
theorem outerLoopTraced_spec (fuel : Nat) (i : F) (st st' : consts F)
    (tr : List (Probe F)) (h : outerLoopTraced A fuel i st = some (st', tr)) :
    st' = record st tr ∧ ∀ p ∈ tr, ProbeOK A st i (A.lit 0.5) p := by
  induction fuel generalizing i st st' tr with
  | zero => cases h
  | succ n ih =>
    simp only [outerLoopTraced] at h
    split at h
    next hg =>
      cases hr : innerLoopTraced A i n (A.lit 0.5) st with
      | none => rw [hr] at h; cases h
      | some r =>
        rw [hr] at h
        simp only at h
        cases hr' : outerLoopTraced A n (A.add i (A.lit 0.001)) r.1 with
        | none => rw [hr'] at h; cases h
        | some r' =>
          rw [hr'] at h
          simp only [Option.some.injEq, Prod.mk.injEq] at h
          obtain ⟨rfl, rfl⟩ := h
          obtain ⟨h1, h2⟩ := innerLoopTraced_spec A i n (A.lit 0.5) st r.1 r.2 hr
          obtain ⟨h3, h4⟩ := ih (A.add i (A.lit 0.001)) r.1 r'.1 r'.2 hr'
          refine ⟨by rw [record_append, ← h1, ← h3], ?_⟩
          intro p hp
          rcases List.mem_append.mp hp with hp | hp
          · obtain ⟨a, b, c⟩ := h2 p hp
            exact ⟨by rw [b, a], by rw [a]; exact outerReach_self A st i hg, c⟩
          · obtain ⟨a, b, c⟩ := h4 p hp
            have hst : r.1 = withTimes st r.1.fallTime r.1.engineTime := by
              rw [h1]; exact record_eq_withTimes st r.2
            rw [hst] at a b
            exact ⟨a, outerReach_step A hg b, c⟩
    next hg =>
      simp only [Option.some.injEq, Prod.mk.injEq] at h
      obtain ⟨rfl, rfl⟩ := h
      exact ⟨rfl, fun p hp => by cases hp⟩

/-- The probes of the inner loop do not depend on the times the state holds. -/
theorem innerLoopTraced_snd_withTimes (i : F) (fuel : Nat) (j : F) (st : consts F) (a b : F) :
    (innerLoopTraced A i fuel j (withTimes st a b)).map Prod.snd
      = (innerLoopTraced A i fuel j st).map Prod.snd := by
  induction fuel generalizing j with
  | zero => rfl
  | succ n ih =>
    simp only [innerLoopTraced, accepts_withTimes]
    split
    · split
      · rfl
      · have h := ih (A.add j (A.lit 0.05))
        cases h1 : innerLoopTraced A i n (A.add j (A.lit 0.05)) (withTimes st a b) <;>
          cases h2 : innerLoopTraced A i n (A.add j (A.lit 0.05)) st <;>
          rw [h1, h2] at h <;> simp_all
    · rfl

/-- The probes of the outer loop do not depend on the times the state holds. -/
theorem outerLoopTraced_snd_withTimes (fuel : Nat) (i : F) (st : consts F) (a b : F) :
    (outerLoopTraced A fuel i (withTimes st a b)).map Prod.snd
      = (outerLoopTraced A fuel i st).map Prod.snd := by
  induction fuel generalizing i st a b with
  | zero => rfl
  | succ n ih =>
    simp only [outerLoopTraced, outerGuard_withTimes]
    split
    · have hin := innerLoopTraced_snd_withTimes A i n (A.lit 0.5) st a b
      cases h1 : innerLoopTraced A i n (A.lit 0.5) (withTimes st a b) with
      | none =>
        cases h2 : innerLoopTraced A i n (A.lit 0.5) st with
        | none => rfl
        | some r2 => rw [h1, h2] at hin; cases hin
      | some r1 =>
        cases h2 : innerLoopTraced A i n (A.lit 0.5) st with
        | none => rw [h1, h2] at hin; cases hin
        | some r2 =>
          rw [h1, h2] at hin
          simp only [Option.map_some', Option.some.injEq] at hin
          have e1 : r1.1 = withTimes st r1.1.fallTime r1.1.engineTime := by
            have := (innerLoopTraced_spec A i n (A.lit 0.5) _ r1.1 r1.2 h1).1
            rw [this]
            have h' := record_eq_withTimes (withTimes st a b) r1.2
            rw [withTimes_withTimes] at h'
            exact h'
          have e2 : r2.1 = withTimes st r2.1.fallTime r2.1.engineTime := by
            have := (innerLoopTraced_spec A i n (A.lit 0.5) _ r2.1 r2.2 h2).1
            rw [this]
            exact record_eq_withTimes st r2.2
          have k1 := ih (A.add i (A.lit 0.001)) st r1.1.fallTime r1.1.engineTime
          have k2 := ih (A.add i (A.lit 0.001)) st r2.1.fallTime r2.1.engineTime
          rw [← e1] at k1
          rw [← e2] at k2
          have k : (outerLoopTraced A n (A.add i (A.lit 0.001)) r1.1).map Prod.snd
              = (outerLoopTraced A n (A.add i (A.lit 0.001)) r2.1).map Prod.snd := by
            rw [k1, k2]
          clear e1 e2 k1 k2
          simp only
          cases h3 : outerLoopTraced A n (A.add i (A.lit 0.001)) r1.1 with
          | none =>
            cases h4 : outerLoopTraced A n (A.add i (A.lit 0.001)) r2.1 with
            | none => rfl
            | some r4 => rw [h3, h4] at k; cases k
          | some r3 =>
            cases h4 : outerLoopTraced A n (A.add i (A.lit 0.001)) r2.1 with
            | none => rw [h3, h4] at k; cases k
            | some r4 =>
              rw [h3, h4] at k
              simp only [Option.map_some', Option.some.injEq] at k
              simp only [Option.map_some', hin, k]
    · rfl

/-- Running the outer loop from a state that differs in the two times only
evaluates the same probes. -/
theorem outerLoopTraced_withTimes {fuel : Nat} {i : F} {st st' : consts F}
    {tr : List (Probe F)} (a b : F) (h : outerLoopTraced A fuel i st = some (st', tr)) :
    outerLoopTraced A fuel i (withTimes st a b) = some (record (withTimes st a b) tr, tr) := by
  have hs := outerLoopTraced_snd_withTimes A fuel i st a b
  rw [h] at hs
  cases h1 : outerLoopTraced A fuel i (withTimes st a b) with
  | none => rw [h1] at hs; cases hs
  | some r =>
    rw [h1] at hs
    simp only [Option.map_some', Option.some.injEq] at hs
    have h2 := (outerLoopTraced_spec A fuel i _ r.1 r.2 h1).1
    rw [hs] at h2
    rw [← h2, ← hs]

/-- More fuel does not change the outcome of the inner loop. -/
theorem innerLoopTraced_fuel_succ (i : F) (fuel : Nat) (j : F) (st : consts F)
    (r : consts F × List (Probe F)) (h : innerLoopTraced A i fuel j st = some r) :
    innerLoopTraced A i (fuel + 1) j st = some r := by
  induction fuel generalizing j r with
  | zero => cases h
  | succ n ih =>
    rw [innerLoopTraced] at h ⊢
    split
    next hle =>
      rw [if_pos hle] at h
      split
      next hacc => rw [if_pos hacc] at h; exact h
      next hacc =>
        rw [if_neg hacc] at h
        cases hr : innerLoopTraced A i n (A.add j (A.lit 0.05)) st with
        | none => rw [hr] at h; cases h
        | some r0 =>
          rw [hr] at h
          rw [ih _ r0 hr]
          exact h
    next hle => rw [if_neg hle] at h; exact h

/-- More fuel does not change the outcome of the outer loop. -/
theorem outerLoopTraced_fuel_succ (fuel : Nat) (i : F) (st : consts F)
    (r : consts F × List (Probe F)) (h : outerLoopTraced A fuel i st = some r) :
    outerLoopTraced A (fuel + 1) i st = some r := by
  induction fuel generalizing i st r with
  | zero => cases h
  | succ n ih =>
    rw [outerLoopTraced] at h ⊢
    split
    next hg =>
      rw [if_pos hg] at h
      cases hr : innerLoopTraced A i n (A.lit 0.5) st with
      | none => rw [hr] at h; cases h
      | some r0 =>
        rw [hr] at h
        rw [innerLoopTraced_fuel_succ A i n _ st r0 hr]
        simp only at h ⊢
        cases hr' : outerLoopTraced A n (A.add i (A.lit 0.001)) r0.1 with
        | none => rw [hr'] at h; cases h
        | some r1 =>
          rw [hr'] at h
          rw [ih _ _ r1 hr']
          exact h
    next hg => rw [if_neg hg] at h; exact h

theorem outerLoopTraced_fuel_le {fuel fuel' : Nat} (hle : fuel ≤ fuel') (i : F)
    (st : consts F) (r : consts F × List (Probe F))
    (h : outerLoopTraced A fuel i st = some r) :
    outerLoopTraced A fuel' i st = some r := by
  induction hle with
  | refl => exact h
  | step _ ih => exact outerLoopTraced_fuel_succ A _ i st r ih

/-- Two terminating runs of the traced search from the same state agree,
whatever their fuel. -/
theorem FindVariableTimeTraced_fuel_unique {fuel fuel' : Nat} {st : consts F}
    {r r' : consts F × List (Probe F)}
    (h : FindVariableTimeTraced A fuel st = some r)
    (h' : FindVariableTimeTraced A fuel' st = some r') : r = r' := by
  rcases Nat.le_total fuel fuel' with hle | hle
  · have := outerLoopTraced_fuel_le A hle _ st r h
    unfold FindVariableTimeTraced at h'
    rw [this] at h'
    exact Option.some.inj h'
  · have := outerLoopTraced_fuel_le A hle _ st r' h'
    unfold FindVariableTimeTraced at h
    rw [this] at h
    exact (Option.some.inj h).symm

/-- When some probe of a record was accepted, the state it leaves holds the
pair of one of its accepted probes (the last one). -/
theorem record_eq_accepted (st : consts F) (tr : List (Probe F))
    (h : ∃ p ∈ tr, p.accepted = true) :
    ∃ p ∈ tr, p.accepted = true ∧ record st tr = withTimes st p.fallTime p.burnTime := by
  induction tr generalizing st with
  | nil => obtain ⟨p, hp, _⟩ := h; cases hp
  | cons q tr ih =>
    by_cases hlater : ∃ p ∈ tr, p.accepted = true
    · obtain ⟨p, hp, hpa, hrec⟩ :=
        ih (if q.accepted then withTimes st q.fallTime q.burnTime else st) hlater
      refine ⟨p, List.mem_cons_of_mem _ hp, hpa, ?_⟩
      simp only [record]
      rw [hrec]
      split <;> rfl
    · have hnone : ∀ p ∈ tr, p.accepted = false := by
        intro p hp
        cases hpa : p.accepted with
        | false => rfl
        | true => exact absurd ⟨p, hp, hpa⟩ hlater
      obtain ⟨p, hp, hpa⟩ := h
      rcases List.mem_cons.mp hp with rfl | hmem
      · refine ⟨p, List.mem_cons_self _ _, hpa, ?_⟩
        simp only [record, hpa, if_true]
        exact record_none _ tr hnone
      · rw [hnone p hmem] at hpa; cases hpa

/-- One turn of the outer loop whose first candidate `0.5` is accepted. -/
theorem outerLoopTraced_accept_first (fuel : Nat) (i : F) (st : consts F)
    (hg : outerGuard A st i = true) (hle : A.le (A.lit 0.5) (A.lit 10) = true)
    (hacc : accepts A st i (A.lit 0.5) = true) :
    outerLoopTraced A (fuel + 2) i st =
      (outerLoopTraced A (fuel + 1) (outerStep A i) (withTimes st i (A.lit 0.5))).map
        (fun r => (r.1, (⟨i, A.lit 0.5, true⟩ : Probe F) :: r.2)) := by
  rw [outerLoopTraced, if_pos hg, innerLoopTraced, if_pos hle, if_pos hacc]
  simp only [outerStep, withTimes]
  cases outerLoopTraced A (fuel + 1) (A.add i (A.lit 0.001))
    { st with fallTime := i, engineTime := A.lit 0.5 } <;> rfl

/-- The search writes the two times only: its result is the start state with
some pair of times. -/
theorem FindVariableTime_eq_withTimes {F : Type} (A : Float64Arith F) {fuel : Nat}
    {st st' : consts F} (h : FindVariableTime A fuel st = some st') :
    st' = withTimes st st'.fallTime st'.engineTime := by
  obtain ⟨tr, htr⟩ := traced_of_FindVariableTime A h
  rw [(outerLoopTraced_spec A fuel _ st st' tr htr).1]
  exact record_eq_withTimes st tr

/-- When the guard of the outer loop fails at the first counter value, the
search evaluates nothing and returns the state it was given. -/
theorem FindVariableTimeTraced_of_guard_false {F : Type} (A : Float64Arith F) (fuel : Nat)
    (st : consts F) (hg : outerGuard A st (A.lit 1.0) = false) :
    FindVariableTimeTraced A (fuel + 1) st = some (st, []) := by
  simp [FindVariableTimeTraced, outerLoopTraced, hg]

/-- The inner loop either stores the first accepted burn time of its scan, or
finds no accepted burn time on its scan and changes nothing. -/
theorem innerLoop_cases {F : Type} (A : Float64Arith F) (i : F) (fuel : Nat) (j : F)
    (st st' : consts F) (h : innerLoop A i fuel j st = some st') :
    (∃ m : Nat, (∀ m', m' ≤ m → A.le ((innerStep A)^[m'] j) (A.lit 10) = true) ∧
        (∀ m', m' < m → accepts A st i ((innerStep A)^[m'] j) = false) ∧
        accepts A st i ((innerStep A)^[m] j) = true ∧
        st' = withTimes st i ((innerStep A)^[m] j)) ∨
      (st' = st ∧ ∀ m : Nat,
        (∀ m', m' ≤ m → A.le ((innerStep A)^[m'] j) (A.lit 10) = true) →
        accepts A st i ((innerStep A)^[m] j) = false) := by
  induction fuel generalizing j with
  | zero => simp [innerLoop] at h
  | succ n ih =>
    rw [innerLoop] at h
    by_cases hle : A.le j (A.lit 10) = true
    · rw [if_pos hle] at h
      by_cases hacc : accepts A st i j = true
      · rw [if_pos hacc] at h
        left
        refine ⟨0, ?_, ?_, hacc, (Option.some.inj h).symm⟩
        · intro m' hm'
          obtain rfl : m' = 0 := by omega
          exact hle
        · intro m' hm'
          omega
      · rw [if_neg hacc] at h
        have hacc' : accepts A st i j = false := by simpa using hacc
        have h' : innerLoop A i n (innerStep A j) st = some st' := h
        rcases ih (innerStep A j) h' with ⟨m, h1, h2, h3, h4⟩ | ⟨h1, h2⟩
        · left
          refine ⟨m + 1, ?_, ?_, ?_, ?_⟩
          · intro m' hm'
            cases m' with
            | zero => exact hle
            | succ m'' =>
              rw [Function.iterate_succ_apply]
              exact h1 m'' (by omega)
          · intro m' hm'
            cases m' with
            | zero => exact hacc'
            | succ m'' =>
              rw [Function.iterate_succ_apply]
              exact h2 m'' (by omega)
          · rw [Function.iterate_succ_apply]
            exact h3
          · rw [Function.iterate_succ_apply]
            exact h4
        · right
          refine ⟨h1, ?_⟩
          intro m hm
          cases m with
          | zero => exact hacc'
          | succ m'' =>
            rw [Function.iterate_succ_apply]
            refine h2 m'' (fun m' hm' => ?_)
            have := hm (m' + 1) (by omega)
            rwa [Function.iterate_succ_apply] at this
    · rw [if_neg hle] at h
      right
      refine ⟨(Option.some.inj h).symm, ?_⟩
      intro m hm
      exact absurd (hm 0 (Nat.zero_le m)) hle

/-- The pairs scanned from the second value of the outer counter on are the
pairs of index `k + 1` of the scan. -/
theorem AcceptedAt_succ {F : Type} (A : Float64Arith F) (st : consts F) (i0 j0 : F)
    (k m : Nat) (h0 : outerGuard A st i0 = true) :
    AcceptedAt A st i0 j0 (k + 1) m ↔ AcceptedAt A st (outerStep A i0) j0 k m := by
  unfold AcceptedAt
  constructor
  · rintro ⟨h1, h2, h3⟩
    refine ⟨fun k' hk' => ?_, h2, ?_⟩
    · have := h1 (k' + 1) (by omega)
      rwa [Function.iterate_succ_apply] at this
    · rwa [Function.iterate_succ_apply] at h3
  · rintro ⟨h1, h2, h3⟩
    refine ⟨fun k' hk' => ?_, h2, ?_⟩
    · cases k' with
      | zero => exact h0
      | succ n =>
        rw [Function.iterate_succ_apply]
        exact h1 n (by omega)
    · rw [Function.iterate_succ_apply]
      exact h3

/-- The outer loop either leaves the accepted pair with the last outer index
that has an accepted pair and, for that index, the first accepted inner index,
or finds no accepted pair on its scan and changes nothing. -/
theorem outerLoop_cases {F : Type} (A : Float64Arith F) (fuel : Nat) (i : F)
    (st st' : consts F) (h : outerLoop A fuel i st = some st') :
    (∃ k m : Nat, AcceptedAt A st i (A.lit 0.5) k m ∧
        (∀ m', m' < m →
          accepts A st ((outerStep A)^[k] i) ((innerStep A)^[m'] (A.lit 0.5)) = false) ∧
        st' = withTimes st ((outerStep A)^[k] i) ((innerStep A)^[m] (A.lit 0.5)) ∧
        ∀ k' m', k < k' → ¬ AcceptedAt A st i (A.lit 0.5) k' m') ∨
      (st' = st ∧ ∀ k m, ¬ AcceptedAt A st i (A.lit 0.5) k m) := by
  induction fuel generalizing i st with
  | zero => simp [outerLoop] at h
  | succ n ih =>
    rw [outerLoop] at h
    by_cases hg : outerGuard A st i = true
    · rw [if_pos hg] at h
      cases hin : innerLoop A i n (A.lit 0.5) st with
      | none =>
        rw [hin] at h
        cases h
      | some st1 =>
        rw [hin] at h
        have h' : outerLoop A n (outerStep A i) st1 = some st' := h
        have hinner := innerLoop_cases A i n (A.lit 0.5) st st1 hin
        have hst1 : ∃ a b, st1 = withTimes st a b := by
          rcases hinner with ⟨m, _, _, _, e⟩ | ⟨e, _⟩
          · exact ⟨_, _, e⟩
          · exact ⟨st.fallTime, st.engineTime, e⟩
        rcases ih (outerStep A i) st1 h' with ⟨k, m, hAcc, hrej, hst', hlater⟩ | ⟨hst', hnone⟩
        · left
          obtain ⟨a, b, rfl⟩ := hst1
          refine ⟨k + 1, m, ?_, ?_, ?_, ?_⟩
          · exact (AcceptedAt_succ A st i _ k m hg).mpr hAcc
          · intro m' hm'
            rw [Function.iterate_succ_apply]
            exact hrej m' hm'
          · rw [Function.iterate_succ_apply]
            exact hst'
          · intro k' m' hk' hacc
            obtain ⟨k'', rfl⟩ : ∃ k'', k' = k'' + 1 := ⟨k' - 1, by omega⟩
            exact hlater k'' m' (by omega) ((AcceptedAt_succ A st i _ k'' m' hg).mp hacc)
        · rcases hinner with ⟨m, h1, h2, h3, e⟩ | ⟨e, hno⟩
          · left
            refine ⟨0, m, ⟨?_, h1, h3⟩, h2, hst'.trans e, ?_⟩
            · intro k' hk'
              obtain rfl : k' = 0 := by omega
              exact hg
            · intro k' m' hk' hacc
              obtain ⟨k'', rfl⟩ : ∃ k'', k' = k'' + 1 := ⟨k' - 1, by omega⟩
              have hacc' := (AcceptedAt_succ A st i _ k'' m' hg).mp hacc
              rw [e] at hnone
              exact hnone k'' m' hacc'
          · right
            refine ⟨hst'.trans e, ?_⟩
            intro k m hacc
            cases k with
            | zero =>
              have hrej := hno m hacc.2.1
              have h3 : accepts A st i ((innerStep A)^[m] (A.lit 0.5)) = true := hacc.2.2
              rw [h3] at hrej
              cases hrej
            | succ k'' =>
              have hacc' := (AcceptedAt_succ A st i _ k'' m hg).mp hacc
              rw [e] at hnone
              exact hnone k'' m hacc'
    · rw [if_neg hg] at h
      right
      refine ⟨(Option.some.inj h).symm, ?_⟩
      intro k m hacc
      exact hg (hacc.1 0 (Nat.zero_le k))

/-- While the guard of the outer loop holds at every value of the counter, the
outer loop returns with no amount of fuel. -/
theorem outerLoop_none_of_guard {F : Type} (A : Float64Arith F) (fuel : Nat) (i : F)
    (st : consts F) (hg : ∀ k, outerGuard A st ((outerStep A)^[k] i) = true) :
    outerLoop A fuel i st = none := by
  induction fuel generalizing i st with
  | zero => rfl
  | succ n ih =>
    have hg0 : outerGuard A st i = true := hg 0
    rw [outerLoop, if_pos hg0]
    cases hin : innerLoop A i n (A.lit 0.5) st with
    | none => rfl
    | some st1 =>
      have hst1 : ∃ a b, st1 = withTimes st a b := by
        rcases innerLoop_cases A i n (A.lit 0.5) st st1 hin with ⟨m, _, _, _, e⟩ | ⟨e, _⟩
        · exact ⟨_, _, e⟩
        · exact ⟨st.fallTime, st.engineTime, e⟩
      obtain ⟨a, b, rfl⟩ := hst1
      refine ih (outerStep A i) (withTimes st a b) (fun k => ?_)
      have := hg (k + 1)
      rwa [Function.iterate_succ_apply] at this

/-- The inner loop returns once its guard fails at some value of the counter. -/
theorem innerLoopTraced_returns (i : F) (st : consts F) (n : Nat) (j : F)
    (hstop : A.le ((innerStep A)^[n] j) (A.lit 10) = false) (fuel : Nat)
    (hfuel : n + 1 ≤ fuel) :
    ∃ r, innerLoopTraced A i fuel j st = some r := by
  induction n generalizing j fuel with
  | zero =>
    obtain ⟨f, rfl⟩ : ∃ f, fuel = f + 1 := ⟨fuel - 1, by omega⟩
    have h0 : A.le j (A.lit 10) = false := hstop
    exact ⟨(st, []), by simp [innerLoopTraced, h0]⟩
  | succ n ih =>
    obtain ⟨f, rfl⟩ : ∃ f, fuel = f + 1 := ⟨fuel - 1, by omega⟩
    rw [Function.iterate_succ_apply] at hstop
    obtain ⟨r, hr⟩ := ih (innerStep A j) hstop f (by omega)
    have hr' : innerLoopTraced A i f (A.add j (A.lit 0.05)) st = some r := hr
    rw [innerLoopTraced]
    split
    · split
      · exact ⟨_, rfl⟩
      · rw [hr']
        exact ⟨_, rfl⟩
    · exact ⟨_, rfl⟩

/-- The inner loop evaluates at most as many candidates as its counter takes
values before the guard fails. -/
theorem innerLoopTraced_length_le (i : F) (st : consts F) (n : Nat) (j : F)
    (hstop : A.le ((innerStep A)^[n] j) (A.lit 10) = false) (fuel : Nat)
    (r : consts F × List (Probe F)) (h : innerLoopTraced A i fuel j st = some r) :
    r.2.length ≤ n := by
  induction fuel generalizing j n r with
  | zero => simp [innerLoopTraced] at h
  | succ f ih =>
    rw [innerLoopTraced] at h
    by_cases hle : A.le j (A.lit 10) = true
    · rw [if_pos hle] at h
      obtain ⟨m, rfl⟩ : ∃ m, n = m + 1 := by
        cases n with
        | zero =>
          rw [Function.iterate_zero_apply, hle] at hstop
          cases hstop
        | succ m => exact ⟨m, rfl⟩
      rw [Function.iterate_succ_apply] at hstop
      by_cases hacc : accepts A st i j = true
      · rw [if_pos hacc] at h
        rw [← Option.some.inj h]
        show 1 ≤ m + 1
        omega
      · rw [if_neg hacc] at h
        cases hr : innerLoopTraced A i f (A.add j (A.lit 0.05)) st with
        | none =>
          rw [hr] at h
          cases h
        | some r' =>
          rw [hr] at h
          have hlen := ih m (innerStep A j) hstop r' hr
          rw [← Option.some.inj h]
          show r'.2.length + 1 ≤ m + 1
          omega
    · rw [if_neg hle] at h
      rw [← Option.some.inj h]
      exact Nat.zero_le _

/-- The outer loop returns once its guard fails at some value of the counter,
when every inner loop returns. -/
theorem outerLoopTraced_returns (N : Nat)
    (hin : ∀ (i : F) (st : consts F) (fuel : Nat), N ≤ fuel →
      ∃ r, innerLoopTraced A i fuel (A.lit 0.5) st = some r)
    (k : Nat) (i : F) (st : consts F)
    (hk : outerGuard A st ((outerStep A)^[k] i) = false) (fuel : Nat)
    (hfuel : k + N + 1 ≤ fuel) :
    ∃ r, outerLoopTraced A fuel i st = some r := by
  induction k generalizing i st fuel with
  | zero =>
    obtain ⟨f, rfl⟩ : ∃ f, fuel = f + 1 := ⟨fuel - 1, by omega⟩
    have h0 : outerGuard A st i = false := hk
    exact ⟨(st, []), by simp [outerLoopTraced, h0]⟩
  | succ n ih =>
    obtain ⟨f, rfl⟩ : ∃ f, fuel = f + 1 := ⟨fuel - 1, by omega⟩
    rw [outerLoopTraced]
    split
    · obtain ⟨r, hr⟩ := hin i st f (by omega)
      rw [hr]
      have hst : r.1 = withTimes st r.1.fallTime r.1.engineTime := by
        rw [(innerLoopTraced_spec A i f _ st r.1 r.2 hr).1]
        exact record_eq_withTimes st r.2
      rw [Function.iterate_succ_apply] at hk
      have hk' : outerGuard A r.1 ((outerStep A)^[n] (outerStep A i)) = false := by
        rw [hst, outerGuard_withTimes]
        exact hk
      obtain ⟨r', hr'⟩ := ih (outerStep A i) r.1 hk' f (by omega)
      have hr'' : outerLoopTraced A f (A.add i (A.lit 0.001)) r.1 = some r' := hr'
      simp only
      rw [hr'']
      exact ⟨_, rfl⟩
    · exact ⟨_, rfl⟩

end Generic

/-! ## The counter of the inner loop in binary64 -/

section Binary64Counter

set_option maxRecDepth 1000000 in
/-- In binary64 the inner counter is `5601352036542059 / 2 ^ 49`, printed
`9.950000000000008`, after 189 increments from `0.5`, and
`5629499534213125 / 2 ^ 49`, printed `10.000000000000009`, after 190. -/
theorem binary64_counter_last :
    Binary64.stepBurn^[189] (Binary64.ofRat 0.5)
        = Binary64.fin false (5601352036542059 / 562949953421312) ∧
      Binary64.stepBurn^[190] (Binary64.ofRat 0.5)
        = Binary64.fin false (5629499534213125 / 562949953421312) := by
  decide!

/-- In binary64 the inner counter, after 190 increments from `0.5`, is above
`10`, so the guard `j <= 10` fails there. -/
theorem binary64_counter_stops :
    Binary64.le (Binary64.stepBurn^[190] (Binary64.ofRat 0.5)) (Binary64.ofRat 10) = false := by
  rw [binary64_counter_last.2]
  decide!

set_option maxRecDepth 1000000 in
/-- In binary64 the first 190 values of the inner counter are finite, positive
and below `10`. -/
theorem binary64_counters_below :
    (Binary64.counters 190 (Binary64.ofRat 0.5)).all Binary64.belowTen = true := by
  decide!

/-- In binary64 `150 / 15` is exactly `10`. -/
theorem binary64_div_fuel :
    Binary64.div (Binary64.ofRat 150.0) (Binary64.ofRat 15.0) = Binary64.fin false 10 := by
  decide!

theorem binary64_mem_counters (n m : Nat) (j : Binary64) (h : m < n) :
    Binary64.stepBurn^[m] j ∈ Binary64.counters n j := by
  induction n generalizing m j with
  | zero => omega
  | succ n ih =>
    cases m with
    | zero => exact List.mem_cons_self _ _
    | succ m =>
      rw [Function.iterate_succ_apply]
      exact List.mem_cons_of_mem _ (ih m (Binary64.stepBurn j) (by omega))

theorem binary64_belowTen {x : Binary64} (h : Binary64.belowTen x = true) :
    ∃ q : ℚ, x = Binary64.fin false q ∧ q < 10 := by
  cases x with
  | nan => simp [Binary64.belowTen] at h
  | inf s => simp [Binary64.belowTen] at h
  | fin s q =>
    cases s with
    | true => simp [Binary64.belowTen] at h
    | false =>
      simp only [Binary64.belowTen, decide_eq_true_eq] at h
      exact ⟨q, rfl, h⟩

/-- In binary64, whatever `math.Log` and `math.Pow` compute, a burn time reached
by the inner loop header is one of the first 190 counter values, hence finite,
positive and below `10`. -/
theorem binary64_innerReach_below (log : Binary64 → Binary64)
    (pow : Binary64 → Binary64 → Binary64) {j : Binary64}
    (h : innerReach (binary64Arith log pow) ((binary64Arith log pow).lit 0.5) j) :
    ∃ q : ℚ, j = Binary64.fin false q ∧ q < 10 := by
  obtain ⟨m, hm, hle⟩ := h
  have e1 : innerStep (binary64Arith log pow) = Binary64.stepBurn := rfl
  have e2 : (binary64Arith log pow).lit 0.5 = Binary64.ofRat 0.5 := rfl
  have e3 : (binary64Arith log pow).lit 10 = Binary64.ofRat 10 := rfl
  have e4 : (binary64Arith log pow).le = Binary64.le := rfl
  rw [e1, e2] at hm
  have hlt : m < 190 := by
    by_contra hge
    have h190 := hle 190 (by omega)
    rw [e1, e2, e3, e4, binary64_counter_stops] at h190
    cases h190
  have hmem := binary64_mem_counters 190 m (Binary64.ofRat 0.5) hlt
  rw [← hm] at hmem
  exact binary64_belowTen (List.all_eq_true.mp binary64_counters_below j hmem)

set_option maxRecDepth 1000000 in
/-- The test run in binary64 from start speed 0 and start height 0.811 ends
after 190 evaluations. -/
theorem binary64_test_run :
    (FindVariableTimeTraced testArith 200
      (setStart (num testArith) (Binary64.ofRat 0) (Binary64.ofRat 0.811))).map
        (fun r => r.2.length) = some 190 := by
  decide!

theorem binary64_twoPow_nonneg (k : Int) : 0 ≤ Binary64.twoPow k := by
  unfold Binary64.twoPow
  split
  · exact Nat.cast_nonneg _
  · exact div_nonneg zero_le_one (Nat.cast_nonneg _)

/-- Rounding with the positive sign gives a value that is not negative. -/
theorem binary64_round_isNonneg (a : ℚ) :
    Binary64.isNonneg (Binary64.roundNearestEven false a) := by
  unfold Binary64.roundNearestEven
  simp only
  split_ifs
  all_goals first
    | exact le_refl (0 : ℚ)
    | trivial
    | exact mul_nonneg (Nat.cast_nonneg _) (binary64_twoPow_nonneg _)

theorem binary64_add_isNonneg {x y : Binary64} (hx : Binary64.isNonneg x)
    (hy : Binary64.isNonneg y) : Binary64.isNonneg (Binary64.add x y) := by
  rcases x with _ | s | ⟨s, a⟩
  · exact hx.elim
  · cases s with
    | true => exact hx.elim
    | false =>
      rcases y with _ | t | ⟨t, b⟩
      · exact hy.elim
      · cases t with
        | true => exact hy.elim
        | false => trivial
      · trivial
  · cases s with
    | true => exact hx.elim
    | false =>
      rcases y with _ | t | ⟨t, b⟩
      · exact hy.elim
      · cases t with
        | true => exact hy.elim
        | false => trivial
      · cases t with
        | true => exact hy.elim
        | false =>
          have ha : 0 ≤ a := hx
          have hb : 0 ≤ b := hy
          simp only [Binary64.add, Binary64.signed, Bool.false_eq_true, if_false]
          split
          · exact le_refl (0 : ℚ)
          · have hnum : decide ((a + b).num < 0) = false := by
              rw [decide_eq_false_iff_not, not_lt]
              exact Rat.num_nonneg.mpr (add_nonneg ha hb)
            rw [Binary64.ofRat, hnum]
            exact binary64_round_isNonneg _

theorem binary64_mul_self_isNonneg {x : Binary64} (hx : Binary64.isNonneg x) :
    Binary64.isNonneg (Binary64.mul x x) := by
  rcases x with _ | s | ⟨s, a⟩
  · exact hx.elim
  · cases s with
    | true => exact hx.elim
    | false => trivial
  · cases s with
    | true => exact hx.elim
    | false => exact binary64_round_isNonneg _

theorem binary64_mul_pos_isNonneg {a : ℚ} (ha : a ≠ 0) {y : Binary64}
    (hy : Binary64.isNonneg y) : Binary64.isNonneg (Binary64.mul (Binary64.fin false a) y) := by
  rcases y with _ | t | ⟨t, b⟩
  · exact hy.elim
  · cases t with
    | true => exact hy.elim
    | false =>
      simp only [Binary64.mul, if_neg ha]
      trivial
  · cases t with
    | true => exact hy.elim
    | false => exact binary64_round_isNonneg _

theorem binary64_div_two_isNonneg {x : Binary64} (hx : Binary64.isNonneg x) :
    Binary64.isNonneg (Binary64.div x (Binary64.fin false 2)) := by
  rcases x with _ | s | ⟨s, a⟩
  · exact hx.elim
  · cases s with
    | true => exact hx.elim
    | false => trivial
  · cases s with
    | true => exact hx.elim
    | false =>
      have h2 : ¬ (2 : ℚ) = 0 := by norm_num
      simp only [Binary64.div, if_neg h2]
      exact binary64_round_isNonneg _

theorem binary64_le_inf {x : Binary64} (hx : Binary64.isNonneg x) :
    Binary64.le x (Binary64.inf false) = true := by
  rcases x with _ | s | ⟨s, a⟩
  · exact hx.elim
  · cases s with
    | true => exact hx.elim
    | false => rfl
  · rfl

/-- In binary64 the constants `1.62`, `2.0`, `1.0` and `0.001` of the source are
positive values. -/
theorem binary64_constants :
    Binary64.ofRat 1.62 = Binary64.fin false (1823957849085051 / 1125899906842624) ∧
      Binary64.ofRat 2.0 = Binary64.fin false 2 ∧
      Binary64.ofRat 1.0 = Binary64.fin false 1 ∧
      Binary64.ofRat 0.001 = Binary64.fin false (1152921504606847 / 1152921504606846976) := by
  decide!

/-- In binary64 with start speed 1 and start height plus infinity, the guard of
the outer loop holds at every value of the counter: the counter and the height
of the fall are never negative and never not-a-number. -/
theorem binary64_guard_inf (log : Binary64 → Binary64) (k : Nat) :
    outerGuard (binary64Arith log (fun x _ => Binary64.mul x x))
      (setStart (num (binary64Arith log (fun x _ => Binary64.mul x x)))
        (Binary64.fin false 1) (Binary64.inf false))
      ((outerStep (binary64Arith log (fun x _ => Binary64.mul x x)))^[k]
        ((binary64Arith log (fun x _ => Binary64.mul x x)).lit 1.0)) = true := by
  have hstep : ∀ x, outerStep (binary64Arith log (fun x _ => Binary64.mul x x)) x
      = Binary64.add x (Binary64.ofRat 0.001) := fun _ => rfl
  have hcounter : ∀ n : Nat, Binary64.isNonneg
      ((outerStep (binary64Arith log (fun x _ => Binary64.mul x x)))^[n]
        (Binary64.ofRat 1.0)) := by
    intro n
    induction n with
    | zero =>
      rw [Function.iterate_zero_apply, binary64_constants.2.2.1]
      exact zero_le_one
    | succ n ih =>
      rw [Function.iterate_succ_apply', hstep]
      refine binary64_add_isNonneg ih ?_
      rw [binary64_constants.2.2.2]
      exact div_nonneg (by norm_num) (by norm_num)
  have hform : ∀ x, outerGuard (binary64Arith log (fun x _ => Binary64.mul x x))
      (setStart (num (binary64Arith log (fun x _ => Binary64.mul x x)))
        (Binary64.fin false 1) (Binary64.inf false)) x
      = Binary64.le
          (Binary64.add (Binary64.mul (Binary64.fin false 1) x)
            (Binary64.div (Binary64.mul (Binary64.ofRat 1.62) (Binary64.mul x x))
              (Binary64.ofRat 2.0)))
          (Binary64.inf false) := fun _ => rfl
  have e1 : (binary64Arith log (fun x _ => Binary64.mul x x)).lit 1.0 = Binary64.ofRat 1.0 := rfl
  rw [hform, e1]
  refine binary64_le_inf (binary64_add_isNonneg ?_ ?_)
  · exact binary64_mul_pos_isNonneg one_ne_zero (hcounter k)
  · rw [binary64_constants.1, binary64_constants.2.1]
    refine binary64_div_two_isNonneg (binary64_mul_pos_isNonneg ?_ ?_)
    · norm_num
    · exact binary64_mul_self_isNonneg (hcounter k)

end Binary64Counter

/-! ## Rounding in binary64 -/

section Rounding

open Binary64

theorem binary64_log2Width_spec (ws : List Nat) (n : Nat) (hws : goodWidths ws) (h1 : 1 ≤ n)
    (hn : n < 2 ^ (ws.sum + 1)) :
    2 ^ log2Width ws n ≤ n ∧ n < 2 ^ (log2Width ws n + 1) := by
  induction ws generalizing n with
  | nil =>
    simp only [List.sum_nil, zero_add, pow_one] at hn
    have : n = 1 := by omega
    subst this
    simp [log2Width]
  | cons w ws ih =>
    obtain ⟨hw, hgood⟩ := hws
    rw [log2Width]
    split
    · rename_i hle
      have hpos : 0 < 2 ^ w := Nat.pow_pos (by norm_num)
      have h1' : 1 ≤ n / 2 ^ w := (Nat.one_le_div_iff hpos).mpr hle
      have hn' : n / 2 ^ w < 2 ^ (ws.sum + 1) := by
        rw [Nat.div_lt_iff_lt_mul hpos]
        calc n < 2 ^ ((w :: ws).sum + 1) := hn
          _ = 2 ^ (ws.sum + 1) * 2 ^ w := by
            rw [← pow_add]
            congr 1
            simp only [List.sum_cons]
            omega
      obtain ⟨lo, hi⟩ := ih (n / 2 ^ w) hgood h1' hn'
      constructor
      · calc 2 ^ (w + log2Width ws (n / 2 ^ w)) = 2 ^ w * 2 ^ log2Width ws (n / 2 ^ w) := pow_add _ _ _
          _ ≤ 2 ^ w * (n / 2 ^ w) := Nat.mul_le_mul_left _ lo
          _ ≤ n := Nat.mul_div_le n (2 ^ w)
      · have : n / 2 ^ w + 1 ≤ 2 ^ (log2Width ws (n / 2 ^ w) + 1) := hi
        have h2 : n < 2 ^ w * (n / 2 ^ w + 1) := by
          have := Nat.lt_mul_div_succ n hpos
          simpa using this
        calc n < 2 ^ w * (n / 2 ^ w + 1) := h2
          _ ≤ 2 ^ w * 2 ^ (log2Width ws (n / 2 ^ w) + 1) := Nat.mul_le_mul_left _ this
          _ = 2 ^ (w + log2Width ws (n / 2 ^ w) + 1) := by
            rw [← pow_add]
            congr 1
    · rename_i hlt
      have hlt' : n < 2 ^ w := Nat.lt_of_not_le hlt
      have hn' : n < 2 ^ (ws.sum + 1) :=
        lt_of_lt_of_le hlt' (Nat.pow_le_pow_right (by norm_num) hw)
      exact ih n hgood h1 hn'

theorem binary64_widths_spec (fuel n w : Nat) (acc : List Nat) (hacc : goodWidths acc)
    (hsum : acc.sum + 1 = w) (hfuel : n < fuel + w) :
    goodWidths (widths fuel n w acc) ∧ n < 2 ^ ((widths fuel n w acc).sum + 1) := by
  induction fuel generalizing w acc with
  | zero =>
    rw [widths]
    refine ⟨hacc, ?_⟩
    rw [hsum]
    have : n < w := by omega
    exact lt_trans this (Nat.lt_two_pow w)
  | succ f ih =>
    rw [widths]
    split
    · refine ih (2 * w) (w :: acc) ⟨by omega, hacc⟩ ?_ ?_
      · simp only [List.sum_cons]
        omega
      · omega
    · rename_i hlt
      refine ⟨hacc, ?_⟩
      rw [hsum]
      exact Nat.lt_of_not_le hlt

/-- The position of the leading bit: `2 ^ log2 n ≤ n < 2 ^ (log2 n + 1)`. -/
theorem binary64_log2_spec (n : Nat) (h1 : 1 ≤ n) :
    2 ^ log2 n ≤ n ∧ n < 2 ^ (log2 n + 1) := by
  obtain ⟨hg, hn⟩ := binary64_widths_spec n n 1 [] trivial rfl (by omega)
  exact binary64_log2Width_spec _ n hg h1 hn

end Rounding

section RoundingError

open Binary64

theorem binary64_twoPow_eq (k : ℤ) : twoPow k = (2 : ℚ) ^ k := by
  unfold twoPow
  split
  · rename_i h
    have hk : k = (k.toNat : ℤ) := (Int.toNat_of_nonneg h).symm
    conv_rhs => rw [hk]
    rw [zpow_natCast]
    push_cast
    rfl
  · rename_i h
    have h' : 0 ≤ -k := by omega
    have hk : k = -((-k).toNat : ℤ) := by
      rw [Int.toNat_of_nonneg h']
      ring
    conv_rhs => rw [hk]
    rw [zpow_neg, zpow_natCast]
    push_cast
    rw [one_div]

/-- The pair `scaled p q k` is a fraction of value `(p / q) / 2 ^ k`. -/
theorem binary64_scaled_spec (p q : Nat) (k : ℤ) (hq : 1 ≤ q) :
    0 < (scaled p q k).2 ∧
      ((scaled p q k).1 : ℚ) / ((scaled p q k).2 : ℚ) = (p : ℚ) / q / (2 : ℚ) ^ k := by
  have hq' : (0 : ℚ) < q := by exact_mod_cast hq
  unfold scaled
  split
  · rename_i h
    have hk : k = (k.toNat : ℤ) := (Int.toNat_of_nonneg h).symm
    refine ⟨Nat.mul_pos hq (Nat.pow_pos (by norm_num)), ?_⟩
    conv_rhs => rw [hk]
    rw [zpow_natCast]
    push_cast
    rw [div_div]
  · rename_i h
    have h' : 0 ≤ -k := by omega
    have hk : k = -((-k).toNat : ℤ) := by
      rw [Int.toNat_of_nonneg h']
      ring
    refine ⟨hq, ?_⟩
    conv_rhs => rw [hk]
    rw [zpow_neg, zpow_natCast]
    push_cast
    field_simp

/-- The exponent of a positive fraction: `2 ^ e ≤ p / q < 2 ^ (e + 1)`. -/
theorem binary64_floorLog2_spec (p q : Nat) (hp : 1 ≤ p) (hq : 1 ≤ q) :
    (2 : ℚ) ^ floorLog2 p q ≤ (p : ℚ) / q ∧ (p : ℚ) / q < (2 : ℚ) ^ (floorLog2 p q + 1) := by
  obtain ⟨hp1, hp2⟩ := binary64_log2_spec p hp
  obtain ⟨hq1, hq2⟩ := binary64_log2_spec q hq
  have hq' : (0 : ℚ) < q := by exact_mod_cast hq
  have hp1' : (2 : ℚ) ^ (log2 p : ℤ) ≤ p := by
    rw [zpow_natCast]
    exact_mod_cast hp1
  have hp2' : (p : ℚ) < (2 : ℚ) ^ ((log2 p : ℤ) + 1) := by
    have : ((log2 p : ℤ) + 1) = ((log2 p + 1 : ℕ) : ℤ) := by push_cast; ring
    rw [this, zpow_natCast]
    exact_mod_cast hp2
  have hq1' : (2 : ℚ) ^ (log2 q : ℤ) ≤ q := by
    rw [zpow_natCast]
    exact_mod_cast hq1
  have hq2' : (q : ℚ) < (2 : ℚ) ^ ((log2 q : ℤ) + 1) := by
    have : ((log2 q : ℤ) + 1) = ((log2 q + 1 : ℕ) : ℤ) := by push_cast; ring
    rw [this, zpow_natCast]
    exact_mod_cast hq2
  have h2 : (2 : ℚ) ≠ 0 := by norm_num
  have hpos : ∀ k : ℤ, (0 : ℚ) < (2 : ℚ) ^ k := fun k => zpow_pos (by norm_num) k
  -- bounds of `p / q` by the powers around `e0`
  have hup : (p : ℚ) / q < (2 : ℚ) ^ ((log2 p : ℤ) - (log2 q : ℤ) + 1) := by
    rw [div_lt_iff₀ hq']
    calc (p : ℚ) < (2 : ℚ) ^ ((log2 p : ℤ) + 1) := hp2'
      _ = (2 : ℚ) ^ ((log2 p : ℤ) - (log2 q : ℤ) + 1) * (2 : ℚ) ^ (log2 q : ℤ) := by
        rw [← zpow_add₀ h2]
        congr 1
        ring
      _ ≤ (2 : ℚ) ^ ((log2 p : ℤ) - (log2 q : ℤ) + 1) * q :=
        mul_le_mul_of_nonneg_left hq1' (hpos _).le
  have hlo : (2 : ℚ) ^ ((log2 p : ℤ) - (log2 q : ℤ) - 1) ≤ (p : ℚ) / q := by
    rw [le_div_iff₀ hq']
    calc (2 : ℚ) ^ ((log2 p : ℤ) - (log2 q : ℤ) - 1) * q
        ≤ (2 : ℚ) ^ ((log2 p : ℤ) - (log2 q : ℤ) - 1) * (2 : ℚ) ^ ((log2 q : ℤ) + 1) :=
          mul_le_mul_of_nonneg_left hq2'.le (hpos _).le
      _ = (2 : ℚ) ^ (log2 p : ℤ) := by
        rw [← zpow_add₀ h2]
        congr 1
        ring
      _ ≤ p := hp1'
  obtain ⟨hs2, hs⟩ := binary64_scaled_spec p q ((log2 p : ℤ) - (log2 q : ℤ)) hq
  have hs2' : (0 : ℚ) < ((scaled p q ((log2 p : ℤ) - (log2 q : ℤ))).2 : ℚ) := by
    exact_mod_cast hs2
  unfold floorLog2
  simp only
  split
  · rename_i hlt
    have hlt' : ((scaled p q ((log2 p : ℤ) - (log2 q : ℤ))).1 : ℚ)
        < ((scaled p q ((log2 p : ℤ) - (log2 q : ℤ))).2 : ℚ) := by exact_mod_cast hlt
    have h1 : (p : ℚ) / q / (2 : ℚ) ^ ((log2 p : ℤ) - (log2 q : ℤ)) < 1 := by
      rw [← hs, div_lt_one hs2']
      exact hlt'
    rw [div_lt_one (hpos _)] at h1
    refine ⟨hlo, ?_⟩
    have : (log2 p : ℤ) - (log2 q : ℤ) - 1 + 1 = (log2 p : ℤ) - (log2 q : ℤ) := by ring
    rw [this]
    exact h1
  · rename_i hge
    have hge' : ((scaled p q ((log2 p : ℤ) - (log2 q : ℤ))).2 : ℚ)
        ≤ ((scaled p q ((log2 p : ℤ) - (log2 q : ℤ))).1 : ℚ) := by
      exact_mod_cast Nat.le_of_not_lt hge
    have h1 : 1 ≤ (p : ℚ) / q / (2 : ℚ) ^ ((log2 p : ℤ) - (log2 q : ℤ)) := by
      rw [← hs, one_le_div hs2']
      exact hge'
    rw [one_le_div (hpos _)] at h1
    exact ⟨h1, hup⟩

/-- Rounding a fraction to the nearest integer, ties to even, moves it by at
most one half. -/
theorem binary64_nearest_spec (a b : Nat) (hb : 0 < b) :
    |(((if 2 * (a % b) < b then a / b else if b < 2 * (a % b) then a / b + 1
        else if a / b % 2 = 0 then a / b else a / b + 1 : Nat) : ℚ)) - (a : ℚ) / b| ≤ 1 / 2 := by
  have hb' : (0 : ℚ) < b := by exact_mod_cast hb
  have hdiv : (a : ℚ) = (b : ℚ) * ((a / b : Nat) : ℚ) + ((a % b : Nat) : ℚ) := by
    exact_mod_cast (Nat.div_add_mod a b).symm
  have hr : ((a % b : Nat) : ℚ) < b := by exact_mod_cast Nat.mod_lt a hb
  have hr0 : (0 : ℚ) ≤ ((a % b : Nat) : ℚ) := Nat.cast_nonneg _
  have ht : (a : ℚ) / b = ((a / b : Nat) : ℚ) + ((a % b : Nat) : ℚ) / b := by
    field_simp
    linarith
  have key : ∀ m : ℚ, |m - (((a / b : Nat) : ℚ) + ((a % b : Nat) : ℚ) / b)| ≤ 1 / 2 ↔
      2 * (b * m) - b ≤ 2 * (b * ((a / b : Nat) : ℚ) + ((a % b : Nat) : ℚ)) ∧
        2 * (b * ((a / b : Nat) : ℚ) + ((a % b : Nat) : ℚ)) ≤ 2 * (b * m) + b := by
    intro m
    rw [abs_le]
    constructor
    · rintro ⟨h1, h2⟩
      have e : (b : ℚ) * (((a % b : Nat) : ℚ) / b) = ((a % b : Nat) : ℚ) := by field_simp
      have h1' := mul_le_mul_of_nonneg_left h1 hb'.le
      have h2' := mul_le_mul_of_nonneg_left h2 hb'.le
      constructor <;> nlinarith
    · rintro ⟨h1, h2⟩
      have e : (b : ℚ) * (((a % b : Nat) : ℚ) / b) = ((a % b : Nat) : ℚ) := by field_simp
      constructor
      · by_contra hc
        push_neg at hc
        have := mul_lt_mul_of_pos_left hc hb'
        nlinarith
      · by_contra hc
        push_neg at hc
        have := mul_lt_mul_of_pos_left hc hb'
        nlinarith
  rw [ht, key]
  split_ifs with h1 h2 h3
  · have : (2 : ℚ) * ((a % b : Nat) : ℚ) < b := by exact_mod_cast h1
    constructor <;> linarith
  · have : (b : ℚ) < 2 * ((a % b : Nat) : ℚ) := by exact_mod_cast h2
    push_cast
    constructor <;> linarith
  · have e1 : (b : ℚ) ≤ 2 * ((a % b : Nat) : ℚ) := by exact_mod_cast Nat.le_of_not_lt h1
    have e2 : (2 : ℚ) * ((a % b : Nat) : ℚ) ≤ b := by exact_mod_cast Nat.le_of_not_lt h2
    constructor <;> linarith
  · have e1 : (b : ℚ) ≤ 2 * ((a % b : Nat) : ℚ) := by exact_mod_cast Nat.le_of_not_lt h1
    have e2 : (2 : ℚ) * ((a % b : Nat) : ℚ) ≤ b := by exact_mod_cast Nat.le_of_not_lt h2
    push_cast
    constructor <;> linarith

end RoundingError

section RoundingBound

open Binary64

theorem binary64_range_bounds :
    (10 : ℚ) ^ 200 < (2 : ℚ) ^ (1023 : ℤ) ∧ (2 : ℚ) ^ (-1022 : ℤ) / 2 ^ 53 ≤ 1 / 10 ^ 200 := by
  have h16 : (10 : ℚ) ^ 200 ≤ 2 ^ 800 := by
    calc (10 : ℚ) ^ 200 ≤ 16 ^ 200 := pow_le_pow_left₀ (by norm_num) (by norm_num) 200
      _ = 2 ^ 800 := by
        rw [show (16 : ℚ) = 2 ^ 4 by norm_num, ← pow_mul]
  have hc : ((1023 : ℕ) : ℤ) = (1023 : ℤ) := rfl
  have hc' : ((1022 : ℕ) : ℤ) = (1022 : ℤ) := rfl
  constructor
  · rw [← hc, zpow_natCast]
    exact lt_of_le_of_lt h16 (pow_lt_pow_right₀ (by norm_num) (by norm_num))
  · rw [zpow_neg, ← hc', zpow_natCast, inv_eq_one_div, div_div, ← pow_add]
    have h1 : (10 : ℚ) ^ 200 ≤ 2 ^ (1022 + 53) :=
      le_trans h16 (pow_le_pow_right₀ (by norm_num) (by norm_num))
    exact one_div_le_one_div_of_le (by positivity) h1

/-- Rounding to binary64 below the overflow range gives a finite value within
the relative error `2 ^ -53`, up to the spacing of the subnormal numbers. -/
theorem binary64_round_spec (s : Bool) (a : ℚ) (ha : |a| ≤ 10 ^ 200) :
    ∃ v : ℚ, roundNearestEven s a = fin s v ∧ 0 ≤ v ∧
      |v - abs a| ≤ abs a / 2 ^ 53 + 1 / 10 ^ 200 := by
  have habs : |a| = (a.num.natAbs : ℚ) / (a.den : ℚ) := by
    rw [Rat.abs_def, Rat.divInt_eq_div, Nat.cast_natAbs, Int.cast_abs]
    push_cast
    rw [Nat.cast_natAbs, Int.cast_abs]
  by_cases hp : a.num.natAbs = 0
  · have h0 : |a| = 0 := by rw [habs, hp]; simp
    refine ⟨0, ?_, le_refl 0, ?_⟩
    · simp [roundNearestEven, hp]
    · rw [h0]
      norm_num
  · have hp1 : 1 ≤ a.num.natAbs := Nat.one_le_iff_ne_zero.mpr hp
    have hq : 1 ≤ a.den := a.den_pos
    obtain ⟨hfl1, hfl2⟩ := binary64_floorLog2_spec a.num.natAbs a.den hp1 hq
    rw [← habs] at hfl1 hfl2
    have hpos : ∀ k : ℤ, (0 : ℚ) < (2 : ℚ) ^ k := fun k => zpow_pos (by norm_num) k
    have hfl : floorLog2 a.num.natAbs a.den < 1023 := by
      have h1 : (2 : ℚ) ^ floorLog2 a.num.natAbs a.den < (2 : ℚ) ^ (1023 : ℤ) :=
        lt_of_le_of_lt hfl1 (lt_of_le_of_lt ha binary64_range_bounds.1)
      exact (zpow_lt_zpow_iff_right₀ (by norm_num)).mp h1
    have he1 : clampExponent (floorLog2 a.num.natAbs a.den) ≤ 1022 := by
      unfold clampExponent
      split <;> omega
    obtain ⟨hn2, hn⟩ := binary64_scaled_spec a.num.natAbs a.den
      (clampExponent (floorLog2 a.num.natAbs a.den) - 52) hq
    rw [← habs] at hn
    have hnear := binary64_nearest_spec
      (scaled a.num.natAbs a.den (clampExponent (floorLog2 a.num.natAbs a.den) - 52)).1
      (scaled a.num.natAbs a.den (clampExponent (floorLog2 a.num.natAbs a.den) - 52)).2 hn2
    rw [hn] at hnear
    have hno : ∀ m : Nat, ¬ (971 < clampExponent (floorLog2 a.num.natAbs a.den) - 52 ∨
        (clampExponent (floorLog2 a.num.natAbs a.den) - 52 = 971 ∧ 2 ^ 53 ≤ m)) := by
      intro m h
      rcases h with h | ⟨h, _⟩ <;> omega
    obtain ⟨m, hm, hnear⟩ : ∃ m : Nat,
        roundNearestEven s a
          = fin s ((m : ℚ) * twoPow (clampExponent (floorLog2 a.num.natAbs a.den) - 52)) ∧
        |(m : ℚ) - |a| / 2 ^ (clampExponent (floorLog2 a.num.natAbs a.den) - 52)| ≤ 1 / 2 := by
      refine ⟨_, ?_, hnear⟩
      simp only [roundNearestEven, hp, if_false]
      rw [if_neg (hno _)]
    refine ⟨_, hm, ?_, ?_⟩
    · exact mul_nonneg (Nat.cast_nonneg _) (binary64_twoPow_nonneg _)
    · rw [binary64_twoPow_eq]
      have hE := hpos (clampExponent (floorLog2 a.num.natAbs a.den) - 52)
      have h1 := mul_le_mul_of_nonneg_right hnear hE.le
      have key : (m : ℚ) * (2 : ℚ) ^ (clampExponent (floorLog2 a.num.natAbs a.den) - 52) - |a|
          = ((m : ℚ) - |a| / (2 : ℚ) ^ (clampExponent (floorLog2 a.num.natAbs a.den) - 52))
            * (2 : ℚ) ^ (clampExponent (floorLog2 a.num.natAbs a.den) - 52) := by
        field_simp
      rw [key, abs_mul, abs_of_pos hE]
      refine le_trans h1 ?_
      have hsplit : (1 : ℚ) / 2 * (2 : ℚ) ^ (clampExponent (floorLog2 a.num.natAbs a.den) - 52)
          = (2 : ℚ) ^ clampExponent (floorLog2 a.num.natAbs a.den) / 2 ^ 53 := by
        rw [zpow_sub₀ (by norm_num : (2 : ℚ) ≠ 0)]
        have : (2 : ℚ) ^ (52 : ℤ) = 2 ^ 52 := by norm_cast
        rw [this]
        ring
      rw [hsplit]
      unfold clampExponent
      split
      · have : 0 ≤ |a| / 2 ^ 53 := div_nonneg (abs_nonneg a) (by positivity)
        linarith [binary64_range_bounds.2]
      · have h2 : (2 : ℚ) ^ floorLog2 a.num.natAbs a.den / 2 ^ 53 ≤ |a| / 2 ^ 53 :=
          div_le_div_of_nonneg_right hfl1 (by positivity)
        have : (0 : ℚ) ≤ 1 / 10 ^ 200 := by positivity
        linarith

end RoundingBound

section Operations

open Binary64

theorem binary64_signed_abs (sg : Bool) (v w : ℚ) :
    |signed sg v - signed sg w| = |v - w| ∧ (0 ≤ w → |signed sg w| = w) := by
  cases sg
  · constructor
    · simp only [signed, Bool.false_eq_true, if_false]
    · intro h
      simp only [signed, Bool.false_eq_true, if_false]
      exact abs_of_nonneg h
  · constructor
    · simp only [signed, if_true]
      rw [show -v - -w = -(v - w) by ring, abs_neg]
    · intro h
      simp only [signed, if_true]
      rw [abs_neg, abs_of_nonneg h]

/-- Rounding with a sign: the result is finite and within the rounding error of
the signed value. -/
theorem binary64_round_signed (sg : Bool) (z : ℚ) (hz : |z| ≤ 10 ^ 200) :
    isFinite (roundNearestEven sg z) ∧
      |toRat (roundNearestEven sg z) - signed sg (abs z)|
        ≤ abs z / 2 ^ 53 + 1 / 10 ^ 200 := by
  obtain ⟨v, hv, hv0, hbound⟩ := binary64_round_spec sg z hz
  rw [hv]
  refine ⟨hv0, ?_⟩
  have e : toRat (fin sg v) = signed sg v := rfl
  rw [e, (binary64_signed_abs sg v (abs z)).1]
  exact hbound

/-- Addition in binary64 is the exact sum up to one rounding. -/
theorem binary64_add_spec {x y : Binary64} (hx : isFinite x) (hy : isFinite y)
    (hb : |toRat x + toRat y| ≤ 10 ^ 200) :
    isFinite (add x y) ∧
      |toRat (add x y) - (toRat x + toRat y)|
        ≤ abs (toRat x + toRat y) / 2 ^ 53 + 1 / 10 ^ 200 := by
  rcases x with _ | _ | ⟨s, a⟩
  · exact hx.elim
  · exact hx.elim
  rcases y with _ | _ | ⟨t, b⟩
  · exact hy.elim
  · exact hy.elim
  have e1 : toRat (fin s a) = signed s a := rfl
  have e2 : toRat (fin t b) = signed t b := rfl
  rw [e1, e2] at hb ⊢
  by_cases h0 : signed s a + signed t b = 0
  · have hadd : add (fin s a) (fin t b) = fin (s && t) 0 := by
      simp only [add, h0, if_true]
    have hval : toRat (fin (s && t) 0) = 0 := by
      show signed (s && t) 0 = 0
      simp [signed]
    rw [hadd, hval, h0]
    refine ⟨le_refl (0 : ℚ), ?_⟩
    norm_num
  · have hadd : add (fin s a) (fin t b) = ofRat (signed s a + signed t b) := by
      simp only [add, h0, if_false]
    rw [hadd, ofRat]
    obtain ⟨hf, hr⟩ := binary64_round_signed (decide ((signed s a + signed t b).num < 0))
      (signed s a + signed t b) hb
    refine ⟨hf, ?_⟩
    have hsg : signed (decide ((signed s a + signed t b).num < 0))
        (abs (signed s a + signed t b)) = signed s a + signed t b := by
      by_cases hneg : signed s a + signed t b < 0
      · have hnum : (signed s a + signed t b).num < 0 := Rat.num_neg.mpr hneg
        rw [decide_eq_true hnum, abs_of_neg hneg]
        simp [signed]
      · have hnum : ¬ (signed s a + signed t b).num < 0 := fun h => hneg (Rat.num_neg.mp h)
        rw [decide_eq_false hnum, abs_of_nonneg (not_lt.mp hneg)]
        simp [signed]
    rw [hsg] at hr
    exact hr

theorem binary64_signed_mul (s t : Bool) (a b : ℚ) :
    signed s a * signed t b = signed (xor s t) (a * b) ∧
      signed s a / signed t b = signed (xor s t) (a / b) := by
  cases s <;> cases t <;> simp [signed, neg_div, div_neg]

/-- Multiplication in binary64 is the exact product up to one rounding. -/
theorem binary64_mul_spec {x y : Binary64} (hx : isFinite x) (hy : isFinite y)
    (hb : |toRat x * toRat y| ≤ 10 ^ 200) :
    isFinite (mul x y) ∧
      |toRat (mul x y) - toRat x * toRat y|
        ≤ abs (toRat x * toRat y) / 2 ^ 53 + 1 / 10 ^ 200 := by
  rcases x with _ | _ | ⟨s, a⟩
  · exact hx.elim
  · exact hx.elim
  rcases y with _ | _ | ⟨t, b⟩
  · exact hy.elim
  · exact hy.elim
  have ha : 0 ≤ a := hx
  have hb0 : 0 ≤ b := hy
  have e1 : toRat (fin s a) = signed s a := rfl
  have e2 : toRat (fin t b) = signed t b := rfl
  have hab0 : 0 ≤ a * b := mul_nonneg ha hb0
  rw [e1, e2, (binary64_signed_mul s t a b).1,
    (binary64_signed_abs (xor s t) 0 (a * b)).2 hab0] at hb ⊢
  have hmul : mul (fin s a) (fin t b) = roundNearestEven (xor s t) (a * b) := rfl
  have hz : |a * b| ≤ 10 ^ 200 := by
    rw [abs_of_nonneg hab0]
    exact hb
  obtain ⟨hf, hr⟩ := binary64_round_signed (xor s t) (a * b) hz
  rw [abs_of_nonneg hab0] at hr
  rw [hmul]
  exact ⟨hf, hr⟩

/-- Division in binary64 by a finite value other than zero is the exact
quotient up to one rounding. -/
theorem binary64_div_spec {x y : Binary64} (hx : isFinite x) (hy : isFinite y)
    (hy0 : toRat y ≠ 0) (hb : |toRat x / toRat y| ≤ 10 ^ 200) :
    isFinite (div x y) ∧
      |toRat (div x y) - toRat x / toRat y|
        ≤ abs (toRat x / toRat y) / 2 ^ 53 + 1 / 10 ^ 200 := by
  rcases x with _ | _ | ⟨s, a⟩
  · exact hx.elim
  · exact hx.elim
  rcases y with _ | _ | ⟨t, b⟩
  · exact hy.elim
  · exact hy.elim
  have ha : 0 ≤ a := hx
  have hb0 : 0 ≤ b := hy
  have e1 : toRat (fin s a) = signed s a := rfl
  have e2 : toRat (fin t b) = signed t b := rfl
  have hbne : b ≠ 0 := by
    intro h
    apply hy0
    rw [e2, h]
    simp [signed]
  have hab0 : 0 ≤ a / b := div_nonneg ha hb0
  rw [e1, e2, (binary64_signed_mul s t a b).2,
    (binary64_signed_abs (xor s t) 0 (a / b)).2 hab0] at hb ⊢
  have hdiv : div (fin s a) (fin t b) = roundNearestEven (xor s t) (a / b) := by
    simp only [div, if_neg hbne]
  have hz : |a / b| ≤ 10 ^ 200 := by
    rw [abs_of_nonneg hab0]
    exact hb
  obtain ⟨hf, hr⟩ := binary64_round_signed (xor s t) (a / b) hz
  rw [abs_of_nonneg hab0] at hr
  rw [hdiv]
  exact ⟨hf, hr⟩

end Operations

/-! ## The search in binary64 -/

section Binary64Search

open Binary64

theorem binary64_le_spec {x y : Binary64} (hx : isFinite x) (hy : isFinite y) :
    (le x y = true ↔ toRat x ≤ toRat y) ∧ (le x y = false ↔ toRat y < toRat x) := by
  rcases x with _ | _ | ⟨s, a⟩
  · exact hx.elim
  · exact hx.elim
  rcases y with _ | _ | ⟨t, b⟩
  · exact hy.elim
  · exact hy.elim
  have e : le (fin s a) (fin t b) = decide (signed s a ≤ signed t b) := rfl
  have e1 : toRat (fin s a) = signed s a := rfl
  have e2 : toRat (fin t b) = signed t b := rfl
  rw [e, e1, e2]
  simp

/-- A finite value with a positive rational value has the positive sign. -/
theorem binary64_pos_form {x : Binary64} (hf : isFinite x) (hp : 0 < toRat x) :
    x = fin false (toRat x) := by
  rcases x with _ | _ | ⟨s, a⟩
  · exact hf.elim
  · exact hf.elim
  have ha : 0 ≤ a := hf
  have e1 : toRat (fin s a) = signed s a := rfl
  rw [e1] at hp ⊢
  cases s
  · simp [signed]
  · simp only [signed, if_true] at hp
    linarith

/-- One increment of a counter by a step `c` that is not too small for the
size of the counter adds between `c / 2` and `2 c`. -/
theorem binary64_counter_step (c v : ℚ) (hc : 0 < c) (hv : 0 ≤ v)
    (hB : (v + c) / 2 ^ 53 + 1 / 10 ^ 200 ≤ c / 2) (hbig : v + c ≤ 10 ^ 200) :
    ∃ v', add (fin false v) (fin false c) = fin false v' ∧ v + c / 2 ≤ v' ∧ v' ≤ v + 2 * c := by
  have hx : isFinite (fin false v) := hv
  have hy : isFinite (fin false c) := hc.le
  have e1 : toRat (fin false v) = v := rfl
  have e2 : toRat (fin false c) = c := rfl
  have hsum : 0 ≤ v + c := by linarith
  have hb : |toRat (fin false v) + toRat (fin false c)| ≤ 10 ^ 200 := by
    rw [e1, e2, abs_of_nonneg hsum]
    exact hbig
  obtain ⟨hf, hr⟩ := binary64_add_spec hx hy hb
  rw [e1, e2, abs_of_nonneg hsum] at hr
  obtain ⟨lo, hi⟩ := abs_le.mp hr
  have hpos : 0 < toRat (add (fin false v) (fin false c)) := by linarith
  refine ⟨_, binary64_pos_form hf hpos, by linarith, by linarith⟩

/-- A counter that starts below `X` and is incremented by `c` reaches a value
between `X` and `X + 2 c`, when `c` is not too small for the size of `X`. -/
theorem binary64_counter_reaches (c X : ℚ) (hc : 0 < c)
    (hB : (X + c) / 2 ^ 53 + 1 / 10 ^ 200 ≤ c / 2) (hbig : X + c ≤ 10 ^ 200) (v : ℚ)
    (hv : 0 ≤ v) (hvX : v ≤ X + 2 * c) :
    ∃ (k : Nat) (v' : ℚ), (fun x => add x (fin false c))^[k] (fin false v) = fin false v' ∧
      X ≤ v' ∧ v' ≤ X + 2 * c := by
  obtain ⟨n, hn⟩ := exists_nat_ge ((X - v) / (c / 2))
  rw [div_le_iff₀ (by linarith)] at hn
  induction n generalizing v with
  | zero =>
    refine ⟨0, v, rfl, ?_, hvX⟩
    simp only [Nat.cast_zero, zero_mul] at hn
    linarith
  | succ n ih =>
    by_cases hX : X ≤ v
    · exact ⟨0, v, rfl, hX, hvX⟩
    · push_neg at hX
      have hB' : (v + c) / 2 ^ 53 + 1 / 10 ^ 200 ≤ c / 2 := by
        have : (v + c) / 2 ^ 53 ≤ (X + c) / 2 ^ 53 :=
          div_le_div_of_nonneg_right (by linarith) (by positivity)
        linarith
      obtain ⟨v', hstep, lo, hi⟩ := binary64_counter_step c v hc hv hB' (by linarith)
      have hn' : X - v' ≤ (n : ℚ) * (c / 2) := by
        push_cast at hn
        linarith
      obtain ⟨k, w, hk, hw1, hw2⟩ := ih v' (by linarith) (by linarith) hn'
      refine ⟨k + 1, w, ?_, hw1, hw2⟩
      rw [Function.iterate_succ_apply, hstep]
      exact hk

end Binary64Search

section Binary64Guard

open Binary64

/-- In binary64, with `math.Pow(x, 2)` the rounded square, a start speed of
magnitude at most `10 ^ 9` and a start height of at most `10 ^ 20`, the guard
of the outer loop is false at every counter value between `2 ^ 40` and
`2 ^ 40 + 1`. -/
theorem binary64_guard_fails (log : Binary64 → Binary64)
    (pow : Binary64 → Binary64 → Binary64) (hpow : ∀ x, pow x (ofRat 2) = mul x x)
    (ss hs : Bool) (a h v : ℚ) (ha0 : 0 ≤ a) (ha : a ≤ 10 ^ 9) (hh0 : 0 ≤ h)
    (hH : signed hs h ≤ 10 ^ 20) (hv1 : 2 ^ 40 ≤ v) (hv2 : v ≤ 2 ^ 40 + 1) :
    outerGuard (binary64Arith log pow)
      (setStart (num (binary64Arith log pow)) (fin ss a) (fin hs h)) (fin false v) = false := by
  have hform : outerGuard (binary64Arith log pow)
      (setStart (num (binary64Arith log pow)) (fin ss a) (fin hs h)) (fin false v)
      = le (add (mul (fin ss a) (fin false v))
          (div (mul (ofRat 1.62) (pow (fin false v) (ofRat 2))) (ofRat 2.0))) (fin hs h) := rfl
  rw [hform, hpow, binary64_constants.1, binary64_constants.2.1]
  have hv0 : 0 ≤ v := by linarith [show (0 : ℚ) ≤ 2 ^ 40 by norm_num]
  have hi : isFinite (fin false v) := hv0
  have hsf : isFinite (fin ss a) := ha0
  have ei : toRat (fin false v) = v := rfl
  -- the square of the counter
  have hvv1 : (2 : ℚ) ^ 40 * 2 ^ 40 ≤ v * v := mul_le_mul hv1 hv1 (by norm_num) hv0
  have hvv2 : v * v ≤ (2 ^ 40 + 1) * (2 ^ 40 + 1) := mul_le_mul hv2 hv2 hv0 (by norm_num)
  have hvv0 : 0 ≤ v * v := mul_nonneg hv0 hv0
  have hb2 : |toRat (fin false v) * toRat (fin false v)| ≤ 10 ^ 200 := by
    rw [ei, abs_of_nonneg hvv0]
    refine le_trans hvv2 ?_
    norm_num
  obtain ⟨hf2, hr2⟩ := binary64_mul_spec hi hi hb2
  rw [ei, abs_of_nonneg hvv0] at hr2
  obtain ⟨lo2, hi2⟩ := abs_le.mp hr2
  have h2lo : (10 : ℚ) ^ 24 ≤ toRat (mul (fin false v) (fin false v)) := by
    norm_num at hvv1 hvv2 lo2 hi2 ⊢
    linarith
  have h2hi : toRat (mul (fin false v) (fin false v)) ≤ 13 * 10 ^ 23 := by
    norm_num at hvv1 hvv2 lo2 hi2 ⊢
    linarith
  -- times g
  have hg : isFinite (fin false (1823957849085051 / 1125899906842624)) := by
    show (0 : ℚ) ≤ _
    norm_num
  have eg : toRat (fin false (1823957849085051 / 1125899906842624))
      = 1823957849085051 / 1125899906842624 := rfl
  have h30 : 0 ≤ (1823957849085051 / 1125899906842624 : ℚ)
      * toRat (mul (fin false v) (fin false v)) := by
    refine mul_nonneg (by norm_num) (by linarith [show (0 : ℚ) ≤ 10 ^ 24 by norm_num])
  have hb3 : |toRat (fin false (1823957849085051 / 1125899906842624))
      * toRat (mul (fin false v) (fin false v))| ≤ 10 ^ 200 := by
    rw [eg, abs_of_nonneg h30]
    norm_num at h2hi ⊢
    linarith
  obtain ⟨hf3, hr3⟩ := binary64_mul_spec hg hf2 hb3
  rw [eg, abs_of_nonneg h30] at hr3
  obtain ⟨lo3, hi3⟩ := abs_le.mp hr3
  have h3lo : 16 * (10 : ℚ) ^ 23 ≤ toRat (mul (fin false (1823957849085051 / 1125899906842624))
      (mul (fin false v) (fin false v))) := by
    norm_num at h2lo h2hi lo3 hi3 ⊢
    linarith
  have h3hi : toRat (mul (fin false (1823957849085051 / 1125899906842624))
      (mul (fin false v) (fin false v))) ≤ 22 * 10 ^ 23 := by
    norm_num at h2lo h2hi lo3 hi3 ⊢
    linarith
  -- divided by 2
  have ht : isFinite (fin false 2) := by
    show (0 : ℚ) ≤ 2
    norm_num
  have et : toRat (fin false 2) = 2 := rfl
  have h40 : 0 ≤ toRat (mul (fin false (1823957849085051 / 1125899906842624))
      (mul (fin false v) (fin false v))) / 2 := by
    refine div_nonneg ?_ (by norm_num)
    linarith [show (0 : ℚ) ≤ 16 * 10 ^ 23 by norm_num]
  have hb4 : |toRat (mul (fin false (1823957849085051 / 1125899906842624))
      (mul (fin false v) (fin false v))) / toRat (fin false 2)| ≤ 10 ^ 200 := by
    rw [et, abs_of_nonneg h40]
    norm_num at h3hi ⊢
    linarith
  obtain ⟨hf4, hr4⟩ := binary64_div_spec hf3 ht (by rw [et]; norm_num) hb4
  rw [et, abs_of_nonneg h40] at hr4
  obtain ⟨lo4, hi4⟩ := abs_le.mp hr4
  have h4lo : 7 * (10 : ℚ) ^ 23 ≤ toRat (div (mul (fin false (1823957849085051 / 1125899906842624))
      (mul (fin false v) (fin false v))) (fin false 2)) := by
    norm_num at h3lo h3hi lo4 hi4 ⊢
    linarith
  have h4hi : toRat (div (mul (fin false (1823957849085051 / 1125899906842624))
      (mul (fin false v) (fin false v))) (fin false 2)) ≤ 12 * 10 ^ 23 := by
    norm_num at h3lo h3hi lo4 hi4 ⊢
    linarith
  -- the speed term
  have es : |toRat (fin ss a)| = a := (binary64_signed_abs ss 0 a).2 ha0
  have hav : a * v ≤ 10 ^ 9 * (2 ^ 40 + 1) := mul_le_mul ha hv2 hv0 (by norm_num)
  have h1abs : |toRat (fin ss a) * toRat (fin false v)| = a * v := by
    rw [abs_mul, es, ei, abs_of_nonneg hv0]
  have hb1 : |toRat (fin ss a) * toRat (fin false v)| ≤ 10 ^ 200 := by
    rw [h1abs]
    refine le_trans hav ?_
    norm_num
  obtain ⟨hf1, hr1⟩ := binary64_mul_spec hsf hi hb1
  rw [h1abs] at hr1
  have h1 : |toRat (mul (fin ss a) (fin false v))| ≤ 12 * 10 ^ 20 := by
    have htri : |toRat (mul (fin ss a) (fin false v))|
        ≤ |toRat (mul (fin ss a) (fin false v)) - toRat (fin ss a) * toRat (fin false v)|
          + |toRat (fin ss a) * toRat (fin false v)| := by
      have := abs_add (toRat (mul (fin ss a) (fin false v))
        - toRat (fin ss a) * toRat (fin false v)) (toRat (fin ss a) * toRat (fin false v))
      simpa using this
    rw [h1abs] at htri
    norm_num at hav hr1 htri ⊢
    linarith
  obtain ⟨l1, u1⟩ := abs_le.mp h1
  -- the sum
  have h5abs : |toRat (mul (fin ss a) (fin false v))
      + toRat (div (mul (fin false (1823957849085051 / 1125899906842624))
        (mul (fin false v) (fin false v))) (fin false 2))| ≤ 13 * 10 ^ 23 := by
    rw [abs_le]
    constructor
    · norm_num at l1 u1 h4lo h4hi ⊢
      linarith
    · norm_num at l1 u1 h4lo h4hi ⊢
      linarith
  have hb5 : |toRat (mul (fin ss a) (fin false v))
      + toRat (div (mul (fin false (1823957849085051 / 1125899906842624))
        (mul (fin false v) (fin false v))) (fin false 2))| ≤ 10 ^ 200 := by
    refine le_trans h5abs ?_
    norm_num
  obtain ⟨hf5, hr5⟩ := binary64_add_spec hf1 hf4 hb5
  obtain ⟨lo5, hi5⟩ := abs_le.mp hr5
  have hH' : isFinite (fin hs h) := hh0
  rw [(binary64_le_spec hf5 hH').2]
  have eH : toRat (fin hs h) = signed hs h := rfl
  rw [eH]
  have hdiv : |toRat (mul (fin ss a) (fin false v))
      + toRat (div (mul (fin false (1823957849085051 / 1125899906842624))
        (mul (fin false v) (fin false v))) (fin false 2))| / 2 ^ 53 ≤ 13 * 10 ^ 23 / 2 ^ 53 :=
    div_le_div_of_nonneg_right h5abs (by positivity)
  norm_num at l1 u1 h4lo h4hi lo5 hi5 hdiv hH ⊢
  linarith

end Binary64Guard

section Misc

open Binary64

set_option maxRecDepth 1000000 in
/-- In binary64 every one of the 190 values of the inner counter is inside the
domain of the powered-phase functions. -/
theorem binary64_counters_inDomain :
    (counters 190 (ofRat 0.5)).all burnInDomain = true := by
  decide!

/-- More constants of the source in binary64; the last is the height
`CountFallHeight(1.0)` for start speed `0`. -/
theorem binary64_constants_more :
    ofRat 2300 = fin false 2300 ∧ ofRat 15.0 = fin false 15 ∧
      ofRat 3660.0 = fin false 3660 ∧ ofRat 0 = fin false 0 ∧
      div (mul (ofRat 1.62) (mul (ofRat 1.0) (ofRat 1.0))) (ofRat 2.0)
        = fin false (1823957849085051 / 2251799813685248) := by
  decide!

set_option maxRecDepth 1000000 in
/-- In binary64 the counters leave the decimal grid after two increments: the
outer counter is then `1.0019999999999998`, not the float64 `1.002`, and the inner
counter `0.6000000000000001`, not the float64 `0.6`. -/
theorem binary64_counters_off_grid :
    (fun x => add x (ofRat 0.001))^[2] (ofRat 1.0) = fin false (4512606826625236 / 4503599627370496) ∧
      ofRat 1.002 = fin false (4512606826625237 / 4503599627370496) ∧
      stepBurn^[2] (ofRat 0.5) = fin false (5404319552844596 / 9007199254740992) ∧
      ofRat 0.6 = fin false (5404319552844595 / 9007199254740992) := by
  decide!

end Misc

section ClaimHelpers0

open Binary64

/-- Rounding gives an infinity or a finite value, with the sign asked for. -/
theorem binary64_round_cases (s : Bool) (z : ℚ) :
    roundNearestEven s z = inf s ∨ ∃ w : ℚ, 0 ≤ w ∧ roundNearestEven s z = fin s w := by
  unfold roundNearestEven
  simp only
  split_ifs
  all_goals first
    | exact Or.inl rfl
    | exact Or.inr ⟨0, le_refl 0, rfl⟩
    | exact Or.inr ⟨_, mul_nonneg (Nat.cast_nonneg _) (binary64_twoPow_nonneg _), rfl⟩

/-- In binary64 the outer counter is never negative and never not-a-number. -/
theorem binary64_outer_counter_isNonneg (log : Binary64 → Binary64)
    (pow : Binary64 → Binary64 → Binary64) (n : Nat) :
    isNonneg ((outerStep (binary64Arith log pow))^[n] ((binary64Arith log pow).lit 1.0)) := by
  have hstep : ∀ x, outerStep (binary64Arith log pow) x = add x (ofRat 0.001) := fun _ => rfl
  have e1 : (binary64Arith log pow).lit 1.0 = ofRat 1.0 := rfl
  rw [e1]
  induction n with
  | zero =>
    rw [Function.iterate_zero_apply, binary64_constants.2.2.1]
    exact zero_le_one
  | succ n ih =>
    rw [Function.iterate_succ_apply', hstep]
    refine binary64_add_isNonneg ih ?_
    rw [binary64_constants.2.2.2]
    exact div_nonneg (by norm_num) (by norm_num)

end ClaimHelpers0

section ClaimHelpers

open Binary64

theorem binary64_innerReach_inDomain (log : Binary64 → Binary64)
    (pow : Binary64 → Binary64 → Binary64) {j : Binary64}
    (h : innerReach (binary64Arith log pow) ((binary64Arith log pow).lit 0.5) j) :
    (∃ m, m < 190 ∧ j = stepBurn^[m] (ofRat 0.5)) ∧ burnInDomain j = true := by
  obtain ⟨m, hm, hle⟩ := h
  have e1 : innerStep (binary64Arith log pow) = stepBurn := rfl
  have e2 : (binary64Arith log pow).lit 0.5 = ofRat 0.5 := rfl
  have e3 : (binary64Arith log pow).lit 10 = ofRat 10 := rfl
  have e4 : (binary64Arith log pow).le = le := rfl
  rw [e1, e2] at hm
  have hlt : m < 190 := by
    by_contra hge
    have h190 := hle 190 (by omega)
    rw [e1, e2, e3, e4, binary64_counter_stops] at h190
    cases h190
  have hmem := binary64_mem_counters 190 m (ofRat 0.5) hlt
  rw [← hm] at hmem
  exact ⟨⟨m, hlt, hm⟩, List.all_eq_true.mp binary64_counters_inDomain j hmem⟩

/-- With the configured constants, in exact arithmetic, before burn-out the
three powered-phase functions do not depend on what the logarithm returns
outside the positive numbers nor on what a division by zero returns. -/
theorem real_powered_in_domain (s H ft t : ℝ) (log1 log2 dz1 dz2 : ℝ → ℝ)
    (ht : 15 * t < 2300) (hlog : ∀ x, 0 < x → log1 x = log2 x) :
    CountSpeedWithWorkingEngine (realArithWith log1 dz1)
        (setStart (num (realArithWith log1 dz1)) s H) ft t
      = CountSpeedWithWorkingEngine (realArithWith log2 dz2)
        (setStart (num (realArithWith log2 dz2)) s H) ft t ∧
    CountHeightWithWorkingEngine (realArithWith log1 dz1)
        (setStart (num (realArithWith log1 dz1)) s H) ft t
      = CountHeightWithWorkingEngine (realArithWith log2 dz2)
        (setStart (num (realArithWith log2 dz2)) s H) ft t ∧
    CountAccelerationWithWorkingEngine (realArithWith log1 dz1)
        (setStart (num (realArithWith log1 dz1)) s H) t
      = CountAccelerationWithWorkingEngine (realArithWith log2 dz2)
        (setStart (num (realArithWith log2 dz2)) s H) t := by
  have hd : (2300 : ℝ) - 15 * t ≠ 0 := by linarith
  have hdpos : (0 : ℝ) < 2300 - 15 * t := by linarith
  have hx : (0 : ℝ) < 2300 / (2300 - 15 * t) := div_pos (by norm_num) hdpos
  have h2 : ¬ ((2 : ℝ) = 0) := by norm_num
  have h15 : ¬ ((15 : ℝ) = 0) := by norm_num
  refine ⟨?_, ?_, ?_⟩
  · simp only [CountSpeedWithWorkingEngine, CountFallSpeed, realArithWith, num, setStart]
    norm_num [hd, hlog _ hx]
  · simp only [CountHeightWithWorkingEngine, CountFallSpeed, realArithWith, num, setStart]
    norm_num [hd, hlog _ hdpos, hlog 2300 (by norm_num)]
  · simp only [CountAccelerationWithWorkingEngine, realArithWith, num, setStart]
    norm_num [hd]

end ClaimHelpers

section ClaimHelpers2

open Binary64

theorem binary64_zero_le {x : Binary64} (hx : isNonneg x) : le (ofRat 0) x = true := by
  rw [binary64_constants_more.2.2.2.1]
  rcases x with _ | s | ⟨s, a⟩
  · exact hx.elim
  · cases s
    · rfl
    · exact hx.elim
  · cases s
    · have ha : 0 ≤ a := hx
      show decide (signed false 0 ≤ signed false a) = true
      simp only [signed, Bool.false_eq_true, if_false, decide_eq_true_eq]
      exact ha
    · exact hx.elim

/-- In binary64, with `math.Pow(x, 2)` the rounded square, a start speed between
`0` and `10 ^ 9` and a start height that is not positive, the guard of the outer
loop is false at the first candidate `1.0`. -/
theorem binary64_guard_nonpositive (log : Binary64 → Binary64)
    (pow : Binary64 → Binary64 → Binary64) (hpow : ∀ x, pow x (ofRat 2) = mul x x)
    (hs : Bool) (a h : ℚ) (ha0 : 0 ≤ a) (ha : a ≤ 10 ^ 9) (hh0 : 0 ≤ h)
    (hH : signed hs h ≤ 0) :
    outerGuard (binary64Arith log pow)
      (setStart (num (binary64Arith log pow)) (fin false a) (fin hs h))
      ((binary64Arith log pow).lit 1.0) = false := by
  have hform : outerGuard (binary64Arith log pow)
      (setStart (num (binary64Arith log pow)) (fin false a) (fin hs h))
      ((binary64Arith log pow).lit 1.0)
      = le (add (mul (fin false a) (ofRat 1.0))
          (div (mul (ofRat 1.62) (pow (ofRat 1.0) (ofRat 2))) (ofRat 2.0))) (fin hs h) := rfl
  rw [hform, hpow, binary64_constants_more.2.2.2.2, binary64_constants.2.2.1]
  have hsf : isFinite (fin false a) := ha0
  have h1f : isFinite (fin false 1) := by
    show (0 : ℚ) ≤ 1
    norm_num
  have hcf : isFinite (fin false (1823957849085051 / 2251799813685248)) := by
    show (0 : ℚ) ≤ _
    norm_num
  have e1 : toRat (fin false a) = a := rfl
  have e2 : toRat (fin false 1) = 1 := rfl
  have ec : toRat (fin false (1823957849085051 / 2251799813685248))
      = 1823957849085051 / 2251799813685248 := rfl
  have hb1 : |toRat (fin false a) * toRat (fin false 1)| ≤ 10 ^ 200 := by
    rw [e1, e2, mul_one, abs_of_nonneg ha0]
    refine le_trans ha ?_
    norm_num
  obtain ⟨hf1, hr1⟩ := binary64_mul_spec hsf h1f hb1
  rw [e1, e2, mul_one, abs_of_nonneg ha0] at hr1
  obtain ⟨lo1, hi1⟩ := abs_le.mp hr1
  have hsum : |toRat (mul (fin false a) (fin false 1))
      + toRat (fin false (1823957849085051 / 2251799813685248))| ≤ 3 * 10 ^ 9 := by
    rw [ec, abs_le]
    constructor
    · norm_num at ha lo1 hi1 ⊢
      linarith
    · norm_num at ha lo1 hi1 ⊢
      linarith
  have hb5 : |toRat (mul (fin false a) (fin false 1))
      + toRat (fin false (1823957849085051 / 2251799813685248))| ≤ 10 ^ 200 := by
    refine le_trans hsum ?_
    norm_num
  obtain ⟨hf5, hr5⟩ := binary64_add_spec hf1 hcf hb5
  obtain ⟨lo5, hi5⟩ := abs_le.mp hr5
  have hdiv : |toRat (mul (fin false a) (fin false 1))
      + toRat (fin false (1823957849085051 / 2251799813685248))| / 2 ^ 53
      ≤ 3 * 10 ^ 9 / 2 ^ 53 := div_le_div_of_nonneg_right hsum (by positivity)
  have hH' : isFinite (fin hs h) := hh0
  rw [(binary64_le_spec hf5 hH').2]
  have eH : toRat (fin hs h) = signed hs h := rfl
  rw [eH]
  rw [ec] at lo5 hi5 hdiv
  norm_num at ha lo1 hi1 lo5 hi5 hdiv ⊢
  linarith

end ClaimHelpers2

/-! ## The program in exact real arithmetic -/

section RoundingOrder

open Binary64

/-- The shape of a rounded value: with `fl` the exponent of `|a|` and `e` the
exponent used, the result is `m * 2 ^ (e - 52)` for an integer `m` within one
half of `|a| / 2 ^ (e - 52)`, or an infinity when that is too large. -/
theorem binary64_round_shape (s : Bool) (a : ℚ) (ha : a ≠ 0) :
    ∃ (fl : ℤ) (m : ℕ), (2 : ℚ) ^ fl ≤ |a| ∧ |a| < (2 : ℚ) ^ (fl + 1) ∧
      |(m : ℚ) - |a| / (2 : ℚ) ^ (clampExponent fl - 52)| ≤ 1 / 2 ∧
      roundNearestEven s a
        = if 971 < clampExponent fl - 52 ∨ (clampExponent fl - 52 = 971 ∧ 2 ^ 53 ≤ m)
          then inf s else fin s ((m : ℚ) * (2 : ℚ) ^ (clampExponent fl - 52)) := by
  have habs : |a| = (a.num.natAbs : ℚ) / (a.den : ℚ) := by
    rw [Rat.abs_def, Rat.divInt_eq_div, Nat.cast_natAbs, Int.cast_abs]
    push_cast
    rw [Nat.cast_natAbs, Int.cast_abs]
  have hp : a.num.natAbs ≠ 0 := by
    intro h0
    apply ha
    have : a.num = 0 := Int.natAbs_eq_zero.mp h0
    exact Rat.num_eq_zero.mp this
  have hp1 : 1 ≤ a.num.natAbs := Nat.one_le_iff_ne_zero.mpr hp
  have hq : 1 ≤ a.den := a.den_pos
  obtain ⟨hfl1, hfl2⟩ := binary64_floorLog2_spec a.num.natAbs a.den hp1 hq
  rw [← habs] at hfl1 hfl2
  obtain ⟨hn2, hn⟩ := binary64_scaled_spec a.num.natAbs a.den
    (clampExponent (floorLog2 a.num.natAbs a.den) - 52) hq
  rw [← habs] at hn
  have hnear := binary64_nearest_spec
    (scaled a.num.natAbs a.den (clampExponent (floorLog2 a.num.natAbs a.den) - 52)).1
    (scaled a.num.natAbs a.den (clampExponent (floorLog2 a.num.natAbs a.den) - 52)).2 hn2
  rw [hn] at hnear
  refine ⟨floorLog2 a.num.natAbs a.den, _, hfl1, hfl2, hnear, ?_⟩
  simp only [roundNearestEven, hp, if_false, binary64_twoPow_eq]

theorem binary64_clamp_cases (f : ℤ) :
    (f < -1022 ∧ clampExponent f = -1022) ∨ (-1022 ≤ f ∧ clampExponent f = f) := by
  unfold clampExponent
  split
  · left
    exact ⟨by assumption, rfl⟩
  · right
    exact ⟨by omega, rfl⟩

/-- Rounding is monotone on the numbers that are not negative. -/
theorem binary64_round_mono (a b : ℚ) (ha : 0 ≤ a) (hab : a ≤ b) :
    le (roundNearestEven false a) (roundNearestEven false b) = true := by
  have hle_fin : ∀ v w : ℚ, le (fin false v) (fin false w) = decide (v ≤ w) := fun _ _ => rfl
  rcases eq_or_lt_of_le hab with rfl | hlt
  · rcases binary64_round_cases false a with h | ⟨w, _, h⟩
    · rw [h]
      rfl
    · rw [h, hle_fin]
      exact decide_eq_true (le_refl w)
  rcases eq_or_lt_of_le ha with h0 | hpos
  · have hz : roundNearestEven false a = fin false 0 := by
      rw [← h0]
      simp [roundNearestEven]
    rw [hz]
    rcases binary64_round_cases false b with h | ⟨w, hw, h⟩
    · rw [h]
      rfl
    · rw [h, hle_fin]
      exact decide_eq_true hw
  have hbpos : 0 < b := lt_trans hpos hlt
  obtain ⟨fa, ma, a1, a2, a3, a4⟩ := binary64_round_shape false a hpos.ne'
  obtain ⟨fb, mb, b1, b2, b3, b4⟩ := binary64_round_shape false b hbpos.ne'
  rw [abs_of_pos hpos] at a1 a2 a3
  rw [abs_of_pos hbpos] at b1 b2 b3
  have h2 : (1 : ℚ) < 2 := by norm_num
  have h20 : (2 : ℚ) ≠ 0 := by norm_num
  have hpw : ∀ k : ℤ, (0 : ℚ) < (2 : ℚ) ^ k := fun k => zpow_pos (by norm_num) k
  have hf : fa ≤ fb := by
    have : (2 : ℚ) ^ fa < (2 : ℚ) ^ (fb + 1) := lt_of_le_of_lt a1 (lt_trans hlt b2)
    have := (zpow_lt_zpow_iff_right₀ h2).mp this
    omega
  have hca := binary64_clamp_cases fa
  have hcb := binary64_clamp_cases fb
  obtain ⟨a3l, a3u⟩ := abs_le.mp a3
  obtain ⟨b3l, b3u⟩ := abs_le.mp b3
  rw [a4, b4]
  by_cases hee : clampExponent fa = clampExponent fb
  · have ht : a / (2 : ℚ) ^ (clampExponent fa - 52) < b / (2 : ℚ) ^ (clampExponent fb - 52) := by
      rw [hee]
      exact div_lt_div_of_pos_right hlt (hpw _)
    have hm : ma ≤ mb := by
      have : (ma : ℚ) < (mb : ℚ) + 1 := by linarith
      have : ma < mb + 1 := by exact_mod_cast this
      omega
    split_ifs with hOa hOb hOb
    · rfl
    · exfalso
      apply hOb
      rcases hOa with h | ⟨h, h'⟩
      · left
        omega
      · right
        exact ⟨by omega, le_trans h' hm⟩
    · rfl
    · rw [hle_fin, hee]
      refine decide_eq_true (mul_le_mul_of_nonneg_right ?_ (hpw _).le)
      exact_mod_cast hm
  · have hlt_e : clampExponent fa < clampExponent fb := by
      rcases hca with ⟨h1, h1'⟩ | ⟨h1, h1'⟩ <;> rcases hcb with ⟨h3, h3'⟩ | ⟨h3, h3'⟩ <;> omega
    have heb : clampExponent fb = fb := by
      rcases hca with ⟨h1, h1'⟩ | ⟨h1, h1'⟩ <;> rcases hcb with ⟨h3, h3'⟩ | ⟨h3, h3'⟩ <;> omega
    have hfa_le : fa ≤ clampExponent fa := by
      rcases hca with ⟨h1, h1'⟩ | ⟨h1, h1'⟩ <;> omega
    -- `mb` is at least `2 ^ 52`
    have htb : (2 : ℚ) ^ 52 ≤ b / (2 : ℚ) ^ (clampExponent fb - 52) := by
      rw [heb, le_div_iff₀ (hpw _)]
      have : (2 : ℚ) ^ 52 * (2 : ℚ) ^ (fb - 52) = (2 : ℚ) ^ fb := by
        have h52 : (2 : ℚ) ^ 52 = (2 : ℚ) ^ (52 : ℤ) := by norm_cast
        rw [h52, ← zpow_add₀ h20]
        congr 1
        ring
      rw [this]
      exact b1
    have hmb : 2 ^ 52 ≤ mb := by
      have : ((2 ^ 52 - 1 : ℕ) : ℚ) < (mb : ℚ) := by
        push_cast
        linarith
      have : 2 ^ 52 - 1 < mb := by exact_mod_cast this
      omega
    -- `ma` is at most `2 ^ 53`
    have hta : a / (2 : ℚ) ^ (clampExponent fa - 52) < (2 : ℚ) ^ 53 := by
      rw [div_lt_iff₀ (hpw _)]
      have : (2 : ℚ) ^ 53 * (2 : ℚ) ^ (clampExponent fa - 52)
          = (2 : ℚ) ^ (clampExponent fa + 1) := by
        have h53 : (2 : ℚ) ^ 53 = (2 : ℚ) ^ (53 : ℤ) := by norm_cast
        rw [h53, ← zpow_add₀ h20]
        congr 1
        ring
      rw [this]
      refine lt_of_lt_of_le a2 ?_
      exact (zpow_le_zpow_iff_right₀ h2).mpr (by omega)
    have hma : ma ≤ 2 ^ 53 := by
      have : (ma : ℚ) < ((2 ^ 53 + 1 : ℕ) : ℚ) := by
        push_cast
        linarith
      have : ma < 2 ^ 53 + 1 := by exact_mod_cast this
      omega
    split_ifs with hOa hOb hOb
    · rfl
    · exfalso
      apply hOb
      rcases hOa with h | ⟨h, _⟩
      · left
        omega
      · left
        omega
    · rfl
    · rw [hle_fin]
      refine decide_eq_true ?_
      have hnob : clampExponent fb - 52 ≤ 971 := by
        by_contra hc
        exact hOb (Or.inl (by omega))
      calc (ma : ℚ) * (2 : ℚ) ^ (clampExponent fa - 52)
          ≤ (2 : ℚ) ^ 53 * (2 : ℚ) ^ (clampExponent fa - 52) := by
            refine mul_le_mul_of_nonneg_right ?_ (hpw _).le
            exact_mod_cast hma
        _ = (2 : ℚ) ^ (clampExponent fa + 1) := by
            have h53 : (2 : ℚ) ^ 53 = (2 : ℚ) ^ (53 : ℤ) := by norm_cast
            rw [h53, ← zpow_add₀ h20]
            congr 1
            ring
        _ ≤ (2 : ℚ) ^ clampExponent fb := (zpow_le_zpow_iff_right₀ h2).mpr (by omega)
        _ = (2 : ℚ) ^ 52 * (2 : ℚ) ^ (clampExponent fb - 52) := by
            have h52 : (2 : ℚ) ^ 52 = (2 : ℚ) ^ (52 : ℤ) := by norm_cast
            rw [h52, ← zpow_add₀ h20]
            congr 1
            ring
        _ ≤ (mb : ℚ) * (2 : ℚ) ^ (clampExponent fb - 52) := by
            refine mul_le_mul_of_nonneg_right ?_ (hpw _).le
            exact_mod_cast hmb

end RoundingOrder

section RoundingOrder2

open Binary64

/-- Rounding leaves a rounded value as it is. -/
theorem binary64_round_idem (a v : ℚ) (h : roundNearestEven false a = fin false v) :
    roundNearestEven false v = fin false v := by
  have h2 : (1 : ℚ) < 2 := by norm_num
  have h20 : (2 : ℚ) ≠ 0 := by norm_num
  have hpw : ∀ k : ℤ, (0 : ℚ) < (2 : ℚ) ^ k := fun k => zpow_pos (by norm_num) k
  by_cases ha : a = 0
  · rw [ha] at h
    have hz : roundNearestEven false 0 = fin false 0 := by simp [roundNearestEven]
    rw [hz] at h
    have hv : v = 0 := by
      injection h with _ h'
      exact h'.symm
    rw [hv]
    exact hz
  obtain ⟨fl, m, a1, a2, a3, a4⟩ := binary64_round_shape false a ha
  rw [a4] at h
  split_ifs at h with hO
  have hv : v = (m : ℚ) * (2 : ℚ) ^ (clampExponent fl - 52) := by
    injection h with _ h'
    exact h'.symm
  have hapos : 0 < |a| := abs_pos.mpr ha
  obtain ⟨a3l, a3u⟩ := abs_le.mp a3
  have hc := binary64_clamp_cases fl
  have he : -1022 ≤ clampExponent fl := by
    rcases hc with ⟨_, h'⟩ | ⟨h1, h'⟩ <;> omega
  -- `m ≤ 2 ^ 53`
  have hta : |a| / (2 : ℚ) ^ (clampExponent fl - 52) < (2 : ℚ) ^ 53 := by
    rw [div_lt_iff₀ (hpw _)]
    have : (2 : ℚ) ^ 53 * (2 : ℚ) ^ (clampExponent fl - 52)
        = (2 : ℚ) ^ (clampExponent fl + 1) := by
      have h53 : (2 : ℚ) ^ 53 = (2 : ℚ) ^ (53 : ℤ) := by norm_cast
      rw [h53, ← zpow_add₀ h20]
      congr 1
      ring
    rw [this]
    refine lt_of_lt_of_le a2 ?_
    refine (zpow_le_zpow_iff_right₀ h2).mpr ?_
    rcases hc with ⟨h1, h'⟩ | ⟨h1, h'⟩ <;> omega
  have hm53 : m ≤ 2 ^ 53 := by
    have : (m : ℚ) < ((2 ^ 53 + 1 : ℕ) : ℚ) := by
      push_cast
      linarith
    have : m < 2 ^ 53 + 1 := by exact_mod_cast this
    omega
  by_cases hm0 : m = 0
  · rw [hv, hm0]
    simp [roundNearestEven]
  have hmpos : 0 < m := Nat.pos_of_ne_zero hm0
  have hvpos : 0 < v := by
    rw [hv]
    exact mul_pos (by exact_mod_cast hmpos) (hpw _)
  -- in the normal range `2 ^ 52 ≤ m`
  have hm52 : -1022 ≤ fl → 2 ^ 52 ≤ m := by
    intro hfl
    have hcl : clampExponent fl = fl := by
      rcases hc with ⟨h1, h'⟩ | ⟨h1, h'⟩ <;> omega
    have htb : (2 : ℚ) ^ 52 ≤ |a| / (2 : ℚ) ^ (clampExponent fl - 52) := by
      rw [hcl, le_div_iff₀ (hpw _)]
      have : (2 : ℚ) ^ 52 * (2 : ℚ) ^ (fl - 52) = (2 : ℚ) ^ fl := by
        have h52 : (2 : ℚ) ^ 52 = (2 : ℚ) ^ (52 : ℤ) := by norm_cast
        rw [h52, ← zpow_add₀ h20]
        congr 1
        ring
      rw [this]
      exact a1
    have : ((2 ^ 52 - 1 : ℕ) : ℚ) < (m : ℚ) := by
      push_cast
      linarith
    have : 2 ^ 52 - 1 < m := by exact_mod_cast this
    omega
  obtain ⟨fl', m', b1, b2, b3, b4⟩ := binary64_round_shape false v hvpos.ne'
  rw [abs_of_pos hvpos] at b1 b2 b3
  have hc' := binary64_clamp_cases fl'
  -- the value as a power of two times `m`
  have hvle : v ≤ (2 : ℚ) ^ (clampExponent fl + 1) := by
    rw [hv]
    have : (2 : ℚ) ^ (clampExponent fl + 1)
        = (2 : ℚ) ^ 53 * (2 : ℚ) ^ (clampExponent fl - 52) := by
      have h53 : (2 : ℚ) ^ 53 = (2 : ℚ) ^ (53 : ℤ) := by norm_cast
      rw [h53, ← zpow_add₀ h20]
      congr 1
      ring
    rw [this]
    refine mul_le_mul_of_nonneg_right ?_ (hpw _).le
    exact_mod_cast hm53
  have hfl'le : fl' ≤ clampExponent fl + 1 := by
    have : (2 : ℚ) ^ fl' ≤ (2 : ℚ) ^ (clampExponent fl + 1) := le_trans b1 hvle
    exact (zpow_le_zpow_iff_right₀ h2).mp this
  have hm_of : clampExponent fl + 1 ≤ fl' → m = 2 ^ 53 := by
    intro hge
    have h1 : (2 : ℚ) ^ (clampExponent fl + 1) ≤ v :=
      le_trans ((zpow_le_zpow_iff_right₀ h2).mpr hge) b1
    have h3 : (2 : ℚ) ^ 53 * (2 : ℚ) ^ (clampExponent fl - 52) ≤ v := by
      have : (2 : ℚ) ^ 53 * (2 : ℚ) ^ (clampExponent fl - 52)
          = (2 : ℚ) ^ (clampExponent fl + 1) := by
        have h53 : (2 : ℚ) ^ 53 = (2 : ℚ) ^ (53 : ℤ) := by norm_cast
        rw [h53, ← zpow_add₀ h20]
        congr 1
        ring
      rw [this]
      exact h1
    rw [hv] at h3
    have h4 : (2 : ℚ) ^ 53 ≤ (m : ℚ) := le_of_mul_le_mul_right h3 (hpw _)
    have : 2 ^ 53 ≤ m := by exact_mod_cast h4
    omega
  have hfl'ge : -1022 ≤ fl → clampExponent fl ≤ fl' := by
    intro hfl
    have hmm := hm52 hfl
    have h1 : (2 : ℚ) ^ clampExponent fl ≤ v := by
      rw [hv]
      have : (2 : ℚ) ^ clampExponent fl
          = (2 : ℚ) ^ 52 * (2 : ℚ) ^ (clampExponent fl - 52) := by
        have h52 : (2 : ℚ) ^ 52 = (2 : ℚ) ^ (52 : ℤ) := by norm_cast
        rw [h52, ← zpow_add₀ h20]
        congr 1
        ring
      rw [this]
      refine mul_le_mul_of_nonneg_right ?_ (hpw _).le
      exact_mod_cast hmm
    have : (2 : ℚ) ^ clampExponent fl < (2 : ℚ) ^ (fl' + 1) := lt_of_le_of_lt h1 b2
    have := (zpow_lt_zpow_iff_right₀ h2).mp this
    omega
  -- the exponent used for `v` is that used for `a`, or one more when `m = 2 ^ 53`
  have hcases : clampExponent fl' = clampExponent fl
      ∨ (clampExponent fl' = clampExponent fl + 1 ∧ m = 2 ^ 53) := by
    by_cases hfl : -1022 ≤ fl
    · have := hfl'ge hfl
      by_cases heq : fl' = clampExponent fl + 1
      · right
        refine ⟨?_, hm_of (by omega)⟩
        rcases hc' with ⟨h1, h'⟩ | ⟨h1, h'⟩ <;> omega
      · left
        rcases hc' with ⟨h1, h'⟩ | ⟨h1, h'⟩ <;> omega
    · have hcl : clampExponent fl = -1022 := by
        rcases hc with ⟨h1, h'⟩ | ⟨h1, h'⟩ <;> omega
      by_cases heq : fl' = clampExponent fl + 1
      · right
        refine ⟨?_, hm_of (by omega)⟩
        rcases hc' with ⟨h1, h'⟩ | ⟨h1, h'⟩ <;> omega
      · left
        rcases hc' with ⟨h1, h'⟩ | ⟨h1, h'⟩ <;> omega
  obtain ⟨b3l, b3u⟩ := abs_le.mp b3
  rw [b4]
  rcases hcases with hE | ⟨hE, hM⟩
  · have hq : v / (2 : ℚ) ^ (clampExponent fl' - 52) = (m : ℚ) := by
      rw [hE, hv]
      field_simp
    rw [hq] at b3l b3u
    have hmm : m' = m := by
      have u1 : (m' : ℚ) < (m : ℚ) + 1 := by linarith
      have u2 : (m : ℚ) < (m' : ℚ) + 1 := by linarith
      have u1' : m' < m + 1 := by exact_mod_cast u1
      have u2' : m < m' + 1 := by exact_mod_cast u2
      omega
    rw [hmm, hE, if_neg hO, hv]
  · have e53 : ((2 ^ 53 : ℕ) : ℚ) = (2 : ℚ) ^ (53 : ℤ) := by norm_num
    have e52 : ((2 ^ 52 : ℕ) : ℚ) = (2 : ℚ) ^ (52 : ℤ) := by norm_num
    have key : (2 : ℚ) ^ (53 : ℤ) * (2 : ℚ) ^ (clampExponent fl - 52)
        = (2 : ℚ) ^ (52 : ℤ) * (2 : ℚ) ^ (clampExponent fl + 1 - 52) := by
      rw [← zpow_add₀ h20, ← zpow_add₀ h20]
      congr 1
      ring
    have hvq : v = ((2 ^ 52 : ℕ) : ℚ) * (2 : ℚ) ^ (clampExponent fl' - 52) := by
      rw [hv, hM, e53, e52, hE]
      exact key
    have hq : v / (2 : ℚ) ^ (clampExponent fl' - 52) = ((2 ^ 52 : ℕ) : ℚ) := by
      rw [div_eq_iff (hpw _).ne']
      exact hvq
    rw [hq] at b3l b3u
    have hmm : m' = 2 ^ 52 := by
      have u1 : (m' : ℚ) < ((2 ^ 52 : ℕ) : ℚ) + 1 := by linarith
      have u2 : ((2 ^ 52 : ℕ) : ℚ) < (m' : ℚ) + 1 := by linarith
      have u1' : m' < 2 ^ 52 + 1 := by exact_mod_cast u1
      have u2' : 2 ^ 52 < m' + 1 := by exact_mod_cast u2
      omega
    have hno : ¬ (971 < clampExponent fl' - 52 ∨ (clampExponent fl' - 52 = 971 ∧ 2 ^ 53 ≤ m')) := by
      rintro (h' | ⟨_, h'⟩)
      · apply hO
        by_cases h971 : clampExponent fl - 52 = 971
        · right
          exact ⟨h971, by omega⟩
        · left
          omega
      · omega
    rw [if_neg hno, hmm, hvq]

end RoundingOrder2

section NonnegValues

open Binary64

theorem binary64_le_refl (x : Binary64) (hx : x ≠ nan) : le x x = true := by
  rcases x with _ | s | ⟨s, a⟩
  · exact (hx rfl).elim
  · cases s <;> rfl
  · exact decide_eq_true (le_refl _)

theorem binary64_signed_zero (s : Bool) : signed s 0 = 0 := by
  cases s <;> simp [signed]

theorem binary64_le_trans (x y z : Binary64) (h1 : le x y = true) (h2 : le y z = true) :
    le x z = true := by
  rcases x with _ | s | ⟨s, a⟩ <;> rcases y with _ | t | ⟨t, b⟩ <;>
    rcases z with _ | u | ⟨u, c⟩ <;> simp only [le] at h1 h2 ⊢ <;>
    first
      | exact decide_eq_true (le_trans (of_decide_eq_true h1) (of_decide_eq_true h2))
      | exact h1
      | exact h2
      | (cases s <;> cases t <;> cases u <;> simp_all)
      | (cases s <;> cases u <;> simp_all)

/-- The forms of a value that is at least zero. -/
theorem binary64_nonneg_forms (x : Binary64) (hx : isNonnegValue x) :
    x = inf false ∨ (∃ s, x = fin s 0) ∨
      ∃ q : ℚ, 0 < q ∧ x = fin false q ∧ roundNearestEven false q = fin false q := by
  rcases x with _ | s | ⟨s, a⟩
  · exact hx.elim
  · cases s
    · exact Or.inl rfl
    · exact hx.elim
  · right
    obtain ⟨h0, hr⟩ : 0 ≤ signed s a ∧ roundNearestEven s a = fin s a := hx
    have ha : 0 ≤ a := by
      rcases binary64_round_cases s a with h | ⟨w, hw, h⟩
      · rw [h] at hr
        cases hr
      · rw [h] at hr
        injection hr with _ h'
        rw [← h']
        exact hw
    rcases eq_or_lt_of_le ha with h | h
    · left
      exact ⟨s, by rw [← h]⟩
    · right
      cases s
      · exact ⟨a, h, rfl, hr⟩
      · exfalso
        simp only [signed, if_true] at h0
        linarith

theorem binary64_nonneg_zero (s : Bool) : isNonnegValue (fin s 0) := by
  constructor
  · cases s <;> simp [signed]
  · simp [roundNearestEven]

theorem binary64_round_nonnegValue (r : ℚ) : isNonnegValue (roundNearestEven false r) := by
  rcases h : roundNearestEven false r with _ | s | ⟨s, a⟩
  · rcases binary64_round_cases false r with h' | ⟨w, _, h'⟩ <;> rw [h'] at h <;> cases h
  · rcases binary64_round_cases false r with h' | ⟨w, _, h'⟩ <;> rw [h'] at h <;> cases h
    trivial
  · rcases binary64_round_cases false r with h' | ⟨w, hw, h'⟩
    · rw [h'] at h
      cases h
    · rw [h'] at h
      injection h with hs ha
      subst hs
      subst ha
      exact ⟨hw, binary64_round_idem r w h'⟩

/-- The sum of two finite values that are at least zero: a zero, or the rounded
exact sum. -/
theorem binary64_add_nonneg_form (s t : Bool) (a b : ℚ) (ha : 0 ≤ signed s a)
    (hb : 0 ≤ signed t b) :
    (signed s a = 0 ∧ signed t b = 0 ∧ add (fin s a) (fin t b) = fin (s && t) 0) ∨
      (0 < signed s a + signed t b ∧
        add (fin s a) (fin t b) = roundNearestEven false (signed s a + signed t b)) := by
  by_cases h0 : signed s a + signed t b = 0
  · left
    refine ⟨by linarith, by linarith, ?_⟩
    simp only [add, h0, if_true]
  · right
    have hpos : 0 < signed s a + signed t b := lt_of_le_of_ne (by linarith) (Ne.symm h0)
    refine ⟨hpos, ?_⟩
    have hnum : ¬ (signed s a + signed t b).num < 0 := by
      intro h
      have := Rat.num_neg.mp h
      linarith
    simp only [add, h0, if_false, ofRat, decide_eq_false hnum]

/-- The sum of two values that are at least zero is at least zero. -/
theorem binary64_add_nonnegValue (x y : Binary64) (hx : isNonnegValue x)
    (hy : isNonnegValue y) : isNonnegValue (add x y) := by
  rcases x with _ | s | ⟨s, a⟩
  · exact hx.elim
  · cases s
    · rcases y with _ | t | ⟨t, b⟩
      · exact hy.elim
      · cases t
        · trivial
        · exact hy.elim
      · trivial
    · exact hx.elim
  rcases y with _ | t | ⟨t, b⟩
  · exact hy.elim
  · cases t
    · trivial
    · exact hy.elim
  rcases binary64_add_nonneg_form s t a b hx.1 hy.1 with ⟨_, _, h⟩ | ⟨_, h⟩
  · rw [h]
    exact binary64_nonneg_zero _
  · rw [h]
    exact binary64_round_nonnegValue _

/-- A value that is at least zero is below every rounded number at least as large
as its rational value. -/
theorem binary64_le_round (s : Bool) (a r : ℚ) (hx : isNonnegValue (fin s a))
    (har : signed s a ≤ r) : le (fin s a) (roundNearestEven false r) = true := by
  rcases binary64_nonneg_forms _ hx with h | ⟨s', h⟩ | ⟨q, hq, h, hv⟩
  · cases h
  · injection h with hs ha
    subst ha
    have hr : 0 ≤ r := by
      have : signed s 0 = 0 := by cases s <;> simp [signed]
      linarith
    rcases binary64_round_cases false r with h' | ⟨w, hw, h'⟩
    · rw [h']
      rfl
    · rw [h']
      refine decide_eq_true ?_
      have : signed s 0 = 0 := by cases s <;> simp [signed]
      rw [this]
      exact hw
  · injection h with hs ha
    subst hs
    subst ha
    rw [← hv]
    exact binary64_round_mono a r hq.le har

/-- A value that is at least zero is at most its sum with another one. -/
theorem binary64_le_add (x y : Binary64) (hx : isNonnegValue x) (hy : isNonnegValue y) :
    le x (add x y) = true := by
  rcases y with _ | t | ⟨t, b⟩
  · exact hy.elim
  · cases t
    · rcases x with _ | s | ⟨s, a⟩
      · exact hx.elim
      · cases s
        · rfl
        · exact hx.elim
      · rfl
    · exact hy.elim
  rcases x with _ | s | ⟨s, a⟩
  · exact hx.elim
  · cases s
    · rfl
    · exact hx.elim
  rcases binary64_add_nonneg_form s t a b hx.1 hy.1 with ⟨h1, _, h⟩ | ⟨_, h⟩
  · rw [h]
    refine decide_eq_true ?_
    rw [h1]
    cases s <;> cases t <;> simp [signed]
  · rw [h]
    exact binary64_le_round s a _ hx (by linarith [hy.1])

/-- Addition of values that are at least zero is monotone in its second
argument. -/
theorem binary64_add_mono (x y z : Binary64) (hx : isNonnegValue x) (hy : isNonnegValue y)
    (hz : isNonnegValue z) (hyz : le y z = true) : le (add x y) (add x z) = true := by
  have hxy := binary64_add_nonnegValue x y hx hy
  rcases z with _ | u | ⟨u, c⟩
  · exact hz.elim
  · cases u
    · have e : add x (inf false) = inf false := by
        rcases x with _ | s | ⟨s, a⟩
        · exact hx.elim
        · cases s
          · rfl
          · exact hx.elim
        · rfl
      rw [e]
      rcases hadd : add x y with _ | s | ⟨s, a⟩
      · rw [hadd] at hxy
        exact hxy.elim
      · rw [hadd] at hxy
        cases s
        · rfl
        · exact hxy.elim
      · rfl
    · exact hz.elim
  rcases y with _ | t | ⟨t, b⟩
  · exact hy.elim
  · cases t
    · cases hyz
    · exact hy.elim
  rcases x with _ | s | ⟨s, a⟩
  · exact hx.elim
  · cases s
    · rfl
    · exact hx.elim
  have hbc : signed t b ≤ signed u c := of_decide_eq_true hyz
  rcases binary64_add_nonneg_form s t a b hx.1 hy.1 with ⟨h1, h2, h⟩ | ⟨hp, h⟩ <;>
    rcases binary64_add_nonneg_form s u a c hx.1 hz.1 with ⟨g1, g2, g⟩ | ⟨gp, g⟩ <;>
    rw [h, g]
  · refine decide_eq_true ?_
    rw [binary64_signed_zero, binary64_signed_zero]
  · refine binary64_le_round _ 0 _ (binary64_nonneg_zero _) ?_
    rw [binary64_signed_zero]
    exact gp.le
  · exfalso
    linarith
  · exact binary64_round_mono _ _ hp.le (by linarith)

end NonnegValues

section Sampling

variable {F : Type} (A : Float64Arith F)

theorem sampleCounter_succ (start step : F) (k : Nat) :
    sampleCounter A (A.add start step) step k = sampleCounter A start step (k + 1) := by
  simp only [sampleCounter, Function.iterate_succ_apply]

theorem samples_succ (start step : F) (y : F → F) (n : Nat) :
    samples A start step y (n + 1) = y start :: samples A (A.add start step) step y n := by
  simp only [samples, List.range_succ_eq_map, List.map_cons, List.map_map]
  refine congrArg₂ _ rfl ?_
  refine List.map_congr_left (fun k _ => ?_)
  simp only [Function.comp, sampleCounter_succ]

/-- A sampling loop that returns has appended, for each value of the counter that
passed the guard, one time and one value, in that order. -/
theorem sampleLoop_spec (bound step : F) (time value : F → F) (fuel : Nat) (x : F)
    (xs ys : List F) (r : List F × List F)
    (h : sampleLoop A bound step time value fuel x xs ys = some r) :
    ∃ n, sampleCount A x step bound n ∧ r.1 = xs ++ samples A x step time n ∧
      r.2 = ys ++ samples A x step value n := by
  induction fuel generalizing x xs ys with
  | zero => simp [sampleLoop] at h
  | succ fuel ih =>
    rw [sampleLoop] at h
    by_cases hg : A.le x bound = true
    · rw [if_pos hg] at h
      obtain ⟨n, ⟨hn1, hn2⟩, h1, h2⟩ := ih _ _ _ h
      refine ⟨n + 1, ⟨?_, ?_⟩, ?_, ?_⟩
      · intro k hk
        cases k with
        | zero => exact hg
        | succ k =>
          rw [← sampleCounter_succ]
          exact hn1 k (by omega)
      · rw [← sampleCounter_succ]
        exact hn2
      · rw [h1, samples_succ, List.append_assoc]
        rfl
      · rw [h2, samples_succ, List.append_assoc]
        rfl
    · rw [if_neg hg] at h
      have hr := Option.some.inj h
      refine ⟨0, ⟨fun k hk => by omega, by simpa using hg⟩, ?_, ?_⟩
      · rw [← hr]
        simp [samples]
      · rw [← hr]
        simp [samples]

/-- A sampling loop returns when the guard fails of some value of the counter and
the fuel suffices. -/
theorem sampleLoop_returns (bound step : F) (time value : F → F) (n : Nat) (x : F)
    (hn : A.le (sampleCounter A x step n) bound = false) (fuel : Nat) (hfuel : n + 1 ≤ fuel)
    (xs ys : List F) :
    ∃ r, sampleLoop A bound step time value fuel x xs ys = some r := by
  induction n generalizing x fuel xs ys with
  | zero =>
    obtain ⟨fuel, rfl⟩ : ∃ f, fuel = f + 1 := ⟨fuel - 1, by omega⟩
    have hg : A.le x bound = false := hn
    exact ⟨(xs, ys), by simp [sampleLoop, hg]⟩
  | succ n ih =>
    obtain ⟨fuel, rfl⟩ : ∃ f, fuel = f + 1 := ⟨fuel - 1, by omega⟩
    rw [sampleLoop]
    by_cases hg : A.le x bound = true
    · rw [if_pos hg]
      rw [← sampleCounter_succ] at hn
      exact ih _ hn fuel (by omega) _ _
    · rw [if_neg hg]
      exact ⟨_, rfl⟩

theorem samples_length (start step : F) (y : F → F) (n : Nat) :
    (samples A start step y n).length = n := by
  simp [samples]

theorem mem_samples (start step : F) (y : F → F) (n : Nat) (t : F)
    (h : t ∈ samples A start step y n) : ∃ k, k < n ∧ t = y (sampleCounter A start step k) := by
  simp only [samples, List.mem_map, List.mem_range] at h
  obtain ⟨k, hk, rfl⟩ := h
  exact ⟨k, hk, rfl⟩

/-- The two loops of a `generate...Data` function return the samples of both
phases. -/
theorem sampleLoop_two_phase (st : consts F) (start step : F) (v1 v2 : F → F) (fuel : Nat)
    (r r' : List F × List F)
    (h1 : sampleLoop A st.fallTime step (fun x => x) v1 fuel start [] [] = some r)
    (h2 : sampleLoop A st.engineTime step (fun x => A.add st.fallTime x) v2 fuel start
      r.1 r.2 = some r') :
    ∃ n1 n2, sampleCount A start step st.fallTime n1 ∧
      sampleCount A start step st.engineTime n2 ∧
      r'.1 = samples A start step (fun x => x) n1
        ++ samples A start step (fun x => A.add st.fallTime x) n2 ∧
      r'.2 = samples A start step v1 n1 ++ samples A start step v2 n2 := by
  obtain ⟨n1, c1, a1, b1⟩ := sampleLoop_spec A _ _ _ _ _ _ _ _ _ h1
  obtain ⟨n2, c2, a2, b2⟩ := sampleLoop_spec A _ _ _ _ _ _ _ _ _ h2
  refine ⟨n1, n2, c1, c2, ?_, ?_⟩
  · rw [a2, a1, List.nil_append]
  · rw [b2, b1, List.nil_append]

end Sampling

section Binary64Sampling

open Binary64

variable (log : Binary64 → Binary64) (pow : Binary64 → Binary64 → Binary64)

theorem binary64_nonneg_ne_nan (x : Binary64) (hx : isNonnegValue x) : x ≠ nan := by
  intro h
  rw [h] at hx
  exact hx

theorem binary64_sampleCounter_nonneg (start step : Binary64) (h0 : isNonnegValue start)
    (hs : isNonnegValue step) (k : Nat) :
    isNonnegValue (sampleCounter (binary64Arith log pow) start step k) := by
  induction k with
  | zero => exact h0
  | succ k ih =>
    simp only [sampleCounter, Function.iterate_succ_apply'] at ih ⊢
    exact binary64_add_nonnegValue _ _ ih hs

/-- In binary64 the counter of a sampling loop never decreases. -/
theorem binary64_sampleCounter_mono (start step : Binary64) (h0 : isNonnegValue start)
    (hs : isNonnegValue step) (i j : Nat) (hij : i ≤ j) :
    le (sampleCounter (binary64Arith log pow) start step i)
      (sampleCounter (binary64Arith log pow) start step j) = true := by
  induction j with
  | zero =>
    have : i = 0 := by omega
    rw [this]
    exact binary64_le_refl _ (binary64_nonneg_ne_nan _ (binary64_sampleCounter_nonneg log pow _ _ h0 hs 0))
  | succ j ih =>
    rcases Nat.lt_or_ge i (j + 1) with h | h
    · refine binary64_le_trans _ _ _ (ih (by omega)) ?_
      have e : sampleCounter (binary64Arith log pow) start step (j + 1)
          = add (sampleCounter (binary64Arith log pow) start step j) step := by
        simp only [sampleCounter, Function.iterate_succ_apply']
        rfl
      rw [e]
      exact binary64_le_add _ _ (binary64_sampleCounter_nonneg log pow _ _ h0 hs j) hs
    · have : i = j + 1 := by omega
      rw [this]
      exact binary64_le_refl _
        (binary64_nonneg_ne_nan _ (binary64_sampleCounter_nonneg log pow _ _ h0 hs (j + 1)))

/-- In binary64 the series of the samples of the two loops is ordered and split
at the phase boundary. -/
theorem binary64_split (st : consts Binary64) (start step : Binary64)
    (hft : isNonnegValue st.fallTime) (het : isNonnegValue st.engineTime)
    (h0 : isNonnegValue start) (hs : isNonnegValue step) (v1 v2 : Binary64 → Binary64)
    (yVals xVals : List Binary64)
    (h : ∃ n1 n2, sampleCount (binary64Arith log pow) start step st.fallTime n1 ∧
      sampleCount (binary64Arith log pow) start step st.engineTime n2 ∧
      xVals = samples (binary64Arith log pow) start step (fun x => x) n1
        ++ samples (binary64Arith log pow) start step
          (fun x => (binary64Arith log pow).add st.fallTime x) n2 ∧
      yVals = samples (binary64Arith log pow) start step v1 n1
        ++ samples (binary64Arith log pow) start step v2 n2) :
    SplitSeries (binary64Arith log pow) st start step v1 v2 yVals xVals := by
  obtain ⟨n1, n2, c1, c2, hx, hy⟩ := h
  have hnn := binary64_sampleCounter_nonneg log pow start step h0 hs
  have hmono := binary64_sampleCounter_mono log pow start step h0 hs
  have hfall : ∀ t ∈ samples (binary64Arith log pow) start step (fun x => x) n1,
      le t st.fallTime = true := by
    intro t ht
    obtain ⟨k, hk, rfl⟩ := mem_samples _ _ _ _ _ _ ht
    exact c1.1 k hk
  have hburn : ∀ t ∈ samples (binary64Arith log pow) start step
      (fun x => (binary64Arith log pow).add st.fallTime x) n2,
      le st.fallTime t = true ∧ le t (add st.fallTime st.engineTime) = true := by
    intro t ht
    obtain ⟨k, hk, rfl⟩ := mem_samples _ _ _ _ _ _ ht
    exact ⟨binary64_le_add _ _ hft (hnn k),
      binary64_add_mono _ _ _ hft (hnn k) het (c2.1 k hk)⟩
  refine ⟨n1, n2, c1, c2, hx, hy, ?_, ?_, hfall, hburn⟩
  · rw [hx, List.pairwise_append]
    refine ⟨?_, ?_, ?_⟩
    · simp only [samples, List.pairwise_map]
      exact (List.pairwise_lt_range n1).imp (fun hab => hmono _ _ hab.le)
    · simp only [samples, List.pairwise_map]
      refine (List.pairwise_lt_range n2).imp (fun hab => ?_)
      exact binary64_add_mono _ _ _ hft (hnn _) (hnn _) (hmono _ _ hab.le)
    · intro a ha b hb
      exact binary64_le_trans _ _ _ (hfall a ha) (hburn b hb).1
  · rw [hx, hy]
    simp only [List.length_append, samples_length]

end Binary64Sampling

section Sampling2

variable {F : Type} (A : Float64Arith F)

/-- The two loops of a `generate...Data` function return when the guard of each
fails of some value of the counter and the fuel suffices. -/
theorem sampleLoop_two_phase_returns (st : consts F) (start step : F) (v1 v2 : F → F)
    (n1 n2 : Nat) (h1 : A.le (sampleCounter A start step n1) st.fallTime = false)
    (h2 : A.le (sampleCounter A start step n2) st.engineTime = false) (fuel : Nat)
    (hfuel : n1 + n2 + 1 ≤ fuel) :
    ∃ r r', sampleLoop A st.fallTime step (fun x => x) v1 fuel start [] [] = some r ∧
      sampleLoop A st.engineTime step (fun x => A.add st.fallTime x) v2 fuel start
        r.1 r.2 = some r' := by
  obtain ⟨r, hr⟩ := sampleLoop_returns A st.fallTime step (fun x => x) v1 n1 start h1 fuel
    (by omega) [] []
  obtain ⟨r', hr'⟩ := sampleLoop_returns A st.engineTime step
    (fun x => A.add st.fallTime x) v2 n2 start h2 fuel (by omega) r.1 r.2
  exact ⟨r, r', hr, hr'⟩

end Sampling2

section Binary64Sampling2

open Binary64

variable (log : Binary64 → Binary64) (pow : Binary64 → Binary64 → Binary64)

/-- In binary64 the counter of a sampling loop passes a finite bound, when the
step is not too small for the size of the bound. -/
theorem binary64_sampleCounter_exits (start step bound : Binary64)
    (h0 : isNonnegValue start) (hs : isNonnegValue step) (hb : isNonnegValue bound)
    (hfb : isFinite bound) (hfstart : isFinite start)
    (hlow : 1 / 10 ^ 190 ≤ toRat step) (hhigh : toRat step ≤ 10 ^ 180)
    (hgrow : toRat bound ≤ 2 ^ 50 * toRat step) :
    ∃ n, le (sampleCounter (binary64Arith log pow) start step n) bound = false := by
  have hlowpos : (0 : ℚ) < 1 / 10 ^ 190 := by positivity
  -- the step is a finite positive value
  obtain ⟨c, hc, rfl, -⟩ : ∃ c : ℚ, 0 < c ∧ step = fin false c
      ∧ roundNearestEven false c = fin false c := by
    rcases binary64_nonneg_forms _ hs with h | ⟨s, h⟩ | h
    · rw [h] at hlow
      have : toRat (inf false) = 0 := rfl
      rw [this] at hlow
      linarith
    · rw [h] at hlow
      have : toRat (fin s 0) = 0 := binary64_signed_zero s
      rw [this] at hlow
      linarith
    · exact h
  have e2 : toRat (fin false c) = c := rfl
  rw [e2] at hlow hhigh hgrow
  -- the bound is finite
  rcases bound with _ | t | ⟨t, b⟩
  · exact hfb.elim
  · exact hfb.elim
  have e3 : toRat (fin t b) = signed t b := rfl
  rw [e3] at hgrow
  have hT : 0 ≤ signed t b := hb.1
  have hsmall : (1 : ℚ) / 10 ^ 200 ≤ 1 / 10 ^ 190 / 4 := by norm_num
  have hB : (signed t b + c + c) / 2 ^ 53 + 1 / 10 ^ 200 ≤ c / 2 := by
    have h1 : (signed t b + c + c) / 2 ^ 53 ≤ c / 4 := by
      rw [div_le_iff₀ (by norm_num)]
      have : ((2 : ℚ) ^ 50 + 2) * c ≤ c / 4 * 2 ^ 53 := by
        have : c / 4 * 2 ^ 53 = (2 : ℚ) ^ 51 * c := by ring
        rw [this]
        exact mul_le_mul_of_nonneg_right (by norm_num) hc.le
      linarith
    linarith
  have hbig : signed t b + c + c ≤ 10 ^ 200 := by
    have h1 : ((2 : ℚ) ^ 50 + 2) * c ≤ ((2 : ℚ) ^ 50 + 2) * 10 ^ 180 :=
      mul_le_mul_of_nonneg_left hhigh (by norm_num)
    have h2 : ((2 : ℚ) ^ 50 + 2) * 10 ^ 180 ≤ 10 ^ 200 := by norm_num
    linarith
  have hexit : ∀ v' : ℚ, signed t b + c ≤ v' → le (fin false v') (fin t b) = false := by
    intro v' hv'
    refine decide_eq_false ?_
    have : signed false v' = v' := rfl
    rw [this]
    linarith
  have hiter : ∀ (k : Nat) (x : Binary64),
      sampleCounter (binary64Arith log pow) x (fin false c) k
        = (fun x => add x (fin false c))^[k] x := fun _ _ => rfl
  rcases binary64_nonneg_forms _ h0 with h | ⟨s, h⟩ | ⟨q, hq, h, -⟩
  · rw [h] at hfstart
    exact hfstart.elim
  · obtain ⟨k, v', hk, hv1, -⟩ := binary64_counter_reaches c (signed t b + c) hc hB hbig 0
      (le_refl 0) (by linarith)
    cases k with
    | zero =>
      exfalso
      have : fin false (0 : ℚ) = fin false v' := hk
      injection this with _ h'
      linarith
    | succ k =>
      refine ⟨k + 1, ?_⟩
      have e : add (fin s 0) (fin false c) = add (fin false 0) (fin false c) := by
        have hne : (0 : ℚ) + signed false c ≠ 0 := by
          have : signed false c = c := rfl
          rw [this]
          linarith
        simp only [add, binary64_signed_zero]
        rw [if_neg hne, if_neg hne]
      have e2 : (fun x => add x (fin false c))^[k + 1] (fin s 0)
          = (fun x => add x (fin false c))^[k + 1] (fin false 0) := by
        rw [Function.iterate_succ_apply, e, ← Function.iterate_succ_apply]
      rw [h, hiter, e2, hk]
      exact hexit v' hv1
  · by_cases hqT : q ≤ signed t b
    · obtain ⟨k, v', hk, hv1, -⟩ := binary64_counter_reaches c (signed t b + c) hc hB hbig q
        hq.le (by linarith)
      refine ⟨k, ?_⟩
      rw [h, hiter, hk]
      exact hexit v' hv1
    · refine ⟨0, ?_⟩
      rw [h]
      refine decide_eq_false ?_
      have : signed false q = q := rfl
      rw [this]
      exact hqT

end Binary64Sampling2

section RealForms

theorem real_lit (q : ℚ) : realArith.lit q = (q : ℝ) := rfl

theorem real_le (a b : ℝ) : realArith.le a b = true ↔ a ≤ b := by
  simp [realArith]

theorem real_le_false (a b : ℝ) : realArith.le a b = false ↔ b < a := by
  simp [realArith]

theorem real_CountFallHeight (st : consts ℝ) (t : ℝ) :
    CountFallHeight realArith st t = st.startSpeed * t + st.g * t ^ 2 / 2 := by
  simp only [CountFallHeight, realArith]
  norm_num

theorem real_CountSpeedWithWorkingEngine (st : consts ℝ) (ft t : ℝ) :
    CountSpeedWithWorkingEngine realArith st ft t =
      st.startSpeed + st.g * ft + st.g * t
        - st.jetSpeed * Real.log (st.mass / (st.mass - st.burnSpeed * t)) := rfl

theorem real_CountHeightWithWorkingEngine (st : consts ℝ) (ft t : ℝ) :
    CountHeightWithWorkingEngine realArith st ft t =
      (st.startSpeed + st.g * ft) * t + st.g * t ^ 2 / 2
        - st.jetSpeed * (Real.log st.mass * t + 1 / st.burnSpeed *
          ((st.mass - st.burnSpeed * t) * Real.log (st.mass - st.burnSpeed * t)
            - st.mass * Real.log st.mass + st.burnSpeed * t)) := by
  simp only [CountHeightWithWorkingEngine, CountFallSpeed, realArith]
  norm_num

theorem real_CountAccelerationWithWorkingEngine (st : consts ℝ) (t : ℝ) :
    CountAccelerationWithWorkingEngine realArith st t =
      st.g - st.jetSpeed * (st.burnSpeed / (st.mass - st.burnSpeed * t)) := rfl

theorem real_accepts (st : consts ℝ) (i j : ℝ) :
    accepts realArith st i j = true ↔
      |CountHeightWithWorkingEngine realArith st i j + CountFallHeight realArith st i
          - st.startHeight| ≤ 0.5 ∧
        0 ≤ CountSpeedWithWorkingEngine realArith st i j ∧
        CountSpeedWithWorkingEngine realArith st i j ≤ 3 := by
  simp only [accepts, Bool.and_eq_true, real_le]
  simp only [realArith]
  norm_num

theorem real_outerGuard (st : consts ℝ) (i : ℝ) :
    outerGuard realArith st i = true ↔ CountFallHeight realArith st i ≤ st.startHeight := by
  simp only [outerGuard, real_le]

theorem real_innerStep_iterate (m : Nat) (j : ℝ) :
    (innerStep realArith)^[m] j = j + m * 0.05 := by
  induction m generalizing j with
  | zero => simp
  | succ n ih =>
    rw [Function.iterate_succ_apply, ih]
    simp only [innerStep, realArith]
    push_cast
    ring

theorem real_outerStep_iterate (k : Nat) (i : ℝ) :
    (outerStep realArith)^[k] i = i + k * 0.001 := by
  induction k generalizing i with
  | zero => simp
  | succ n ih =>
    rw [Function.iterate_succ_apply, ih]
    simp only [outerStep, realArith]
    push_cast
    ring

/-- The speed after the burn, with the logarithm of the remaining mass fraction. -/
theorem real_speed_fraction (st : consts ℝ) (ft t : ℝ) (hM : 0 < st.mass)
    (ht : st.burnSpeed * t < st.mass) :
    CountSpeedWithWorkingEngine realArith st ft t =
      st.startSpeed + st.g * ft + st.g * t
        + st.jetSpeed * Real.log (1 - st.burnSpeed * t / st.mass) := by
  rw [real_CountSpeedWithWorkingEngine]
  have hpos : 0 < st.mass - st.burnSpeed * t := by linarith
  have h1 : 1 - st.burnSpeed * t / st.mass = (st.mass - st.burnSpeed * t) / st.mass := by
    field_simp
  rw [h1, Real.log_div hM.ne' hpos.ne', Real.log_div hpos.ne' hM.ne']
  ring

/-- The height covered by the burn, with the logarithm of the remaining mass
fraction. -/
theorem real_height_fraction (st : consts ℝ) (ft t : ℝ) (hM : 0 < st.mass)
    (hb : st.burnSpeed ≠ 0) (ht : st.burnSpeed * t < st.mass) :
    CountHeightWithWorkingEngine realArith st ft t =
      (st.startSpeed + st.g * ft) * t + st.g * t ^ 2 / 2
        - st.jetSpeed * (t + (st.mass - st.burnSpeed * t)
            * Real.log (1 - st.burnSpeed * t / st.mass) / st.burnSpeed) := by
  rw [real_CountHeightWithWorkingEngine]
  have hpos : 0 < st.mass - st.burnSpeed * t := by linarith
  have h1 : 1 - st.burnSpeed * t / st.mass = (st.mass - st.burnSpeed * t) / st.mass := by
    field_simp
  rw [h1, Real.log_div hpos.ne' hM.ne']
  have h2 : Real.log st.mass * t + 1 / st.burnSpeed *
        ((st.mass - st.burnSpeed * t) * Real.log (st.mass - st.burnSpeed * t)
          - st.mass * Real.log st.mass + st.burnSpeed * t)
      = t + (st.mass - st.burnSpeed * t)
          * (Real.log (st.mass - st.burnSpeed * t) - Real.log st.mass) / st.burnSpeed := by
    field_simp
    ring
  rw [h2]

/-- In exact arithmetic the inner loop ends: from the counter `0.5 + 0.05 m` at
most `191 - m` further candidates are at most `10`. -/
theorem real_innerLoopTraced_terminates (i : ℝ) (st : consts ℝ) (n m fuel : Nat)
    (hm : 191 ≤ m + n) (hfuel : n + 1 ≤ fuel) :
    ∃ r, innerLoopTraced realArith i fuel (0.5 + m * 0.05) st = some r := by
  induction n generalizing m fuel with
  | zero =>
    obtain ⟨f, rfl⟩ : ∃ f, fuel = f + 1 := ⟨fuel - 1, by omega⟩
    have hgt : realArith.le (0.5 + (m : ℝ) * 0.05) (realArith.lit 10) = false := by
      rw [real_le_false, real_lit]
      have : (191 : ℝ) ≤ m := by exact_mod_cast (by omega : 191 ≤ m)
      push_cast
      linarith
    exact ⟨(st, []), by simp [innerLoopTraced, hgt]⟩
  | succ n ih =>
    obtain ⟨f, rfl⟩ : ∃ f, fuel = f + 1 := ⟨fuel - 1, by omega⟩
    obtain ⟨r, hr⟩ := ih (m + 1) f (by omega) (by omega)
    have hstep : realArith.add (0.5 + (m : ℝ) * 0.05) (realArith.lit 0.05)
        = 0.5 + ((m + 1 : Nat) : ℝ) * 0.05 := by
      simp only [realArith]
      push_cast
      ring
    rw [innerLoopTraced]
    split
    · split
      · exact ⟨_, rfl⟩
      · rw [hstep, hr]
        exact ⟨_, rfl⟩
    · exact ⟨_, rfl⟩

/-- In exact arithmetic the outer loop ends as soon as its guard fails at some
counter value `i + 0.001 k`. -/
theorem real_outerLoopTraced_terminates (k : Nat) (i : ℝ) (st : consts ℝ) (fuel : Nat)
    (hk : outerGuard realArith st (i + k * 0.001) = false) (hfuel : k + 193 ≤ fuel) :
    ∃ r, outerLoopTraced realArith fuel i st = some r := by
  induction k generalizing i st fuel with
  | zero =>
    obtain ⟨f, rfl⟩ : ∃ f, fuel = f + 1 := ⟨fuel - 1, by omega⟩
    simp only [Nat.cast_zero, zero_mul, add_zero] at hk
    exact ⟨(st, []), by simp [outerLoopTraced, hk]⟩
  | succ n ih =>
    obtain ⟨f, rfl⟩ : ∃ f, fuel = f + 1 := ⟨fuel - 1, by omega⟩
    rw [outerLoopTraced]
    split
    · obtain ⟨r, hr⟩ := real_innerLoopTraced_terminates i st 191 0 f (by omega) (by omega)
      have h05 : realArith.lit 0.5 = (0.5 : ℝ) + ((0 : Nat) : ℝ) * 0.05 := by
        rw [real_lit]; push_cast; norm_num
      rw [h05, hr]
      have hst : r.1 = withTimes st r.1.fallTime r.1.engineTime := by
        rw [(innerLoopTraced_spec realArith i f _ st r.1 r.2 hr).1]
        exact record_eq_withTimes st r.2
      have hk' : outerGuard realArith r.1 (realArith.add i (realArith.lit 0.001) + n * 0.001)
          = false := by
        rw [hst, outerGuard_withTimes, ← hk]
        congr 1
        simp only [realArith]
        push_cast
        ring
      obtain ⟨r', hr'⟩ := ih (realArith.add i (realArith.lit 0.001)) r.1 f hk' (by omega)
      simp only
      rw [hr']
      exact ⟨_, rfl⟩
    · exact ⟨_, rfl⟩

/-- The derivative of the closed form of the height, as a function of the burn
time. -/
theorem hasDerivAt_height_formula (v1 g u b M s : ℝ) (hb : b ≠ 0) (hpos : 0 < M - b * s) :
    HasDerivAt (fun x : ℝ => v1 * x + g * x ^ 2 / 2
        - u * (Real.log M * x + 1 / b * ((M - b * x) * Real.log (M - b * x)
            - M * Real.log M + b * x)))
      (v1 + g * s - u * (Real.log M - Real.log (M - b * s))) s := by
  have hlin : HasDerivAt (fun x : ℝ => M - b * x) (-b) s := by
    have := ((hasDerivAt_id s).const_mul b).const_sub M
    simpa using this
  have hlog : HasDerivAt (fun x : ℝ => Real.log (M - b * x)) (-b / (M - b * s)) s :=
    hlin.log hpos.ne'
  have hprod := hlin.mul hlog
  have h1 : HasDerivAt (fun x : ℝ => v1 * x) v1 s := by
    simpa using (hasDerivAt_id s).const_mul v1
  have h2 : HasDerivAt (fun x : ℝ => g * x ^ 2 / 2) (g * s) s := by
    have := (((hasDerivAt_id s).pow 2).const_mul g).div_const 2
    convert this using 1
    simp
    ring
  have h3 : HasDerivAt (fun x : ℝ => Real.log M * x) (Real.log M) s := by
    simpa using (hasDerivAt_id s).const_mul (Real.log M)
  have h4 : HasDerivAt (fun x : ℝ => b * x) b s := by
    simpa using (hasDerivAt_id s).const_mul b
  have h5 := ((hprod.sub_const (M * Real.log M)).add h4).const_mul (1 / b)
  have h6 := (h3.add h5).const_mul u
  have h7 := (h1.add h2).sub h6
  convert h7 using 1
  field_simp
  ring

/-- The height covered by the burn has the speed as its derivative in the burn
time, wherever propellant is left. -/
theorem real_hasDerivAt_height (st : consts ℝ) (ft s : ℝ) (hb : st.burnSpeed ≠ 0)
    (hM : 0 < st.mass) (hs : st.burnSpeed * s < st.mass) :
    HasDerivAt (fun x => CountHeightWithWorkingEngine realArith st ft x)
      (CountSpeedWithWorkingEngine realArith st ft s) s := by
  have hpos : 0 < st.mass - st.burnSpeed * s := by linarith
  have hf : (fun x => CountHeightWithWorkingEngine realArith st ft x) = fun x : ℝ =>
      (st.startSpeed + st.g * ft) * x + st.g * x ^ 2 / 2
        - st.jetSpeed * (Real.log st.mass * x + 1 / st.burnSpeed *
          ((st.mass - st.burnSpeed * x) * Real.log (st.mass - st.burnSpeed * x)
            - st.mass * Real.log st.mass + st.burnSpeed * x)) :=
    funext (real_CountHeightWithWorkingEngine st ft)
  rw [hf, real_CountSpeedWithWorkingEngine, Real.log_div hM.ne' hpos.ne']
  exact hasDerivAt_height_formula _ _ _ _ _ s hb hpos

/-- The speed is continuous in the burn time while propellant is left. -/
theorem real_continuousOn_speed (st : consts ℝ) (ft t : ℝ) (hb : 0 < st.burnSpeed)
    (ht : st.burnSpeed * t < st.mass) (hM : 0 < st.mass) :
    ContinuousOn (fun s => CountSpeedWithWorkingEngine realArith st ft s) (Set.Iic t) := by
  have hf : (fun s => CountSpeedWithWorkingEngine realArith st ft s) = fun s : ℝ =>
      st.startSpeed + st.g * ft + st.g * s
        - st.jetSpeed * Real.log (st.mass / (st.mass - st.burnSpeed * s)) :=
    funext (real_CountSpeedWithWorkingEngine st ft)
  rw [hf]
  have hpos : ∀ s ∈ Set.Iic t, 0 < st.mass - st.burnSpeed * s := by
    intro s hs
    have : st.burnSpeed * s ≤ st.burnSpeed * t := mul_le_mul_of_nonneg_left hs hb.le
    linarith
  apply ContinuousOn.sub (by fun_prop)
  apply ContinuousOn.mul continuousOn_const
  apply ContinuousOn.log
  · apply ContinuousOn.div continuousOn_const (by fun_prop)
    intro s hs
    exact (hpos s hs).ne'
  · intro s hs
    exact (div_pos hM (hpos s hs)).ne'

/-- The formula of the powered acceleration tends to minus infinity as the burn
time tends to `M / b` from below. -/
theorem acceleration_formula_tendsto (g u b M : ℝ) (hu : 0 < u) (hb : 0 < b) :
    Filter.Tendsto (fun t : ℝ => g - u * (b / (M - b * t)))
      (nhdsWithin (M / b) (Set.Iio (M / b))) Filter.atBot := by
  have hd0 : Filter.Tendsto (fun t : ℝ => M - b * t) (nhdsWithin (M / b) (Set.Iio (M / b)))
      (nhds 0) := by
    have hc : Continuous fun t : ℝ => M - b * t := by fun_prop
    have := (hc.tendsto (M / b)).mono_left (nhdsWithin_le_nhds (s := Set.Iio (M / b)))
    have h0 : M - b * (M / b) = 0 := by field_simp
    rwa [h0] at this
  have hd : Filter.Tendsto (fun t : ℝ => M - b * t) (nhdsWithin (M / b) (Set.Iio (M / b)))
      (nhdsWithin 0 (Set.Ioi 0)) := by
    apply tendsto_nhdsWithin_of_tendsto_nhds_of_eventually_within _ hd0
    filter_upwards [self_mem_nhdsWithin] with t ht
    have : b * t < M := by
      have := (lt_div_iff₀ hb).mp ht
      linarith
    simp only [Set.mem_Ioi]
    linarith
  have hinv : Filter.Tendsto (fun t : ℝ => (M - b * t)⁻¹)
      (nhdsWithin (M / b) (Set.Iio (M / b))) Filter.atTop :=
    tendsto_inv_zero_atTop.comp hd
  have h1 : Filter.Tendsto (fun t : ℝ => u * (b * (M - b * t)⁻¹))
      (nhdsWithin (M / b) (Set.Iio (M / b))) Filter.atTop :=
    (hinv.const_mul_atTop hb).const_mul_atTop hu
  have h2 : Filter.Tendsto (fun t : ℝ => -(u * (b * (M - b * t)⁻¹)))
      (nhdsWithin (M / b) (Set.Iio (M / b))) Filter.atBot :=
    Filter.tendsto_neg_atTop_atBot.comp h1
  have h3 := Filter.tendsto_atBot_add_const_left _ g h2
  refine h3.congr ?_
  intro t
  rw [div_eq_mul_inv]
  ring

/-- Second-order bounds on the logarithm of a mass fraction `1 - x`. -/
theorem log_one_sub_bounds {x : ℝ} (h0 : 0 ≤ x) (h1 : x < 1) :
    -(x + x ^ 2 / 2) - x ^ 3 / (1 - x) ≤ Real.log (1 - x) ∧
      Real.log (1 - x) ≤ -(x + x ^ 2 / 2) + x ^ 3 / (1 - x) := by
  have h := Real.abs_log_sub_add_sum_range_le (x := x) (by rw [abs_of_nonneg h0]; exact h1) 2
  rw [abs_of_nonneg h0, abs_le] at h
  simp only [Finset.sum_range_succ, Finset.sum_range_zero] at h
  norm_num at h
  constructor <;> linarith [h.1, h.2]

end RealForms

/-! ## The configured vehicle in exact arithmetic -/

section Lunar

theorem lunar_mass (s H : ℝ) : (lunar s H).mass = 2300 := by
  simp [lunar, setStart, num, realArith]

theorem lunar_burnSpeed (s H : ℝ) : (lunar s H).burnSpeed = 15 := by
  simp only [lunar, setStart, num, realArith]; norm_num

theorem lunar_jetSpeed (s H : ℝ) : (lunar s H).jetSpeed = 3660 := by
  simp only [lunar, setStart, num, realArith]; norm_num

theorem lunar_g (s H : ℝ) : (lunar s H).g = 1.62 := by
  simp only [lunar, setStart, num, realArith]; norm_num

theorem lunar_startSpeed (s H : ℝ) : (lunar s H).startSpeed = s := rfl

theorem lunar_startHeight (s H : ℝ) : (lunar s H).startHeight = H := rfl

theorem lunar_fallTime (s H : ℝ) : (lunar s H).fallTime = 0 := by
  simp [lunar, setStart, num, realArith]

theorem lunar_engineTime (s H : ℝ) : (lunar s H).engineTime = 0 := by
  simp [lunar, setStart, num, realArith]

/-- The fall height of the configured vehicle. -/
theorem lunar_CountFallHeight (s H t : ℝ) :
    CountFallHeight realArith (lunar s H) t = s * t + 1.62 * t ^ 2 / 2 := by
  rw [real_CountFallHeight, lunar_startSpeed, lunar_g]

/-- The speed after a burn of `t < 2300 / 15`, for the configured vehicle. -/
theorem lunar_speed (s H ft t : ℝ) (ht : 15 * t < 2300) :
    CountSpeedWithWorkingEngine realArith (lunar s H) ft t =
      s + 1.62 * ft + 1.62 * t + 3660 * Real.log (1 - 15 * t / 2300) := by
  rw [real_speed_fraction _ _ _ (by rw [lunar_mass]; norm_num)
    (by rw [lunar_mass, lunar_burnSpeed]; exact ht)]
  rw [lunar_mass, lunar_burnSpeed, lunar_jetSpeed, lunar_g, lunar_startSpeed]

/-- The height covered by a burn of `t < 2300 / 15`, for the configured vehicle. -/
theorem lunar_height (s H ft t : ℝ) (ht : 15 * t < 2300) :
    CountHeightWithWorkingEngine realArith (lunar s H) ft t =
      (s + 1.62 * ft) * t + 1.62 * t ^ 2 / 2
        - 3660 * (t + (2300 - 15 * t) * Real.log (1 - 15 * t / 2300) / 15) := by
  rw [real_height_fraction _ _ _ (by rw [lunar_mass]; norm_num)
    (by rw [lunar_burnSpeed]; norm_num)
    (by rw [lunar_mass, lunar_burnSpeed]; exact ht)]
  rw [lunar_mass, lunar_burnSpeed, lunar_jetSpeed, lunar_g, lunar_startSpeed]

/-- In exact arithmetic a counter value reached by the outer loop header is not
below the value the loop was entered with, and the guard holds there. -/
theorem real_outerReach_bounds {st : consts ℝ} {i0 i : ℝ} (h : outerReach realArith st i0 i) :
    i0 ≤ i ∧ CountFallHeight realArith st i ≤ st.startHeight := by
  obtain ⟨k, hk, hg⟩ := h
  refine ⟨?_, ?_⟩
  · rw [hk, real_outerStep_iterate]
    have : (0 : ℝ) ≤ k := Nat.cast_nonneg k
    linarith
  · rw [hk, ← real_outerGuard]
    exact hg k (Nat.le_refl k)

/-- In exact arithmetic a burn time reached by the inner loop header lies
between `0.5` and `10`. -/
theorem real_innerReach_bounds {j : ℝ} (h : innerReach realArith (realArith.lit 0.5) j) :
    0.5 ≤ j ∧ j ≤ 10 := by
  obtain ⟨m, hm, hle⟩ := h
  have h05 : realArith.lit 0.5 = (0.5 : ℝ) := by rw [real_lit]; norm_num
  have h10 : realArith.lit 10 = (10 : ℝ) := by rw [real_lit]; norm_num
  refine ⟨?_, ?_⟩
  · rw [hm, real_innerStep_iterate, h05]
    have : (0 : ℝ) ≤ m := Nat.cast_nonneg m
    linarith
  · have := hle m (Nat.le_refl m)
    rw [real_le, ← hm, h10] at this
    exact this

/-- The burn takes off at least `(3660 * 15 / 2300 - 1.62) * t` from the speed. -/
theorem lunar_speed_le (s H ft t : ℝ) (ht : 15 * t < 2300) :
    CountSpeedWithWorkingEngine realArith (lunar s H) ft t ≤
      s + 1.62 * ft + 1.62 * t - 3660 * (15 * t / 2300) := by
  rw [lunar_speed s H ft t ht]
  have hpos : (0 : ℝ) < 1 - 15 * t / 2300 := by
    have : 15 * t / 2300 < 1 := by rw [div_lt_one (by norm_num)]; exact ht
    linarith
  have := Real.log_le_sub_one_of_pos hpos
  linarith

end Lunar

/-! ## The run from start speed 10 and start height 14 -/

section Run10

theorem run10_accepts_half (i : ℝ) (h1 : 1 ≤ i) (h2 : i ≤ 1.01) :
    accepts realArith (lunar 10 14) i (realArith.lit 0.5) = true := by
  have h05 : realArith.lit 0.5 = (0.5 : ℝ) := by rw [real_lit]; norm_num
  rw [h05, real_accepts, lunar_speed _ _ _ _ (by norm_num), lunar_height _ _ _ _ (by norm_num),
    lunar_CountFallHeight, lunar_startHeight]
  have hx : (15 : ℝ) * 0.5 / 2300 = 3 / 920 := by norm_num
  rw [hx]
  obtain ⟨lo, hi⟩ := log_one_sub_bounds (x := 3 / 920) (by norm_num) (by norm_num)
  norm_num at lo hi
  refine ⟨?_, ?_, ?_⟩
  · rw [abs_le]
    constructor <;> nlinarith
  · nlinarith
  · nlinarith

theorem real_le_half_ten : realArith.le (realArith.lit 0.5) (realArith.lit 10) = true := by
  rw [real_le, real_lit, real_lit]; norm_num

/-- The run from start speed 10 and start height 14 ends; its first probe, the
pair (1, 0.5), is accepted, and so is a later one, which leaves a fall time of
at least 1.001. -/
theorem run10_trace :
    ∃ st' tr, FindVariableTimeTraced realArith 1000 (lunar 10 14) = some (st', tr) ∧
      tr.head? = some ⟨1, 0.5, true⟩ ∧ 1.001 ≤ st'.fallTime ∧
      ∃ p ∈ tr, p.accepted = true := by
  have h1lit : realArith.lit 1.0 = (1 : ℝ) := by rw [real_lit]; norm_num
  have h05 : realArith.lit 0.5 = (0.5 : ℝ) := by rw [real_lit]; norm_num
  have hstep : outerStep realArith (1 : ℝ) = 1.001 := by
    simp only [outerStep, realArith]; norm_num
  have hgf : outerGuard realArith (lunar 10 14) ((1 : ℝ) + (401 : Nat) * 0.001) = false := by
    rw [outerGuard, real_le_false, lunar_CountFallHeight, lunar_startHeight]
    norm_num
  obtain ⟨r, hr⟩ := real_outerLoopTraced_terminates 401 1 (lunar 10 14) 1000 hgf (by norm_num)
  have hg1 : outerGuard realArith (lunar 10 14) 1 = true := by
    rw [real_outerGuard, lunar_CountFallHeight, lunar_startHeight]; norm_num
  have hg2 : outerGuard realArith (withTimes (lunar 10 14) 1 (realArith.lit 0.5)) 1.001
      = true := by
    rw [outerGuard_withTimes, real_outerGuard, lunar_CountFallHeight, lunar_startHeight]
    norm_num
  have e1 : outerLoopTraced realArith 1000 1 (lunar 10 14) = _ :=
    outerLoopTraced_accept_first realArith 998 1 (lunar 10 14) hg1 real_le_half_ten
      (run10_accepts_half 1 (by norm_num) (by norm_num))
  rw [hstep] at e1
  rw [e1] at hr
  cases h1 : outerLoopTraced realArith 999 1.001
      (withTimes (lunar 10 14) 1 (realArith.lit 0.5)) with
  | none => rw [h1] at hr; cases hr
  | some r1 =>
    rw [h1] at hr
    simp only [Option.map_some', Option.some.injEq] at hr
    have e2 : outerLoopTraced realArith 999 1.001
        (withTimes (lunar 10 14) 1 (realArith.lit 0.5)) = _ :=
      outerLoopTraced_accept_first realArith 997 1.001 _ hg2 real_le_half_ten
        (by rw [accepts_withTimes]
            exact run10_accepts_half 1.001 (by norm_num) (by norm_num))
    obtain ⟨hrec, hprobes⟩ := outerLoopTraced_spec realArith 999 1.001 _ r1.1 r1.2 h1
    have hsome : ∃ p ∈ r1.2, p.accepted = true := by
      rw [e2] at h1
      cases h2 : outerLoopTraced realArith (997 + 1) (outerStep realArith 1.001)
          (withTimes (withTimes (lunar 10 14) 1 (realArith.lit 0.5)) 1.001
            (realArith.lit 0.5)) with
      | none => rw [h2] at h1; cases h1
      | some r2 =>
        rw [h2] at h1
        simp only [Option.map_some', Option.some.injEq] at h1
        rw [← h1]
        exact ⟨_, List.mem_cons_self _ _, rfl⟩
    obtain ⟨p, hp, _, hlast⟩ := record_eq_accepted _ r1.2 hsome
    have hge : (1.001 : ℝ) ≤ p.fallTime := (real_outerReach_bounds (hprobes p hp).2.1).1
    have hfinal : r.1.fallTime = p.fallTime := by
      rw [← hr]
      show r1.1.fallTime = p.fallTime
      rw [hrec, hlast]
      rfl
    have hrun : FindVariableTimeTraced realArith 1000 (lunar 10 14) = some (r.1, r.2) := by
      unfold FindVariableTimeTraced
      rw [h1lit, e1, h1, ← hr]
      rfl
    refine ⟨r.1, r.2, hrun, ?_, ?_, ?_⟩
    · rw [← hr, h05]
      rfl
    · rw [hfinal]; exact hge
    · rw [← hr]
      exact ⟨_, List.mem_cons_self _ _, rfl⟩

end Run10

/-! ## The run from start speed 0 and start height 0.811 -/

section RunLow

/-- The run from start speed 0 and start height 0.811 ends, and none of its
probes is accepted. -/
theorem runLow_trace :
    ∃ st' tr, FindVariableTimeTraced realArith 200 (lunar 0 0.811) = some (st', tr) ∧
      ∀ p ∈ tr, p.accepted = false := by
  have h1lit : realArith.lit 1.0 = (1 : ℝ) := by rw [real_lit]; norm_num
  have hgf : outerGuard realArith (lunar 0 0.811) ((1 : ℝ) + (1 : Nat) * 0.001) = false := by
    rw [outerGuard, real_le_false, lunar_CountFallHeight, lunar_startHeight]
    norm_num
  obtain ⟨r, hr⟩ := real_outerLoopTraced_terminates 1 1 (lunar 0 0.811) 200 hgf (by norm_num)
  have hrun : FindVariableTimeTraced realArith 200 (lunar 0 0.811) = some (r.1, r.2) := by
    unfold FindVariableTimeTraced
    rw [h1lit, hr]
  refine ⟨r.1, r.2, hrun, ?_⟩
  intro p hp
  obtain ⟨hacc, hout, hin⟩ := (outerLoopTraced_spec realArith 200 1 _ r.1 r.2 hr).2 p hp
  obtain ⟨hi1, hi2⟩ := real_outerReach_bounds hout
  obtain ⟨hj1, hj2⟩ := real_innerReach_bounds hin
  rw [lunar_CountFallHeight, lunar_startHeight] at hi2
  have hi3 : p.fallTime ≤ 1.001 := by nlinarith
  have hspeed := lunar_speed_le 0 0.811 p.fallTime p.burnTime (by linarith)
  rw [hacc]
  cases hc : accepts realArith (lunar 0 0.811) p.fallTime p.burnTime with
  | false => rfl
  | true =>
    rw [real_accepts] at hc
    obtain ⟨_, h0, _⟩ := hc
    exfalso
    linarith

end RunLow

/-! ## Further facts for the claims on termination, frame and range -/

section Further

/-- The derivative of the formula of the speed, as a function of the burn time. -/
theorem hasDerivAt_speed_formula (c g u b M t : ℝ) (hM : 0 < M) (hpos : 0 < M - b * t) :
    HasDerivAt (fun x : ℝ => c + g * x - u * Real.log (M / (M - b * x)))
      (g - u * (b / (M - b * t))) t := by
  have hlin : HasDerivAt (fun x : ℝ => M - b * x) (-b) t := by
    have := ((hasDerivAt_id t).const_mul b).const_sub M
    simpa using this
  have hdiv := (hasDerivAt_const t M).div hlin hpos.ne'
  have hlog := hdiv.log (div_pos hM hpos).ne'
  have h1 : HasDerivAt (fun x : ℝ => c + g * x) g t := by
    have := ((hasDerivAt_id t).const_mul g).const_add c
    simpa using this
  have h2 := h1.sub (hlog.const_mul u)
  convert h2 using 1
  field_simp
  ring

end Further

/-! ## The claims -/

section Claims

open Binary64

/-- C1, at the failing input start speed 10, start height 14: the first pair in
scan order, (1, 0.5), passes the acceptance test and is recorded, yet the search
goes on and the pair held at the end has a fall time of at least 1.001, so the
first accepted pair was overwritten. -/
theorem FindVariableTime_overwrites_first_accepted :
    ∃ st' tr, FindVariableTimeTraced realArith 1000 (lunar 10 14) = some (st', tr) ∧
      FindVariableTime realArith 1000 (lunar 10 14) = some st' ∧
      tr.head? = some ⟨1, 0.5, true⟩ ∧ 1.001 ≤ st'.fallTime := by
  obtain ⟨st', tr, h, hhead, hge, _⟩ := run10_trace
  exact ⟨st', tr, h, FindVariableTime_of_traced realArith h, hhead, hge⟩

/-- C2, counterexample: with start speed 0 and start height 0.5 the outer loop
never runs, no pair is evaluated, and the search ends with the state it was
given, whose pair of times is the default (0, 0); nothing else is returned. -/
theorem FindVariableTime_silent_default :
    FindVariableTimeTraced realArith 1 (lunar 0 0.5) = some (lunar 0 0.5, []) ∧
      FindVariableTime realArith 1 (lunar 0 0.5) = some (lunar 0 0.5) ∧
      (lunar 0 0.5).fallTime = 0 ∧ (lunar 0 0.5).engineTime = 0 := by
  have hg : outerGuard realArith (lunar 0 0.5) (realArith.lit 1.0) = false := by
    rw [outerGuard, real_le_false, lunar_CountFallHeight, lunar_startHeight, real_lit]
    norm_num
  have h : FindVariableTimeTraced realArith 1 (lunar 0 0.5) = some (lunar 0 0.5, []) := by
    simp [FindVariableTimeTraced, outerLoopTraced, hg]
  exact ⟨h, FindVariableTime_of_traced realArith h, lunar_fallTime _ _, lunar_engineTime _ _⟩

/-- C2, as amended: when the search ends and no evaluated pair passed the
acceptance test (in particular when the outer loop never ran), it leaves the
state as it was, so `fallTime` and `engineTime` keep the values they had. -/
theorem FindVariableTime_no_accept_unchanged {F : Type} (A : Float64Arith F) (fuel : Nat)
    (st st' : consts F) (tr : List (Probe F))
    (h : FindVariableTimeTraced A fuel st = some (st', tr))
    (hnone : ∀ p ∈ tr, p.accepted = false) :
    st' = st ∧ FindVariableTime A fuel st = some st := by
  have hrec := (outerLoopTraced_spec A fuel _ st st' tr h).1
  rw [record_none st tr hnone] at hrec
  subst hrec
  exact ⟨rfl, FindVariableTime_of_traced A h⟩

/-- C2, witness: start speed 0 and start height 0.811, where candidates are
evaluated and all rejected. -/
theorem FindVariableTime_no_accept_unchanged_witness :
    ∃ st' tr, FindVariableTimeTraced realArith 200 (lunar 0 0.811) = some (st', tr) ∧
      (∀ p ∈ tr, p.accepted = false) ∧
      st' = lunar 0 0.811 ∧
      FindVariableTime realArith 200 (lunar 0 0.811) = some (lunar 0 0.811) := by
  obtain ⟨st', tr, h, hnone⟩ := runLow_trace
  exact ⟨st', tr, h, hnone,
    FindVariableTime_no_accept_unchanged realArith 200 _ st' tr h hnone⟩

/-- C3: for a burn time `t ≥ 0` that leaves propellant (`burnSpeed > 0`, `mass > 0`,
`burnSpeed * t < mass`), `CountHeightWithWorkingEngine ft t` is the integral of
`CountSpeedWithWorkingEngine ft` over `[0, t]`; equivalently its derivative in `t`
is the speed and its value at `t = 0` is `0`. -/
theorem CountHeightWithWorkingEngine_eq_integral (st : consts ℝ) (ft t : ℝ)
    (ht0 : 0 ≤ t) (hb : 0 < st.burnSpeed) (hM : 0 < st.mass)
    (ht : st.burnSpeed * t < st.mass) :
    CountHeightWithWorkingEngine realArith st ft t
        = ∫ s in (0 : ℝ)..t, CountSpeedWithWorkingEngine realArith st ft s ∧
      HasDerivAt (fun s => CountHeightWithWorkingEngine realArith st ft s)
        (CountSpeedWithWorkingEngine realArith st ft t) t ∧
      CountHeightWithWorkingEngine realArith st ft 0 = 0 := by
  have hzero : CountHeightWithWorkingEngine realArith st ft 0 = 0 := by
    rw [real_CountHeightWithWorkingEngine]
    simp
  refine ⟨?_, real_hasDerivAt_height st ft t hb.ne' hM ht, hzero⟩
  have hderiv : ∀ s ∈ Set.uIcc (0 : ℝ) t,
      HasDerivAt (fun x => CountHeightWithWorkingEngine realArith st ft x)
        (CountSpeedWithWorkingEngine realArith st ft s) s := by
    intro s hs
    rw [Set.uIcc_of_le ht0] at hs
    have : st.burnSpeed * s ≤ st.burnSpeed * t := mul_le_mul_of_nonneg_left hs.2 hb.le
    exact real_hasDerivAt_height st ft s hb.ne' hM (by linarith)
  have hint : IntervalIntegrable (fun s => CountSpeedWithWorkingEngine realArith st ft s)
      MeasureTheory.volume 0 t := by
    apply ContinuousOn.intervalIntegrable
    apply (real_continuousOn_speed st ft t hb ht hM).mono
    rw [Set.uIcc_of_le ht0]
    intro s hs
    exact hs.2
  rw [intervalIntegral.integral_eq_sub_of_hasDerivAt hderiv hint, hzero, sub_zero]

/-- C3, witness: the configured vehicle, a fall of 8 s and a burn of 0.5 s. -/
theorem CountHeightWithWorkingEngine_eq_integral_witness :
    (0 : ℝ) ≤ 0.5 ∧ 0 < (lunar 0 55.5).burnSpeed ∧ 0 < (lunar 0 55.5).mass ∧
      (lunar 0 55.5).burnSpeed * 0.5 < (lunar 0 55.5).mass ∧
      CountHeightWithWorkingEngine realArith (lunar 0 55.5) 8 0.5
        = ∫ s in (0 : ℝ)..0.5, CountSpeedWithWorkingEngine realArith (lunar 0 55.5) 8 s := by
  have h1 : (0 : ℝ) ≤ 0.5 := by norm_num
  have h2 : 0 < (lunar 0 55.5).burnSpeed := by rw [lunar_burnSpeed]; norm_num
  have h3 : 0 < (lunar 0 55.5).mass := by rw [lunar_mass]; norm_num
  have h4 : (lunar 0 55.5).burnSpeed * 0.5 < (lunar 0 55.5).mass := by
    rw [lunar_burnSpeed, lunar_mass]; norm_num
  exact ⟨h1, h2, h3, h4,
    (CountHeightWithWorkingEngine_eq_integral (lunar 0 55.5) 8 0.5 h1 h2 h3 h4).1⟩

/-- C4: whenever the search ends having recorded a pair, the pair it leaves in
`fallTime` and `engineTime` passes the acceptance test, evaluated with the
parameters the search used: the height test, and both speed tests. -/
theorem FindVariableTime_recorded_pair_accepted {F : Type} (A : Float64Arith F) (fuel : Nat)
    (st st' : consts F) (tr : List (Probe F))
    (h : FindVariableTimeTraced A fuel st = some (st', tr))
    (hrec : ∃ p ∈ tr, p.accepted = true) :
    A.le (A.abs (A.sub (A.add
        (CountHeightWithWorkingEngine A st st'.fallTime st'.engineTime)
        (CountFallHeight A st st'.fallTime)) st.startHeight)) (A.lit 0.5) = true ∧
      A.le (A.lit 0.0) (CountSpeedWithWorkingEngine A st st'.fallTime st'.engineTime) = true ∧
      A.le (CountSpeedWithWorkingEngine A st st'.fallTime st'.engineTime) (A.lit 3.0) = true := by
  obtain ⟨hst, hprobes⟩ := outerLoopTraced_spec A fuel _ st st' tr h
  obtain ⟨p, hp, hpa, hlast⟩ := record_eq_accepted st tr hrec
  have hacc : accepts A st p.fallTime p.burnTime = true := by
    rw [← (hprobes p hp).1]; exact hpa
  have h1 : st'.fallTime = p.fallTime := by rw [hst, hlast]; rfl
  have h2 : st'.engineTime = p.burnTime := by rw [hst, hlast]; rfl
  rw [h1, h2]
  simp only [accepts, Bool.and_eq_true] at hacc
  exact ⟨hacc.1, hacc.2.1, hacc.2.2⟩

/-- C4, witness: the run from start speed 10 and start height 14, which records
a pair. -/
theorem FindVariableTime_recorded_pair_accepted_witness :
    ∃ st' tr, FindVariableTimeTraced realArith 1000 (lunar 10 14) = some (st', tr) ∧
      (∃ p ∈ tr, p.accepted = true) ∧
      |CountHeightWithWorkingEngine realArith (lunar 10 14) st'.fallTime st'.engineTime
          + CountFallHeight realArith (lunar 10 14) st'.fallTime - 14| ≤ 0.5 ∧
      0 ≤ CountSpeedWithWorkingEngine realArith (lunar 10 14) st'.fallTime st'.engineTime ∧
      CountSpeedWithWorkingEngine realArith (lunar 10 14) st'.fallTime st'.engineTime ≤ 3 := by
  obtain ⟨st', tr, h, _, _, hrec⟩ := run10_trace
  have key := FindVariableTime_recorded_pair_accepted realArith 1000 _ st' tr h hrec
  refine ⟨st', tr, h, hrec, ?_⟩
  have hacc : accepts realArith (lunar 10 14) st'.fallTime st'.engineTime = true := by
    simp only [accepts, Bool.and_eq_true]
    exact ⟨key.1, key.2.1, key.2.2⟩
  rw [real_accepts, lunar_startHeight] at hacc
  exact hacc

/-- C5, counterexample: at the burn time 200, where `burnSpeed * t = 3000` is
above `mass = 2300`, `CountAccelerationWithWorkingEngine` divides by the negative
rest mass and returns the number `1.62 + 549 / 7`, and the logarithm of
`CountSpeedWithWorkingEngine` is applied to the negative argument
`2300 / (2300 - 3000)`; no error is raised. -/
theorem powered_functions_compute_beyond_burnout :
    (lunar 0 0).mass ≤ (lunar 0 0).burnSpeed * 200 ∧
      CountAccelerationWithWorkingEngine realArith (lunar 0 0) 200 = 1.62 + 549 / 7 ∧
      CountSpeedWithWorkingEngine realArith (lunar 0 0) 0 200
        = 1.62 * 200 - 3660 * realArith.log (2300 / (2300 - 15 * 200)) ∧
      (2300 : ℝ) / (2300 - 15 * 200) < 0 := by
  refine ⟨?_, ?_, ?_, ?_⟩
  · rw [lunar_mass, lunar_burnSpeed]; norm_num
  · rw [real_CountAccelerationWithWorkingEngine, lunar_g, lunar_jetSpeed, lunar_burnSpeed,
      lunar_mass]
    norm_num
  · rw [real_CountSpeedWithWorkingEngine, lunar_g, lunar_jetSpeed, lunar_burnSpeed,
      lunar_mass, lunar_startSpeed]
    simp [realArith]
  · norm_num

/-- C5, as amended: the powered-phase functions make no check of the mass
precondition and signal no error. In binary64, with the configured constants and
`math.Log` answering not-a-number on negative arguments, for every burn time at
which the rest mass `mass - burnSpeed * t` and the quotient
`mass / (mass - burnSpeed * t)` compute negative, `CountSpeedWithWorkingEngine` and
`CountHeightWithWorkingEngine` return not-a-number and
`CountAccelerationWithWorkingEngine` returns a value that is not negative. -/
theorem powered_functions_unchecked (log : Binary64 → Binary64)
    (pow : Binary64 → Binary64 → Binary64) (s H ft t : Binary64)
    (hlog : ∀ x, isNegative x = true → log x = nan)
    (hd : isNegative ((binary64Arith log pow).sub
      (setStart (num (binary64Arith log pow)) s H).mass
      ((binary64Arith log pow).mul (setStart (num (binary64Arith log pow)) s H).burnSpeed t))
      = true)
    (hx : isNegative ((binary64Arith log pow).div
      (setStart (num (binary64Arith log pow)) s H).mass
      ((binary64Arith log pow).sub (setStart (num (binary64Arith log pow)) s H).mass
        ((binary64Arith log pow).mul
          (setStart (num (binary64Arith log pow)) s H).burnSpeed t))) = true) :
    CountSpeedWithWorkingEngine (binary64Arith log pow)
        (setStart (num (binary64Arith log pow)) s H) ft t = nan ∧
      CountHeightWithWorkingEngine (binary64Arith log pow)
        (setStart (num (binary64Arith log pow)) s H) ft t = nan ∧
      isNonneg (CountAccelerationWithWorkingEngine (binary64Arith log pow)
        (setStart (num (binary64Arith log pow)) s H) t) := by
  have mul_nan : ∀ x, mul x nan = nan := by
    intro x
    cases x <;> rfl
  have add_nan : ∀ x, add x nan = nan := by
    intro x
    cases x <;> rfl
  have nan_add : ∀ x, add nan x = nan := by
    intro x
    cases x <;> rfl
  have hd' : isNegative (sub (ofRat 2300) (mul (ofRat 15.0) t)) = true := hd
  have hx' : isNegative (div (ofRat 2300) (sub (ofRat 2300) (mul (ofRat 15.0) t))) = true := hx
  refine ⟨?_, ?_, ?_⟩
  · show sub (add (CountFallSpeed (binary64Arith log pow)
        (setStart (num (binary64Arith log pow)) s H) ft) (mul (ofRat 1.62) t))
      (mul (ofRat 3660.0)
        (log (div (ofRat 2300) (sub (ofRat 2300) (mul (ofRat 15.0) t))))) = nan
    rw [hlog _ hx', mul_nan]
    exact add_nan _
  · show sub (add (mul (CountFallSpeed (binary64Arith log pow)
          (setStart (num (binary64Arith log pow)) s H) ft) t)
        (div (mul (ofRat 1.62) (pow t (ofRat 2))) (ofRat 2.0)))
      (mul (ofRat 3660.0) (add (mul (log (ofRat 2300)) t)
        (mul (div (ofRat 1) (ofRat 15.0))
          (add (sub (mul (sub (ofRat 2300) (mul (ofRat 15.0) t))
              (log (sub (ofRat 2300) (mul (ofRat 15.0) t))))
            (mul (ofRat 2300) (log (ofRat 2300))))
          (mul (ofRat 15.0) t))))) = nan
    rw [hlog _ hd', mul_nan]
    have e1 : ∀ y, sub nan y = nan := by
      intro y
      cases y <;> rfl
    rw [e1, nan_add, mul_nan, add_nan, mul_nan]
    exact add_nan _
  · show isNonneg (sub (ofRat 1.62) (mul (ofRat 3660.0)
      (div (ofRat 15.0) (sub (ofRat 2300) (mul (ofRat 15.0) t)))))
    rw [binary64_constants.1, binary64_constants_more.2.1, binary64_constants_more.2.2.1]
    have hg : isNonneg (fin false (1823957849085051 / 1125899906842624)) := by
      show (0 : ℚ) ≤ _
      norm_num
    have key : ∀ y, (y = inf true ∨ ∃ w : ℚ, 0 ≤ w ∧ y = fin true w) →
        isNonneg (sub (fin false (1823957849085051 / 1125899906842624)) y) := by
      rintro y (rfl | ⟨w, hw, rfl⟩)
      · exact binary64_add_isNonneg hg trivial
      · exact binary64_add_isNonneg hg hw
    have hmul : ∀ y, (y = inf true ∨ ∃ w : ℚ, 0 ≤ w ∧ y = fin true w) →
        (mul (fin false 3660) y = inf true ∨ ∃ w : ℚ, 0 ≤ w ∧ mul (fin false 3660) y = fin true w) := by
      rintro y (rfl | ⟨w, hw, rfl⟩)
      · left
        have h0 : ¬ (3660 : ℚ) = 0 := by norm_num
        simp only [mul, if_neg h0]
        rfl
      · exact binary64_round_cases true (3660 * w)
    have hdiv : ∀ d, isNegative d = true →
        (div (fin false 15) d = inf true ∨ ∃ w : ℚ, 0 ≤ w ∧ div (fin false 15) d = fin true w) := by
      intro d hneg
      rcases d with _ | sg | ⟨sg, q⟩
      · cases hneg
      · cases sg
        · cases hneg
        · exact Or.inr ⟨0, le_refl 0, rfl⟩
      · cases sg
        · cases hneg
        · have hq : 0 < q := of_decide_eq_true hneg
          have hdq : div (fin false 15) (fin true q) = roundNearestEven true (15 / q) := by
            simp only [div, if_neg hq.ne']
            rfl
          rw [hdq]
          exact binary64_round_cases true (15 / q)
    rw [binary64_constants_more.2.1] at hd'
    exact key _ (hmul _ (hdiv _ hd'))

set_option maxRecDepth 1000000 in
/-- C5, witness: the configured vehicle at the burn time 200, where the rest
mass computes `-700`. -/
theorem powered_functions_unchecked_witness :
    isNegative (sub (ofRat 2300) (mul (ofRat 15.0) (ofRat 200))) = true ∧
      CountSpeedWithWorkingEngine testArith (setStart (num testArith) (ofRat 0) (ofRat 0))
        (ofRat 1) (ofRat 200) = nan ∧
      CountHeightWithWorkingEngine testArith (setStart (num testArith) (ofRat 0) (ofRat 0))
        (ofRat 1) (ofRat 200) = nan := by
  have hd : isNegative (sub (ofRat 2300) (mul (ofRat 15.0) (ofRat 200))) = true := by decide!
  have hx : isNegative (div (ofRat 2300) (sub (ofRat 2300) (mul (ofRat 15.0) (ofRat 200))))
      = true := by decide!
  have key := powered_functions_unchecked (fun _ => nan) (fun x _ => mul x x) (ofRat 0) (ofRat 0)
    (ofRat 1) (ofRat 200) (fun _ _ => rfl) hd hx
  exact ⟨hd, key.1, key.2.1⟩

/-- C6: in binary64 arithmetic, whatever `math.Log` and `math.Pow` compute, with the
configured constants `fuelMass / burnSpeed` is exactly `10`, and every burn time
the search passes to the model functions is a finite positive number below `10`:
the comparison `fuelMass / burnSpeed <= burnTime` is false for it. (The counter
runs `0.5, 0.55, ...` with rounded additions; its 190th value is
`9.950000000000008` and the next one, `10.000000000000009`, fails `j <= 10`.) -/
theorem FindVariableTime_burn_below_exhaustion (log : Binary64 → Binary64)
    (pow : Binary64 → Binary64 → Binary64) (startS startH : Binary64) (fuel : Nat)
    (st' : consts Binary64) (tr : List (Probe Binary64))
    (h : FindVariableTimeTraced (binary64Arith log pow) fuel
      (setStart (num (binary64Arith log pow)) startS startH) = some (st', tr)) :
    (binary64Arith log pow).div
        (setStart (num (binary64Arith log pow)) startS startH).fuelMass
        (setStart (num (binary64Arith log pow)) startS startH).burnSpeed
        = Binary64.fin false 10 ∧
      ∀ p ∈ tr, (∃ q : ℚ, p.burnTime = Binary64.fin false q ∧ q < 10) ∧
        (binary64Arith log pow).le (Binary64.fin false 10) p.burnTime = false := by
  refine ⟨binary64_div_fuel, ?_⟩
  intro p hp
  obtain ⟨_, _, hin⟩ := (outerLoopTraced_spec (binary64Arith log pow) fuel _ _ st' tr h).2 p hp
  obtain ⟨q, hq, hlt⟩ := binary64_innerReach_below log pow hin
  refine ⟨⟨q, hq, hlt⟩, ?_⟩
  rw [hq]
  show decide (Binary64.signed false 10 ≤ Binary64.signed false q) = false
  simp only [Binary64.signed, Bool.false_eq_true, if_false, decide_eq_false_iff_not, not_le]
  exact hlt

/-- C6, witness: the binary64 test run from start speed 0 and start height
0.811, which evaluates all 190 burn times. -/
theorem FindVariableTime_burn_below_exhaustion_witness :
    ∃ st' tr, FindVariableTimeTraced testArith 200
        (setStart (num testArith) (Binary64.ofRat 0) (Binary64.ofRat 0.811)) = some (st', tr) ∧
      tr.length = 190 ∧
      ∀ p ∈ tr, (∃ q : ℚ, p.burnTime = Binary64.fin false q ∧ q < 10) ∧
        testArith.le (Binary64.fin false 10) p.burnTime = false := by
  have hlen := binary64_test_run
  cases hr : FindVariableTimeTraced testArith 200
      (setStart (num testArith) (Binary64.ofRat 0) (Binary64.ofRat 0.811)) with
  | none => rw [hr] at hlen; cases hlen
  | some r =>
    rw [hr] at hlen
    simp only [Option.map_some', Option.some.injEq] at hlen
    exact ⟨r.1, r.2, rfl, hlen,
      (FindVariableTime_burn_below_exhaustion (fun _ => Binary64.nan)
        (fun x _ => Binary64.mul x x) (Binary64.ofRat 0) (Binary64.ofRat 0.811) 200
        r.1 r.2 hr).2⟩

/-- C7: in binary64, whatever `math.Log` and `math.Pow` compute, with the configured
constants every burn time `t` the search evaluates lies between `0.5` and `10` and
has `burnSpeed * t < mass`; the rest mass `mass - burnSpeed * t` and the quotient
`mass / (mass - burnSpeed * t)` computed for it are finite and positive, so that
the value of the two functions and of the acceptance test at such a candidate
does not depend on what `math.Log` returns outside the positive numbers. And in
exact arithmetic, for every `t` with `burnSpeed * t < mass`, the three
powered-phase functions do not depend on what the logarithm returns outside the
positive numbers nor on what a division by zero returns: no logarithm of a
non-positive number and no division by zero is evaluated. -/
theorem FindVariableTime_stays_in_domain (log : Binary64 → Binary64)
    (pow : Binary64 → Binary64 → Binary64) (s H : Binary64) (fuel : Nat)
    (st' : consts Binary64) (tr : List (Probe Binary64))
    (h : FindVariableTimeTraced (binary64Arith log pow) fuel
      (setStart (num (binary64Arith log pow)) s H) = some (st', tr)) :
    (∀ p ∈ tr,
        (binary64Arith log pow).le ((binary64Arith log pow).lit 0.5) p.burnTime = true ∧
        (binary64Arith log pow).le p.burnTime ((binary64Arith log pow).lit 10) = true ∧
        (binary64Arith log pow).le (setStart (num (binary64Arith log pow)) s H).mass
          ((binary64Arith log pow).mul
            (setStart (num (binary64Arith log pow)) s H).burnSpeed p.burnTime) = false ∧
        isPositive ((binary64Arith log pow).sub
          (setStart (num (binary64Arith log pow)) s H).mass
          ((binary64Arith log pow).mul
            (setStart (num (binary64Arith log pow)) s H).burnSpeed p.burnTime)) = true ∧
        isPositive ((binary64Arith log pow).div
          (setStart (num (binary64Arith log pow)) s H).mass
          ((binary64Arith log pow).sub (setStart (num (binary64Arith log pow)) s H).mass
            ((binary64Arith log pow).mul
              (setStart (num (binary64Arith log pow)) s H).burnSpeed p.burnTime))) = true ∧
        ∀ log' : Binary64 → Binary64, (∀ x, isPositive x = true → log' x = log x) →
          CountSpeedWithWorkingEngine (binary64Arith log' pow)
              (setStart (num (binary64Arith log' pow)) s H) p.fallTime p.burnTime
            = CountSpeedWithWorkingEngine (binary64Arith log pow)
              (setStart (num (binary64Arith log pow)) s H) p.fallTime p.burnTime ∧
          CountHeightWithWorkingEngine (binary64Arith log' pow)
              (setStart (num (binary64Arith log' pow)) s H) p.fallTime p.burnTime
            = CountHeightWithWorkingEngine (binary64Arith log pow)
              (setStart (num (binary64Arith log pow)) s H) p.fallTime p.burnTime ∧
          accepts (binary64Arith log' pow)
              (setStart (num (binary64Arith log' pow)) s H) p.fallTime p.burnTime
            = accepts (binary64Arith log pow)
              (setStart (num (binary64Arith log pow)) s H) p.fallTime p.burnTime) ∧
      ∀ (ft t : ℝ) (rs rH : ℝ) (log1 log2 dz1 dz2 : ℝ → ℝ), 0 ≤ t → 15 * t < 2300 →
        (∀ x, 0 < x → log1 x = log2 x) →
        CountSpeedWithWorkingEngine (realArithWith log1 dz1)
            (setStart (num (realArithWith log1 dz1)) rs rH) ft t
          = CountSpeedWithWorkingEngine (realArithWith log2 dz2)
            (setStart (num (realArithWith log2 dz2)) rs rH) ft t ∧
        CountHeightWithWorkingEngine (realArithWith log1 dz1)
            (setStart (num (realArithWith log1 dz1)) rs rH) ft t
          = CountHeightWithWorkingEngine (realArithWith log2 dz2)
            (setStart (num (realArithWith log2 dz2)) rs rH) ft t ∧
        CountAccelerationWithWorkingEngine (realArithWith log1 dz1)
            (setStart (num (realArithWith log1 dz1)) rs rH) t
          = CountAccelerationWithWorkingEngine (realArithWith log2 dz2)
            (setStart (num (realArithWith log2 dz2)) rs rH) t := by
  refine ⟨?_, fun ft t rs rH log1 log2 dz1 dz2 _ ht hlog =>
    real_powered_in_domain rs rH ft t log1 log2 dz1 dz2 ht hlog⟩
  intro p hp
  obtain ⟨_, _, hin⟩ := (outerLoopTraced_spec (binary64Arith log pow) fuel _ _ st' tr h).2 p hp
  obtain ⟨_, hdom⟩ := binary64_innerReach_inDomain log pow hin
  simp only [burnInDomain, Bool.and_eq_true, Bool.not_eq_true'] at hdom
  obtain ⟨⟨⟨⟨⟨_, h1⟩, h2⟩, h3⟩, h4⟩, h5⟩ := hdom
  refine ⟨h1, h2, h3, h4, h5, ?_⟩
  intro log' hlog'
  have hM : isPositive (ofRat 2300) = true := by
    rw [binary64_constants_more.1]
    show decide ((0 : ℚ) < 2300) = true
    exact decide_eq_true (by norm_num)
  have hCS : CountSpeedWithWorkingEngine (binary64Arith log' pow)
        (setStart (num (binary64Arith log' pow)) s H) p.fallTime p.burnTime
      = CountSpeedWithWorkingEngine (binary64Arith log pow)
        (setStart (num (binary64Arith log pow)) s H) p.fallTime p.burnTime := by
    show sub (add (CountFallSpeed (binary64Arith log pow)
          (setStart (num (binary64Arith log pow)) s H) p.fallTime) (mul (ofRat 1.62) p.burnTime))
        (mul (ofRat 3660.0)
          (log' (div (ofRat 2300) (sub (ofRat 2300) (mul (ofRat 15.0) p.burnTime))))) = _
    rw [hlog' _ h5]
    rfl
  have hCH : CountHeightWithWorkingEngine (binary64Arith log' pow)
        (setStart (num (binary64Arith log' pow)) s H) p.fallTime p.burnTime
      = CountHeightWithWorkingEngine (binary64Arith log pow)
        (setStart (num (binary64Arith log pow)) s H) p.fallTime p.burnTime := by
    show sub (add (mul (CountFallSpeed (binary64Arith log pow)
          (setStart (num (binary64Arith log pow)) s H) p.fallTime) p.burnTime)
        (div (mul (ofRat 1.62) (pow p.burnTime (ofRat 2))) (ofRat 2.0)))
      (mul (ofRat 3660.0) (add (mul (log' (ofRat 2300)) p.burnTime)
        (mul (div (ofRat 1) (ofRat 15.0))
          (add (sub (mul (sub (ofRat 2300) (mul (ofRat 15.0) p.burnTime))
              (log' (sub (ofRat 2300) (mul (ofRat 15.0) p.burnTime))))
            (mul (ofRat 2300) (log' (ofRat 2300))))
          (mul (ofRat 15.0) p.burnTime))))) = _
    rw [hlog' _ h4, hlog' _ hM]
    rfl
  refine ⟨hCS, hCH, ?_⟩
  unfold accepts
  rw [hCS, hCH]
  rfl

set_option maxRecDepth 1000000 in
/-- C7, witness: the binary64 test run from start speed 0 and start height
0.811, which evaluates all 190 burn times. -/
theorem FindVariableTime_stays_in_domain_witness :
    ∃ st' tr, FindVariableTimeTraced testArith 200
        (setStart (num testArith) (ofRat 0) (ofRat 0.811)) = some (st', tr) ∧
      tr.length = 190 ∧
      ∀ p ∈ tr, testArith.le (testArith.lit 0.5) p.burnTime = true ∧
        testArith.le p.burnTime (testArith.lit 10) = true := by
  have hlen := binary64_test_run
  cases hr : FindVariableTimeTraced testArith 200
      (setStart (num testArith) (ofRat 0) (ofRat 0.811)) with
  | none => rw [hr] at hlen; cases hlen
  | some r =>
    rw [hr] at hlen
    simp only [Option.map_some', Option.some.injEq] at hlen
    refine ⟨r.1, r.2, rfl, hlen, fun p hp => ?_⟩
    have key := (FindVariableTime_stays_in_domain (fun _ => nan) (fun x _ => mul x x)
      (ofRat 0) (ofRat 0.811) 200 r.1 r.2 hr).1 p hp
    exact ⟨key.1, key.2.1⟩

/-- C9, counterexample: two states with the same parameters and start
conditions (start speed 0, start height 0.5) that hold different times; each
run ends with the times its state held, so the results differ. -/
theorem FindVariableTime_result_depends_on_times :
    FindVariableTime realArith 1 (lunar 0 0.5) = some (lunar 0 0.5) ∧
      FindVariableTime realArith 1 (withTimes (lunar 0 0.5) 7 7)
        = some (withTimes (lunar 0 0.5) 7 7) ∧
      (lunar 0 0.5).fallTime ≠ (withTimes (lunar 0 0.5) 7 7).fallTime := by
  have hg : outerGuard realArith (lunar 0 0.5) (realArith.lit 1.0) = false := by
    rw [outerGuard, real_le_false, lunar_CountFallHeight, lunar_startHeight, real_lit]
    norm_num
  refine ⟨?_, ?_, ?_⟩
  · simp [FindVariableTime, outerLoop, hg]
  · simp [FindVariableTime, outerLoop, outerGuard_withTimes, hg]
  · rw [lunar_fallTime]
    simp [withTimes]

/-- C9, as amended: a second run of the search, with any fuel, leaves the
state the first run left; when the first run recorded a pair its result is the
same from every state with these parameters and start conditions, and when it
recorded none the state is left as it was. -/
theorem FindVariableTime_idempotent {F : Type} (A : Float64Arith F) (fuel fuel2 : Nat)
    (st st1 st2 : consts F) (tr : List (Probe F))
    (h1 : FindVariableTimeTraced A fuel st = some (st1, tr))
    (h2 : FindVariableTime A fuel2 st1 = some st2) :
    st2 = st1 ∧ FindVariableTime A fuel st1 = some st1 ∧
      ((∃ p ∈ tr, p.accepted = true) →
        ∀ a b, FindVariableTime A fuel (withTimes st a b) = some st1) ∧
      ((∀ p ∈ tr, p.accepted = false) → st1 = st) := by
  have hrec := (outerLoopTraced_spec A fuel _ st st1 tr h1).1
  have hany : ∀ a b, FindVariableTimeTraced A fuel (withTimes st a b)
      = some (record (withTimes st a b) tr, tr) :=
    fun a b => outerLoopTraced_withTimes A a b h1
  have hst1 : st1 = withTimes st st1.fallTime st1.engineTime := by
    rw [hrec]; exact record_eq_withTimes st tr
  have hfix : record st1 tr = st1 := by
    by_cases hacc : ∃ p ∈ tr, p.accepted = true
    · rw [hst1, record_withTimes st _ _ tr hacc, ← hrec, ← hst1]
    · apply record_none
      intro p hp
      cases hpa : p.accepted with
      | false => rfl
      | true => exact absurd ⟨p, hp, hpa⟩ hacc
  have hagain : FindVariableTimeTraced A fuel st1 = some (st1, tr) := by
    have := hany st1.fallTime st1.engineTime
    rw [← hst1, hfix] at this
    exact this
  refine ⟨?_, FindVariableTime_of_traced A hagain, ?_, ?_⟩
  · obtain ⟨tr2, h2'⟩ := traced_of_FindVariableTime A h2
    have := FindVariableTimeTraced_fuel_unique A h2' hagain
    exact (Prod.mk.inj this).1
  · intro hacc a b
    have := hany a b
    rw [record_withTimes st a b tr hacc, ← hrec] at this
    exact FindVariableTime_of_traced A this
  · intro hnone
    rw [hrec, record_none st tr hnone]

/-- C9, witness: the run from start speed 10 and start height 14, run again with
more fuel. -/
theorem FindVariableTime_idempotent_witness :
    ∃ st1 st2 tr, FindVariableTimeTraced realArith 1000 (lunar 10 14) = some (st1, tr) ∧
      FindVariableTime realArith 1001 st1 = some st2 ∧ st2 = st1 := by
  obtain ⟨st1, tr, h, _, _, hacc⟩ := run10_trace
  have hrec := (outerLoopTraced_spec realArith 1000 _ _ st1 tr h).1
  have hst1 : st1 = withTimes (lunar 10 14) st1.fallTime st1.engineTime := by
    rw [hrec]; exact record_eq_withTimes _ tr
  have hrun : FindVariableTimeTraced realArith 1001 st1 = some (st1, tr) := by
    have h' := outerLoopTraced_withTimes realArith st1.fallTime st1.engineTime h
    rw [record_withTimes _ _ _ tr hacc, ← hrec, ← hst1] at h'
    exact outerLoopTraced_fuel_succ realArith 1000 _ st1 _ h'
  have h2 := FindVariableTime_of_traced realArith hrun
  exact ⟨st1, st1, tr, h, h2,
    (FindVariableTime_idempotent realArith 1000 1001 _ st1 st1 tr h h2).1⟩

/-- C10: for `jetSpeed > 0` and `burnSpeed > 0` (and any mass, in particular a
positive one) `CountAccelerationWithWorkingEngine t` tends to minus infinity as `t`
tends to `mass / burnSpeed` from below. -/
theorem CountAccelerationWithWorkingEngine_tendsto_atBot (st : consts ℝ)
    (hu : 0 < st.jetSpeed) (hb : 0 < st.burnSpeed) :
    Filter.Tendsto (fun t => CountAccelerationWithWorkingEngine realArith st t)
      (nhdsWithin (st.mass / st.burnSpeed) (Set.Iio (st.mass / st.burnSpeed)))
      Filter.atBot :=
  acceleration_formula_tendsto st.g st.jetSpeed st.burnSpeed st.mass hu hb

/-- C10, witness: the configured vehicle, whose propellant would last
`2300 / 15` seconds. -/
theorem CountAccelerationWithWorkingEngine_tendsto_atBot_witness :
    0 < (lunar 0 0).jetSpeed ∧ 0 < (lunar 0 0).burnSpeed ∧ 0 < (lunar 0 0).mass ∧
      Filter.Tendsto (fun t => CountAccelerationWithWorkingEngine realArith (lunar 0 0) t)
        (nhdsWithin ((lunar 0 0).mass / (lunar 0 0).burnSpeed)
          (Set.Iio ((lunar 0 0).mass / (lunar 0 0).burnSpeed)))
        Filter.atBot := by
  have hu : 0 < (lunar 0 0).jetSpeed := by rw [lunar_jetSpeed]; norm_num
  have hb : 0 < (lunar 0 0).burnSpeed := by rw [lunar_burnSpeed]; norm_num
  have hM : 0 < (lunar 0 0).mass := by rw [lunar_mass]; norm_num
  exact ⟨hu, hb, hM, CountAccelerationWithWorkingEngine_tendsto_atBot (lunar 0 0) hu hb⟩

/-- C11, counterexample: in binary64, whatever `math.Log` computes, with the
configured `g = 1.62`, start speed 1 and start height plus infinity, the guard
`CountFallHeight(i) <= startHeight` of the outer loop holds at every value of the
counter, and no amount of fuel lets the search return: it does not terminate. -/
theorem FindVariableTime_diverges_at_infinite_height :
    ¬ ∃ (log : Binary64 → Binary64) (fuel : Nat) (st' : consts Binary64),
      FindVariableTime (binary64Arith log (fun x _ => Binary64.mul x x)) fuel
        (setStart (num (binary64Arith log (fun x _ => Binary64.mul x x)))
          (Binary64.fin false 1) (Binary64.inf false)) = some st' := by
  rintro ⟨log, fuel, st', h⟩
  rw [FindVariableTime, outerLoop_none_of_guard _ fuel _ _ (binary64_guard_inf log)] at h
  cases h

/-- C11, as amended: in binary64, whatever `math.Log` computes and with
`math.Pow(x, 2)` the rounded square, for the configured `g = 1.62`, every finite
start speed of magnitude at most `10 ^ 9` and every finite start height of at
most `10 ^ 20`, the guard of the outer loop is false at some value of the
counter reached by steps of `0.001` from `1.0`, the search returns for every
amount of fuel from some amount on, and every inner loop evaluates at most 190
candidates. -/
theorem FindVariableTime_terminates (log : Binary64 → Binary64)
    (pow : Binary64 → Binary64 → Binary64) (hpow : ∀ x, pow x (ofRat 2) = mul x x)
    (ss hs : Bool) (a h : ℚ) (ha0 : 0 ≤ a) (ha : a ≤ 10 ^ 9) (hh0 : 0 ≤ h)
    (hH : signed hs h ≤ 10 ^ 20) :
    (∃ k : Nat, outerGuard (binary64Arith log pow)
        (setStart (num (binary64Arith log pow)) (fin ss a) (fin hs h))
        ((outerStep (binary64Arith log pow))^[k] ((binary64Arith log pow).lit 1.0)) = false) ∧
      (∃ n : Nat, ∀ fuel, n ≤ fuel → ∃ st', FindVariableTime (binary64Arith log pow) fuel
        (setStart (num (binary64Arith log pow)) (fin ss a) (fin hs h)) = some st') ∧
      ∀ (i : Binary64) (fuel : Nat) (st1 : consts Binary64)
        (r : consts Binary64 × List (Probe Binary64)),
        innerLoopTraced (binary64Arith log pow) i fuel ((binary64Arith log pow).lit 0.5) st1
          = some r → r.2.length ≤ 190 := by
  have estep : outerStep (binary64Arith log pow)
      = fun x => add x (fin false (1152921504606847 / 1152921504606846976)) := by
    funext x
    show add x (ofRat 0.001) = _
    rw [binary64_constants.2.2.2]
  have e1 : (binary64Arith log pow).lit 1.0 = fin false 1 := binary64_constants.2.2.1
  have hstop : (binary64Arith log pow).le
      ((innerStep (binary64Arith log pow))^[190] ((binary64Arith log pow).lit 0.5))
      ((binary64Arith log pow).lit 10) = false := by
    have c1 : innerStep (binary64Arith log pow) = stepBurn := rfl
    have c2 : (binary64Arith log pow).lit 0.5 = ofRat 0.5 := rfl
    have c3 : (binary64Arith log pow).lit 10 = ofRat 10 := rfl
    have c4 : (binary64Arith log pow).le = le := rfl
    rw [c1, c2, c3, c4]
    exact binary64_counter_stops
  obtain ⟨k, v, hk, hv1, hv2⟩ := binary64_counter_reaches
    (1152921504606847 / 1152921504606846976) (2 ^ 40) (by norm_num) (by norm_num)
    (by norm_num) 1 (by norm_num) (by norm_num)
  have hguard : outerGuard (binary64Arith log pow)
      (setStart (num (binary64Arith log pow)) (fin ss a) (fin hs h))
      ((outerStep (binary64Arith log pow))^[k] ((binary64Arith log pow).lit 1.0)) = false := by
    rw [estep, e1, hk]
    refine binary64_guard_fails log pow hpow ss hs a h v ha0 ha hh0 hH hv1 ?_
    refine le_trans hv2 ?_
    norm_num
  refine ⟨⟨k, hguard⟩, ⟨k + 191 + 1, fun fuel hfuel => ?_⟩, ?_⟩
  · obtain ⟨r, hr⟩ := outerLoopTraced_returns (binary64Arith log pow) 191
      (fun i st f hf => innerLoopTraced_returns (binary64Arith log pow) i st 190 _ hstop f hf)
      k _ _ hguard fuel hfuel
    have hr' : FindVariableTimeTraced (binary64Arith log pow) fuel
        (setStart (num (binary64Arith log pow)) (fin ss a) (fin hs h)) = some (r.1, r.2) := hr
    exact ⟨r.1, FindVariableTime_of_traced (binary64Arith log pow) hr'⟩
  · intro i fuel st1 r hr
    exact innerLoopTraced_length_le (binary64Arith log pow) i st1 190 _ hstop fuel r hr

/-- C11, witness: the configured vehicle with start speed 0 and start height
55.5. -/
theorem FindVariableTime_terminates_witness :
    signed false (111 / 2) ≤ 10 ^ 20 ∧
      ∃ n : Nat, ∀ fuel, n ≤ fuel → ∃ st', FindVariableTime testArith fuel
        (setStart (num testArith) (fin false 0) (fin false (111 / 2))) = some st' := by
  have hH : signed false (111 / 2) ≤ 10 ^ 20 := by
    simp only [signed, Bool.false_eq_true, if_false]
    norm_num
  exact ⟨hH, (FindVariableTime_terminates (fun _ => nan) (fun x _ => mul x x) (fun _ => rfl)
    false false 0 (111 / 2) (le_refl 0) (by norm_num) (by norm_num) hH).2.1⟩

/-- C12: `CountFallSpeed t` is `startSpeed + g * t`, and when `g > 0` it is
non-decreasing in `t`: for `t1 ≤ t2` (in particular for `0 ≤ t1 ≤ t2`) its value
at `t1` is at most its value at `t2`. -/
theorem CountFallSpeed_monotone (st : consts ℝ) (t t1 t2 : ℝ) (hg : 0 < st.g)
    (h12 : t1 ≤ t2) :
    CountFallSpeed realArith st t = st.startSpeed + st.g * t ∧
      CountFallSpeed realArith st t1 ≤ CountFallSpeed realArith st t2 := by
  refine ⟨rfl, ?_⟩
  show st.startSpeed + st.g * t1 ≤ st.startSpeed + st.g * t2
  have := mul_le_mul_of_nonneg_left h12 hg.le
  linarith

/-- C12, witness: the configured vehicle with start speed 3, at the times 0, 1
and 2. -/
theorem CountFallSpeed_monotone_witness :
    0 < (lunar 3 0).g ∧ (1 : ℝ) ≤ 2 ∧
      CountFallSpeed realArith (lunar 3 0) 0 = 3 ∧
      CountFallSpeed realArith (lunar 3 0) 1 ≤ CountFallSpeed realArith (lunar 3 0) 2 := by
  have hg : 0 < (lunar 3 0).g := by rw [lunar_g]; norm_num
  have h12 : (1 : ℝ) ≤ 2 := by norm_num
  have key := CountFallSpeed_monotone (lunar 3 0) 0 1 2 hg h12
  refine ⟨hg, h12, ?_, key.2⟩
  rw [key.1, lunar_startSpeed]
  norm_num

/-- C13, counterexample: the start height 0 is not positive, yet nothing is
rejected: the search is run on the state holding it, evaluates no candidate and
returns that state, with the default pair (0, 0). -/
theorem nonpositive_height_not_rejected :
    (lunar 0 0).startHeight ≤ 0 ∧
      FindVariableTimeTraced realArith 1 (lunar 0 0) = some (lunar 0 0, []) ∧
      FindVariableTime realArith 1 (lunar 0 0) = some (lunar 0 0) ∧
      (lunar 0 0).fallTime = 0 ∧ (lunar 0 0).engineTime = 0 := by
  have hg : outerGuard realArith (lunar 0 0) (realArith.lit 1.0) = false := by
    rw [outerGuard, real_le_false, lunar_CountFallHeight, lunar_startHeight, real_lit]
    norm_num
  have h := FindVariableTimeTraced_of_guard_false realArith 0 (lunar 0 0) hg
  refine ⟨?_, h, FindVariableTime_of_traced realArith h, lunar_fallTime _ _,
    lunar_engineTime _ _⟩
  rw [lunar_startHeight]

/-- C13, as amended: no input is rejected. In binary64, whenever the guard
`CountFallHeight(1.0) <= startHeight` is false as the program computes it, the
search is run, evaluates no candidate and returns the state it was given; this
is the case for every start height that is not positive with a start speed
between `0` and `10 ^ 9` (`math.Pow(x, 2)` being the rounded square), where the
state returned holds the default pair `(0, 0)`. -/
theorem overshoot_runs_to_default (log : Binary64 → Binary64)
    (pow : Binary64 → Binary64 → Binary64) (hpow : ∀ x, pow x (ofRat 2) = mul x x)
    (hs : Bool) (a h : ℚ) (ha0 : 0 ≤ a) (ha : a ≤ 10 ^ 9) (hh0 : 0 ≤ h)
    (hH : signed hs h ≤ 0) (fuel : Nat) :
    (∀ st : consts Binary64,
        outerGuard (binary64Arith log pow) st ((binary64Arith log pow).lit 1.0) = false →
        FindVariableTimeTraced (binary64Arith log pow) (fuel + 1) st = some (st, []) ∧
        FindVariableTime (binary64Arith log pow) (fuel + 1) st = some st) ∧
      FindVariableTimeTraced (binary64Arith log pow) (fuel + 1)
          (setStart (num (binary64Arith log pow)) (fin false a) (fin hs h))
        = some (setStart (num (binary64Arith log pow)) (fin false a) (fin hs h), []) ∧
      (setStart (num (binary64Arith log pow)) (fin false a) (fin hs h)).fallTime
        = (binary64Arith log pow).lit 0 ∧
      (setStart (num (binary64Arith log pow)) (fin false a) (fin hs h)).engineTime
        = (binary64Arith log pow).lit 0 := by
  have hgen : ∀ st : consts Binary64,
      outerGuard (binary64Arith log pow) st ((binary64Arith log pow).lit 1.0) = false →
      FindVariableTimeTraced (binary64Arith log pow) (fuel + 1) st = some (st, []) ∧
      FindVariableTime (binary64Arith log pow) (fuel + 1) st = some st := by
    intro st hg
    have h1 := FindVariableTimeTraced_of_guard_false (binary64Arith log pow) fuel st hg
    exact ⟨h1, FindVariableTime_of_traced (binary64Arith log pow) h1⟩
  exact ⟨hgen, (hgen _ (binary64_guard_nonpositive log pow hpow hs a h ha0 ha hh0 hH)).1,
    rfl, rfl⟩

/-- C13, witness: start speed 2 and the negative start height -5. -/
theorem overshoot_runs_to_default_witness :
    (0 : ℚ) ≤ 2 ∧ signed true 5 ≤ 0 ∧
      FindVariableTimeTraced testArith 1 (setStart (num testArith) (fin false 2) (fin true 5))
        = some (setStart (num testArith) (fin false 2) (fin true 5), []) := by
  have h2 : (0 : ℚ) ≤ 2 := by norm_num
  have h5 : signed true 5 ≤ 0 := by
    simp only [signed, if_true]
    norm_num
  exact ⟨h2, h5, (overshoot_runs_to_default (fun _ => nan) (fun x _ => mul x x)
    (fun _ => rfl) true 2 5 h2 (by norm_num) (by norm_num) h5 0).2.1⟩

/-- C14: `FindVariableTime` changes no field of the state other than `fallTime`
and `engineTime`, and the three `generate...Data` functions return the state
they were given. -/
theorem FindVariableTime_frame {F : Type} (A : Float64Arith F) (fuel : Nat)
    (st st' : consts F) (h : FindVariableTime A fuel st = some st') :
    (st'.objectMass = st.objectMass ∧ st'.fuelMass = st.fuelMass ∧
        st'.jetSpeed = st.jetSpeed ∧ st'.burnSpeed = st.burnSpeed ∧ st'.g = st.g ∧
        st'.startSpeed = st.startSpeed ∧ st'.startHeight = st.startHeight ∧
        st'.mass = st.mass) ∧
      (∀ f g start e step n r,
        generateSpeedData A st' f g start e step n = some r → r.1 = st') ∧
      (∀ f g start e step n r,
        generateHeightData A st' f g start e step n = some r → r.1 = st') ∧
      (∀ f start e step n r,
        generateAccelerationData A st' f start e step n = some r → r.1 = st') := by
  have hst := FindVariableTime_eq_withTimes A h
  refine ⟨?_, ?_, ?_, ?_⟩
  · rw [hst]
    exact ⟨rfl, rfl, rfl, rfl, rfl, rfl, rfl, rfl⟩
  · intro f g start e step n r hr
    simp only [generateSpeedData] at hr
    split at hr
    · cases hr
    · split at hr
      · cases hr
      · rw [← Option.some.inj hr]
  · intro f g start e step n r hr
    simp only [generateHeightData] at hr
    split at hr
    · cases hr
    · split at hr
      · cases hr
      · rw [← Option.some.inj hr]
  · intro f start e step n r hr
    simp only [generateAccelerationData] at hr
    split at hr
    · cases hr
    · split at hr
      · cases hr
      · rw [← Option.some.inj hr]

/-- C14, witness: the run from start speed 10 and start height 14. -/
theorem FindVariableTime_frame_witness :
    ∃ st', FindVariableTime realArith 1000 (lunar 10 14) = some st' ∧
      st'.mass = 2300 ∧ st'.g = 1.62 ∧ st'.startSpeed = 10 ∧ st'.startHeight = 14 := by
  obtain ⟨st', tr, h, _⟩ := run10_trace
  have h' := FindVariableTime_of_traced realArith h
  obtain ⟨⟨_, _, _, _, hg, hs, hH, hM⟩, _⟩ :=
    FindVariableTime_frame realArith 1000 (lunar 10 14) st' h'
  refine ⟨st', h', ?_, ?_, ?_, ?_⟩
  · rw [hM, lunar_mass]
  · rw [hg, lunar_g]
  · rw [hs, lunar_startSpeed]
  · rw [hH, lunar_startHeight]

/-- C15: in binary64, for every `math.Log` and `math.Pow`, every sampling request
with `start ≥ 0` and `step ≥ 0` and every state with `fallTime ≥ 0` and
`engineTime ≥ 0`: whenever `generateSpeedData`, `generateHeightData` or
`generateAccelerationData` returns, the series it returns are the samples of
its two loops, one time and one value for each value of the counter that passed
the guard, the times are in non-decreasing order, there are as many times as
values, and the times are fall-phase times, at most `fallTime`, followed by
burn-phase times, between `fallTime` and `fallTime + engineTime`. All three
functions return when the four numbers are finite and the step is not too small
for the size of `fallTime` and `engineTime` (at most `2 ^ 50` steps each). -/
theorem generate_series_split (log : Binary64 → Binary64)
    (pow : Binary64 → Binary64 → Binary64) (st : consts Binary64)
    (f : Binary64 → Binary64) (g : Binary64 → Binary64 → Binary64)
    (start e step : Binary64) (h0 : isNonnegValue start) (hs : isNonnegValue step)
    (hft : isNonnegValue st.fallTime) (het : isNonnegValue st.engineTime) :
    (∀ fuel r, generateSpeedData (binary64Arith log pow) st f g start e step fuel = some r →
        SplitSeries (binary64Arith log pow) st start step f (fun x => g st.fallTime x)
          r.2.1 r.2.2) ∧
      (∀ fuel r,
        generateHeightData (binary64Arith log pow) st f g start e step fuel = some r →
        SplitSeries (binary64Arith log pow) st start step f
          (fun x => add (CountFallHeight (binary64Arith log pow) st st.fallTime)
            (g st.fallTime x)) r.2.1 r.2.2) ∧
      (∀ fuel r,
        generateAccelerationData (binary64Arith log pow) st f start e step fuel = some r →
        SplitSeries (binary64Arith log pow) st start step (fun _ => st.g) f r.2.1 r.2.2) ∧
      (isFinite start → isFinite st.fallTime → isFinite st.engineTime →
        1 / 10 ^ 190 ≤ toRat step → toRat step ≤ 10 ^ 180 →
        toRat st.fallTime ≤ 2 ^ 50 * toRat step →
        toRat st.engineTime ≤ 2 ^ 50 * toRat step →
        ∃ n : Nat, ∀ fuel, n ≤ fuel →
          (∃ r, generateSpeedData (binary64Arith log pow) st f g start e step fuel = some r) ∧
          (∃ r, generateHeightData (binary64Arith log pow) st f g start e step fuel
            = some r) ∧
          (∃ r, generateAccelerationData (binary64Arith log pow) st f start e step fuel
            = some r)) := by
  refine ⟨?_, ?_, ?_, ?_⟩
  · intro fuel r hr
    simp only [generateSpeedData] at hr
    split at hr
    · cases hr
    · rename_i r1 h1
      split at hr
      · cases hr
      · rename_i r2 h2
        rw [← Option.some.inj hr]
        exact binary64_split log pow st start step hft het h0 hs _ _ _ _
          (sampleLoop_two_phase _ st start step _ _ fuel r1 r2 h1 h2)
  · intro fuel r hr
    simp only [generateHeightData] at hr
    split at hr
    · cases hr
    · rename_i r1 h1
      split at hr
      · cases hr
      · rename_i r2 h2
        rw [← Option.some.inj hr]
        exact binary64_split log pow st start step hft het h0 hs _ _ _ _
          (sampleLoop_two_phase _ st start step _ _ fuel r1 r2 h1 h2)
  · intro fuel r hr
    simp only [generateAccelerationData] at hr
    split at hr
    · cases hr
    · rename_i r1 h1
      split at hr
      · cases hr
      · rename_i r2 h2
        rw [← Option.some.inj hr]
        exact binary64_split log pow st start step hft het h0 hs _ _ _ _
          (sampleLoop_two_phase _ st start step _ _ fuel r1 r2 h1 h2)
  · intro hf0 hf1 hf2 hlow hhigh hg1 hg2
    obtain ⟨n1, hn1⟩ := binary64_sampleCounter_exits log pow start step st.fallTime h0 hs hft
      hf1 hf0 hlow hhigh hg1
    obtain ⟨n2, hn2⟩ := binary64_sampleCounter_exits log pow start step st.engineTime h0 hs het
      hf2 hf0 hlow hhigh hg2
    refine ⟨n1 + n2 + 1, fun fuel hfuel => ⟨?_, ?_, ?_⟩⟩
    · obtain ⟨r, r', hr, hr'⟩ := sampleLoop_two_phase_returns (binary64Arith log pow) st
        start step f (fun x => g st.fallTime x) n1 n2 hn1 hn2 fuel hfuel
      exact ⟨(st, r'.2, r'.1), by simp only [generateSpeedData, hr, hr']⟩
    · obtain ⟨r, r', hr, hr'⟩ := sampleLoop_two_phase_returns (binary64Arith log pow) st
        start step f (fun x => (binary64Arith log pow).add
          (CountFallHeight (binary64Arith log pow) st st.fallTime) (g st.fallTime x))
        n1 n2 hn1 hn2 fuel hfuel
      exact ⟨(st, r'.2, r'.1), by simp only [generateHeightData, hr, hr']⟩
    · obtain ⟨r, r', hr, hr'⟩ := sampleLoop_two_phase_returns (binary64Arith log pow) st
        start step (fun _ => st.g) f n1 n2 hn1 hn2 fuel hfuel
      exact ⟨(st, r'.2, r'.1), by simp only [generateAccelerationData, hr, hr']⟩

/-- C15, witness: the request of `main`, start 0 and step 0.01, on the state the
search leaves from the input `0 0.5`, with the times `(0, 0)`: the acceleration
series has one fall-phase and one burn-phase sample, both at time 0. -/
theorem generate_series_split_witness :
    isNonnegValue (fin false 0) ∧ isNonnegValue (ofRat 0.01) ∧
      (generateAccelerationData testArith (setStart (num testArith) (fin false 0) (ofRat 0.5))
          (CountAccelerationWithWorkingEngine testArith
            (setStart (num testArith) (fin false 0) (ofRat 0.5)))
          (fin false 0) (fin false 0) (ofRat 0.01) 2).map (fun r => r.2)
        = some ([fin false (1823957849085051 / 1125899906842624),
            fin true (6262695851387439 / 281474976710656)],
          [fin false 0, fin false 0]) ∧
      (∀ fuel r,
        generateAccelerationData testArith (setStart (num testArith) (fin false 0) (ofRat 0.5))
          (CountAccelerationWithWorkingEngine testArith
            (setStart (num testArith) (fin false 0) (ofRat 0.5)))
          (fin false 0) (fin false 0) (ofRat 0.01) fuel = some r →
        SplitSeries testArith (setStart (num testArith) (fin false 0) (ofRat 0.5))
          (fin false 0) (ofRat 0.01)
          (fun _ => (setStart (num testArith) (fin false 0) (ofRat 0.5)).g)
          (CountAccelerationWithWorkingEngine testArith
            (setStart (num testArith) (fin false 0) (ofRat 0.5))) r.2.1 r.2.2) := by
  have h0 : isNonnegValue (fin false 0) := binary64_nonneg_zero false
  have hs : isNonnegValue (ofRat 0.01) := by
    have e : ofRat 0.01 = roundNearestEven false 0.01 := by decide!
    rw [e]
    exact binary64_round_nonnegValue _
  refine ⟨h0, hs, by decide!, ?_⟩
  exact (generate_series_split (fun _ => nan) (fun x _ => mul x x)
    (setStart (num testArith) (fin false 0) (ofRat 0.5))
    (CountAccelerationWithWorkingEngine testArith
      (setStart (num testArith) (fin false 0) (ofRat 0.5)))
    (fun _ x => x) (fin false 0) (fin false 0) (ofRat 0.01) h0 hs h0 h0).2.2.1

/-- C16: whenever at least one grid pair is scanned and accepted and the search
ends, the pair it leaves in `(fallTime, engineTime)` is a scanned and accepted
grid pair with indices `(k, m)` such that no pair with a later outer index
`k' > k` is scanned and accepted (the latest accepting fall time in scan order)
and no pair `(k, m')` with `m' < m` is accepted (the earliest accepting burn time
for that fall time). -/
theorem FindVariableTime_records_latest {F : Type} (A : Float64Arith F) (fuel : Nat)
    (st st' : consts F) (h : FindVariableTime A fuel st = some st')
    (hacc : ∃ k m, AcceptedAt A st (A.lit 1.0) (A.lit 0.5) k m) :
    ∃ k m : Nat, AcceptedAt A st (A.lit 1.0) (A.lit 0.5) k m ∧
      st'.fallTime = (outerStep A)^[k] (A.lit 1.0) ∧
      st'.engineTime = (innerStep A)^[m] (A.lit 0.5) ∧
      (∀ m', m' < m →
        accepts A st st'.fallTime ((innerStep A)^[m'] (A.lit 0.5)) = false) ∧
      ∀ k' m', k < k' → ¬ AcceptedAt A st (A.lit 1.0) (A.lit 0.5) k' m' := by
  rcases outerLoop_cases A fuel (A.lit 1.0) st st' h with
    ⟨k, m, hAcc, hrej, hst', hlater⟩ | ⟨_, hnone⟩
  · have hft : st'.fallTime = (outerStep A)^[k] (A.lit 1.0) := by rw [hst']; rfl
    have het : st'.engineTime = (innerStep A)^[m] (A.lit 0.5) := by rw [hst']; rfl
    refine ⟨k, m, hAcc, hft, het, ?_, hlater⟩
    rw [hft]
    exact hrej
  · obtain ⟨k, m, hkm⟩ := hacc
    exact absurd hkm (hnone k m)

/-- C16, witness: the run from start speed 10 and start height 14, where the
first grid pair, (1, 0.5), is accepted. -/
theorem FindVariableTime_records_latest_witness :
    ∃ st', FindVariableTime realArith 1000 (lunar 10 14) = some st' ∧
      (∃ k m, AcceptedAt realArith (lunar 10 14) (realArith.lit 1.0) (realArith.lit 0.5) k m) ∧
      ∃ k m : Nat, st'.fallTime = (outerStep realArith)^[k] (realArith.lit 1.0) ∧
        st'.engineTime = (innerStep realArith)^[m] (realArith.lit 0.5) ∧
        ∀ k' m', k < k' →
          ¬ AcceptedAt realArith (lunar 10 14) (realArith.lit 1.0) (realArith.lit 0.5) k' m' := by
  obtain ⟨st', tr, h, _⟩ := run10_trace
  have h' := FindVariableTime_of_traced realArith h
  have h1lit : realArith.lit 1.0 = (1 : ℝ) := by rw [real_lit]; norm_num
  have hacc : ∃ k m,
      AcceptedAt realArith (lunar 10 14) (realArith.lit 1.0) (realArith.lit 0.5) k m := by
    refine ⟨0, 0, ?_, ?_, ?_⟩
    · intro k' hk'
      obtain rfl : k' = 0 := by omega
      rw [Function.iterate_zero_apply, h1lit, real_outerGuard, lunar_CountFallHeight,
        lunar_startHeight]
      norm_num
    · intro m' hm'
      obtain rfl : m' = 0 := by omega
      exact real_le_half_ten
    · rw [Function.iterate_zero_apply, Function.iterate_zero_apply, h1lit]
      exact run10_accepts_half 1 (le_refl 1) (by norm_num)
  obtain ⟨k, m, _, hft, het, _, hlater⟩ :=
    FindVariableTime_records_latest realArith 1000 (lunar 10 14) st' h' hacc
  exact ⟨st', h', hacc, k, m, hft, het, hlater⟩

/-- C17, counterexample: in binary64 the candidates are not the decimal grid
values. After two increments the outer counter is `1.0019999999999998`, which is
neither the float64 value of `1.002` nor a number `1 + 0.001 k`, and the inner
counter is `0.6000000000000001`, which is neither the float64 value of `0.6` nor a
number `0.5 + 0.05 m`. -/
theorem FindVariableTime_candidates_off_grid :
    (outerStep testArith)^[2] (testArith.lit 1.0)
        = fin false (4512606826625236 / 4503599627370496) ∧
      (outerStep testArith)^[2] (testArith.lit 1.0) ≠ testArith.lit 1.002 ∧
      (∀ k : ℕ, (4512606826625236 / 4503599627370496 : ℚ) ≠ 1 + 0.001 * k) ∧
      (innerStep testArith)^[2] (testArith.lit 0.5)
        = fin false (5404319552844596 / 9007199254740992) ∧
      (innerStep testArith)^[2] (testArith.lit 0.5) ≠ testArith.lit 0.6 ∧
      ∀ m : ℕ, (5404319552844596 / 9007199254740992 : ℚ) ≠ 0.5 + 0.05 * m := by
  have e1 : (outerStep testArith)^[2] (testArith.lit 1.0)
      = (fun x => add x (ofRat 0.001))^[2] (ofRat 1.0) := rfl
  have e2 : (innerStep testArith)^[2] (testArith.lit 0.5) = stepBurn^[2] (ofRat 0.5) := rfl
  have e3 : testArith.lit 1.002 = ofRat 1.002 := rfl
  have e4 : testArith.lit 0.6 = ofRat 0.6 := rfl
  obtain ⟨h1, h2, h3, h4⟩ := binary64_counters_off_grid
  refine ⟨e1.trans h1, ?_, ?_, e2.trans h3, ?_, ?_⟩
  · rw [e1, e3, h1, h2]
    intro hc
    injection hc with _ hq
    norm_num at hq
  · intro k hk
    have hk' : (1128151706656309 : ℚ) * 1000 = (1000 + (k : ℚ)) * 1125899906842624 := by
      have : (4512606826625236 / 4503599627370496 : ℚ) * 1125899906842624000
          = (1 + 0.001 * (k : ℚ)) * 1125899906842624000 := by rw [hk]
      norm_num at this
      linarith
    have hk'' : (1128151706656309 : ℕ) * 1000 = (1000 + k) * 1125899906842624 := by
      exact_mod_cast hk'
    omega
  · rw [e2, e4, h3, h4]
    intro hc
    injection hc with _ hq
    norm_num at hq
  · intro m hm
    have hm' : (1351079888211149 : ℚ) * 20 = (10 + (m : ℚ)) * 2251799813685248 := by
      have : (5404319552844596 / 9007199254740992 : ℚ) * 45035996273704960
          = (0.5 + 0.05 * (m : ℚ)) * 45035996273704960 := by rw [hm]
      norm_num at this
      linarith
    have hm'' : (1351079888211149 : ℕ) * 20 = (10 + m) * 2251799813685248 := by
      exact_mod_cast hm'
    omega

/-- C17, as amended: in binary64, whatever `math.Log` and `math.Pow` compute, after
the search has run from the initial state for a start speed and a start height,
either both times are still `0`, or `fallTime` is the value of the outer counter
after `k` additions of `0.001` to `1.0`, with `CountFallHeight(fallTime) <=
startHeight`, and `engineTime` is the value of the inner counter after `m < 190`
additions of `0.05` to `0.5`, with `0.5 <= engineTime <= 10`; neither time is
negative; and when `CountFallHeight(1.0) <= startHeight` is false no candidate is
evaluated and the state is unchanged. -/
theorem FindVariableTime_range (log : Binary64 → Binary64)
    (pow : Binary64 → Binary64 → Binary64) (s H : Binary64) (fuel : Nat)
    (st' : consts Binary64) (tr : List (Probe Binary64))
    (h : FindVariableTimeTraced (binary64Arith log pow) fuel
      (setStart (num (binary64Arith log pow)) s H) = some (st', tr)) :
    ((st'.fallTime = (binary64Arith log pow).lit 0 ∧
          st'.engineTime = (binary64Arith log pow).lit 0) ∨
        ∃ k m : Nat,
          st'.fallTime
            = (outerStep (binary64Arith log pow))^[k] ((binary64Arith log pow).lit 1.0) ∧
          outerGuard (binary64Arith log pow) (setStart (num (binary64Arith log pow)) s H)
            st'.fallTime = true ∧
          st'.engineTime
            = (innerStep (binary64Arith log pow))^[m] ((binary64Arith log pow).lit 0.5) ∧
          m < 190 ∧
          (binary64Arith log pow).le ((binary64Arith log pow).lit 0.5) st'.engineTime = true ∧
          (binary64Arith log pow).le st'.engineTime ((binary64Arith log pow).lit 10) = true) ∧
      (binary64Arith log pow).le ((binary64Arith log pow).lit 0) st'.fallTime = true ∧
      (binary64Arith log pow).le ((binary64Arith log pow).lit 0) st'.engineTime = true ∧
      (outerGuard (binary64Arith log pow) (setStart (num (binary64Arith log pow)) s H)
          ((binary64Arith log pow).lit 1.0) = false →
        tr = [] ∧ st' = setStart (num (binary64Arith log pow)) s H) := by
  obtain ⟨hst, hprobes⟩ := outerLoopTraced_spec (binary64Arith log pow) fuel _ _ st' tr h
  have h00 : le (ofRat 0) (ofRat 0) = true := by
    rw [binary64_constants_more.2.2.2.1]
    decide
  by_cases hacc : ∃ p ∈ tr, p.accepted = true
  · obtain ⟨p, hp, _, hlast⟩ := record_eq_accepted
      (setStart (num (binary64Arith log pow)) s H) tr hacc
    have h1 : st'.fallTime = p.fallTime := by rw [hst, hlast]; rfl
    have h2 : st'.engineTime = p.burnTime := by rw [hst, hlast]; rfl
    obtain ⟨_, ⟨k, hk, hkg⟩, hin⟩ := hprobes p hp
    obtain ⟨⟨m, hm, hj⟩, hdom⟩ := binary64_innerReach_inDomain log pow hin
    simp only [burnInDomain, Bool.and_eq_true, Bool.not_eq_true'] at hdom
    obtain ⟨⟨⟨⟨⟨d0, d1⟩, d2⟩, _⟩, _⟩, _⟩ := hdom
    have hg : outerGuard (binary64Arith log pow) (setStart (num (binary64Arith log pow)) s H)
        p.fallTime = true := by
      rw [hk]
      exact hkg k (le_refl k)
    have hnn : le (ofRat 0) p.fallTime = true := by
      rw [hk]
      exact binary64_zero_le (binary64_outer_counter_isNonneg log pow k)
    refine ⟨Or.inr ⟨k, m, h1.trans hk, ?_, h2.trans hj, hm, ?_, ?_⟩, ?_, ?_, ?_⟩
    · rw [h1]
      exact hg
    · rw [h2]
      exact d1
    · rw [h2]
      exact d2
    · rw [h1]
      exact hnn
    · rw [h2]
      exact d0
    · intro hfalse
      have hg0 := hkg 0 (Nat.zero_le k)
      rw [Function.iterate_zero_apply, hfalse] at hg0
      cases hg0
  · have hnone : ∀ p ∈ tr, p.accepted = false := by
      intro p hp
      cases hpa : p.accepted with
      | false => rfl
      | true => exact absurd ⟨p, hp, hpa⟩ hacc
    have hst' : st' = setStart (num (binary64Arith log pow)) s H := by
      rw [hst, record_none _ tr hnone]
    have hft : st'.fallTime = (binary64Arith log pow).lit 0 := by rw [hst']; rfl
    have het : st'.engineTime = (binary64Arith log pow).lit 0 := by rw [hst']; rfl
    refine ⟨Or.inl ⟨hft, het⟩, ?_, ?_, ?_⟩
    · rw [hft]
      exact h00
    · rw [het]
      exact h00
    · intro hfalse
      cases fuel with
      | zero => cases h
      | succ n =>
        rw [FindVariableTimeTraced_of_guard_false (binary64Arith log pow) n _ hfalse] at h
        simp only [Option.some.injEq, Prod.mk.injEq] at h
        exact ⟨h.2.symm, h.1.symm⟩

/-- C17, witness: the binary64 test run from start speed 0 and start height
0.811, which leaves both times `0`. -/
theorem FindVariableTime_range_witness :
    ∃ st' tr, FindVariableTimeTraced testArith 200
        (setStart (num testArith) (ofRat 0) (ofRat 0.811)) = some (st', tr) ∧
      testArith.le (testArith.lit 0) st'.fallTime = true ∧
      testArith.le (testArith.lit 0) st'.engineTime = true := by
  have hlen := binary64_test_run
  cases hr : FindVariableTimeTraced testArith 200
      (setStart (num testArith) (ofRat 0) (ofRat 0.811)) with
  | none => rw [hr] at hlen; cases hlen
  | some r =>
    have key := FindVariableTime_range (fun _ => nan) (fun x _ => mul x x)
      (ofRat 0) (ofRat 0.811) 200 r.1 r.2 hr
    exact ⟨r.1, r.2, rfl, key.2.1, key.2.2.1⟩

/-- C18: where propellant is left (`mass > 0` and `burnSpeed * t < mass`, in
particular for `t ≥ 0` and `burnSpeed > 0`), the derivative of
`CountSpeedWithWorkingEngine ft t` with respect to `t` is
`CountAccelerationWithWorkingEngine t`, which is
`g - jetSpeed * burnSpeed / (mass - burnSpeed * t)`. -/
theorem CountSpeedWithWorkingEngine_hasDerivAt (st : consts ℝ) (ft t : ℝ)
    (hM : 0 < st.mass) (ht : st.burnSpeed * t < st.mass) :
    HasDerivAt (fun x => CountSpeedWithWorkingEngine realArith st ft x)
        (CountAccelerationWithWorkingEngine realArith st t) t ∧
      CountAccelerationWithWorkingEngine realArith st t
        = st.g - st.jetSpeed * st.burnSpeed / (st.mass - st.burnSpeed * t) := by
  have hpos : 0 < st.mass - st.burnSpeed * t := by linarith
  constructor
  · have hf : (fun x => CountSpeedWithWorkingEngine realArith st ft x) = fun x : ℝ =>
        (st.startSpeed + st.g * ft) + st.g * x
          - st.jetSpeed * Real.log (st.mass / (st.mass - st.burnSpeed * x)) :=
      funext (real_CountSpeedWithWorkingEngine st ft)
    rw [hf, real_CountAccelerationWithWorkingEngine]
    exact hasDerivAt_speed_formula _ _ _ _ _ t hM hpos
  · rw [real_CountAccelerationWithWorkingEngine]
    ring

/-- C18, witness: the configured vehicle after a burn of 0.5 s. -/
theorem CountSpeedWithWorkingEngine_hasDerivAt_witness :
    0 < (lunar 0 0).mass ∧ (lunar 0 0).burnSpeed * 0.5 < (lunar 0 0).mass ∧
      HasDerivAt (fun x => CountSpeedWithWorkingEngine realArith (lunar 0 0) 8 x)
        (CountAccelerationWithWorkingEngine realArith (lunar 0 0) 0.5) 0.5 := by
  have hM : 0 < (lunar 0 0).mass := by rw [lunar_mass]; norm_num
  have ht : (lunar 0 0).burnSpeed * 0.5 < (lunar 0 0).mass := by
    rw [lunar_burnSpeed, lunar_mass]; norm_num
  exact ⟨hM, ht, (CountSpeedWithWorkingEngine_hasDerivAt (lunar 0 0) 8 0.5 hM ht).1⟩

/-- C19: for `mass > 0` and every fall duration `ft`,
`CountSpeedWithWorkingEngine ft 0` is `CountFallSpeed ft` and
`CountHeightWithWorkingEngine ft 0` is `0`, so the first burn-phase sample of the
height, `CountFallHeight ft + CountHeightWithWorkingEngine ft 0`, is the height
`CountFallHeight ft` reached by the fall. -/
theorem powered_phase_joins_fall (st : consts ℝ) (ft : ℝ) (hM : 0 < st.mass) :
    CountSpeedWithWorkingEngine realArith st ft 0 = CountFallSpeed realArith st ft ∧
      CountHeightWithWorkingEngine realArith st ft 0 = 0 ∧
      realArith.add (CountFallHeight realArith st ft)
          (CountHeightWithWorkingEngine realArith st ft 0)
        = CountFallHeight realArith st ft := by
  have hzero : CountHeightWithWorkingEngine realArith st ft 0 = 0 := by
    rw [real_CountHeightWithWorkingEngine]
    simp
  refine ⟨?_, hzero, ?_⟩
  · rw [real_CountSpeedWithWorkingEngine]
    have h1 : st.mass / (st.mass - st.burnSpeed * 0) = 1 := by
      rw [mul_zero, sub_zero, div_self hM.ne']
    rw [h1, Real.log_one]
    show _ = st.startSpeed + st.g * ft
    ring
  · rw [hzero]
    show CountFallHeight realArith st ft + 0 = _
    ring

/-- C19, witness: the configured vehicle after a fall of 8 s. -/
theorem powered_phase_joins_fall_witness :
    0 < (lunar 0 55.5).mass ∧
      CountSpeedWithWorkingEngine realArith (lunar 0 55.5) 8 0
        = CountFallSpeed realArith (lunar 0 55.5) 8 ∧
      CountHeightWithWorkingEngine realArith (lunar 0 55.5) 8 0 = 0 := by
  have hM : 0 < (lunar 0 55.5).mass := by rw [lunar_mass]; norm_num
  have key := powered_phase_joins_fall (lunar 0 55.5) 8 hM
  exact ⟨hM, key.1, key.2.1⟩

end Claims

end Physics
